import Mathlib

/-!
# Generic highlighter rules (Qt Creator, `specificrules.cpp`)

A shallow embedding of the rule matchers of
`src/plugins/texteditor/generichighlighter/specificrules.cpp`.

* A `QChar` is a UTF-16 code unit (a natural number), a `QString` a list of them.
* Offsets are C++ `int`s and are modelled by `Int`.
* `QString::at(i)` and `QString::fromRawData` read memory; an access outside the
  string is modelled by `none`, so every matcher returns an `Option`.
* The Unicode tables of the Qt library (`QChar::isDigit`, `QChar::toLower`, ...)
  and the regular expression engine (`QRegExp`) are parameters.
-/

namespace GenericHighlighter

/-! ## Strings and characters -/

/-- A UTF-16 code unit. -/
abbrev QChar := Nat

/-- A sequence of UTF-16 code units. -/
abbrev QString := List Nat

/-- The character classification functions of the Qt library that the rules call.
They are table driven (Unicode character database) and are taken as parameters. -/
structure QCharOps where
  isDigit : QChar → Bool
  isSpace : QChar → Bool
  isLetter : QChar → Bool
  isLetterOrNumber : QChar → Bool
  isMark : QChar → Bool
  toLower : QChar → QChar
  foldCase : QChar → QChar
  digitValue : QChar → Int

/-- The enumeration `Qt::CaseSensitivity`. -/
inductive CaseSensitivity where
  | CaseInsensitive
  | CaseSensitive
  deriving DecidableEq, Repr

/-- The access `QString::at(i)`: the code unit at index `i`, `none` outside the string. -/
def charAt (text : QString) (i : Int) : Option QChar :=
  if i < 0 then none else text[i.toNat]?

/-- The call `QString::fromRawData(text.unicode() + offset, size)`: the `size` code units of
`text` from `offset` on, `none` when the range leaves the string. -/
def fromRawData (text : QString) (offset size : Int) : Option QString :=
  if 0 ≤ offset ∧ 0 ≤ size ∧ offset + size ≤ (text.length : Int) then
    some ((text.drop offset.toNat).take size.toNat)
  else none

/-- The test `a.compare(b, cs) == 0` of `QString`. -/
def compareEq (q : QCharOps) (a b : QString) : CaseSensitivity → Bool
  | .CaseSensitive => decide (a = b)
  | .CaseInsensitive => decide (a.map q.foldCase = b.map q.foldCase)

/-- The call `s.indexOf(c, from)` of `QString`: the first index at or after `from` (the
amount of fuel bounds the search) holding `c`, or `-1`. -/
def indexOfFrom (c : QChar) : QString → Nat → Int
  | [], _ => -1
  | x :: xs, i => if x = c then (i : Int) else indexOfFrom c xs (i + 1)

/-- The call `s.indexOf(c, from)` for `0 ≤ from`. -/
def indexOf (s : QString) (c : QChar) (start : Int) : Int :=
  indexOfFrom c (s.drop start.toNat) start.toNat

/-! ## Constants

Modelled from the spec: the character constants `kZero`, `kX`, `kE`, `kDot`, `kPlus`,
`kMinus`, `kBackSlash`, `kSingleQuote`, `kUnderscore`, ... are declared in `rule.h` and
`reuse.h`, which are not part of the sources at hand; the specification names them
(leading `0`, `x`/`X`, `e`/`E`, decimal point, sign, backslash, single quote, underscore). -/

/-- The constant kPercent of replaceByCaptures, the code unit of the percent sign. -/
def kPercent : QChar := 37

/-- Modelled from the spec: the constant kZero of rule.h (not part of the sources at hand),
the code unit of the character 0. -/
def kZero : QChar := 48

/-- Modelled from the spec: the constant kX of rule.h (not part of the sources at hand),
the code unit of the character x. -/
def kX : QChar := 120

/-- The code unit of the capital letter X, used to state results. -/
def kUpperX : QChar := 88

/-- Modelled from the spec: the constant kE of rule.h (not part of the sources at hand),
the code unit of the character e. -/
def kE : QChar := 101

/-- The code unit of the capital letter E, used to state results. -/
def kUpperE : QChar := 69

/-- Modelled from the spec: the constant kDot of rule.h (not part of the sources at hand),
the code unit of the character .. -/
def kDot : QChar := 46

/-- Modelled from the spec: the constant kPlus of rule.h (not part of the sources at hand),
the code unit of the character +. -/
def kPlus : QChar := 43

/-- Modelled from the spec: the constant kMinus of rule.h (not part of the sources at hand),
the code unit of the character -. -/
def kMinus : QChar := 45

/-- Modelled from the spec: the constant kBackSlash of rule.h (not part of the sources at hand),
the code unit of the character backslash. -/
def kBackSlash : QChar := 92

/-- Modelled from the spec: the constant kSingleQuote of rule.h (not part of the sources at hand),
the code unit of the character single quote. -/
def kSingleQuote : QChar := 39

/-- Modelled from the spec: the constant kQuote of rule.h (not part of the sources at hand),
the code unit of the character double quote. -/
def kQuote : QChar := 34

/-- Modelled from the spec: the constant kQuestion of rule.h (not part of the sources at hand),
the code unit of the character ?. -/
def kQuestion : QChar := 63

/-- Modelled from the spec: the constant kUnderscore of rule.h (not part of the sources at hand),
the code unit of the character _. -/
def kUnderscore : QChar := 95

/-- Modelled from the spec: the constant kA of rule.h (not part of the sources at hand),
the code unit of the character a. -/
def kA : QChar := 97

/-- Modelled from the spec: the constant kB of rule.h (not part of the sources at hand),
the code unit of the character b. -/
def kB : QChar := 98

/-- Modelled from the spec: the constant kF of rule.h (not part of the sources at hand),
the code unit of the character f. -/
def kF : QChar := 102

/-- Modelled from the spec: the constant kN of rule.h (not part of the sources at hand),
the code unit of the character n. -/
def kN : QChar := 110

/-- Modelled from the spec: the constant kR of rule.h (not part of the sources at hand),
the code unit of the character r. -/
def kR : QChar := 114

/-- Modelled from the spec: the constant kT of rule.h (not part of the sources at hand),
the code unit of the character t. -/
def kT : QChar := 116

/-- Modelled from the spec: the constant kV of rule.h (not part of the sources at hand),
the code unit of the character v. -/
def kV : QChar := 118

/-- Modelled from the spec: `isOctalDigit` of `reuse.h` (not part of the sources at hand),
the octal digits `0`-`7`. -/
def isOctalDigit (c : QChar) : Bool := decide (48 ≤ c ∧ c ≤ 55)

/-- Modelled from the spec: `isHexDigit` of `reuse.h` (not part of the sources at hand),
the hexadecimal digits `0`-`9`, `A`-`F`, `a`-`f`. -/
def isHexDigit (c : QChar) : Bool :=
  decide ((48 ≤ c ∧ c ≤ 57) ∨ (65 ≤ c ∧ c ≤ 70) ∨ (97 ≤ c ∧ c ≤ 102))

/-- Modelled from the spec: `toCaseSensitivity` of `reuse.h` (not part of the sources at
hand): case-sensitive or not per flag. -/
def toCaseSensitivity (sensitive : Bool) : CaseSensitivity :=
  if sensitive then .CaseSensitive else .CaseInsensitive

/-! ## ProgressData -/

/-- Modelled from the spec: the class `ProgressData` (`progressdata.cpp` is not part of the
sources at hand): the scan offset, a single saved-offset slot, the captures of the last
regular expression match and the line continuation flag. -/
structure ProgressData where
  offset : Int
  savedOffset : Int
  captures : List QString
  willContinueLine : Bool
  deriving DecidableEq, Repr

namespace ProgressData

/-- Modelled from the spec: `setOffset(index)`. -/
@[simp] def setOffset (p : ProgressData) (o : Int) : ProgressData := { p with offset := o }

/-- Modelled from the spec: `incrementOffset(delta)`. -/
@[simp] def incrementOffsetBy (p : ProgressData) (delta : Int) : ProgressData :=
  { p with offset := p.offset + delta }

/-- Modelled from the spec: `incrementOffset()`, with `delta = 1`. -/
@[simp] def incrementOffset (p : ProgressData) : ProgressData := p.incrementOffsetBy 1

/-- Modelled from the spec: `saveOffset()`, the single-slot checkpoint. -/
@[simp] def saveOffset (p : ProgressData) : ProgressData := { p with savedOffset := p.offset }

/-- Modelled from the spec: `restoreOffset()`, back to the checkpoint. -/
@[simp] def restoreOffset (p : ProgressData) : ProgressData := { p with offset := p.savedOffset }

/-- Modelled from the spec: `setCaptures(list of strings)`. -/
@[simp] def setCaptures (p : ProgressData) (c : List QString) : ProgressData :=
  { p with captures := c }

/-- Modelled from the spec: `setWillContinueLine(bool)`. -/
@[simp] def setWillContinueLine (p : ProgressData) (b : Bool) : ProgressData :=
  { p with willContinueLine := b }

end ProgressData

/-! ## Shared matchers of the base class `Rule`

`rule.cpp` is not part of the sources at hand. Its helpers are modelled from the way
`specificrules.cpp` calls them and from the specification. -/

/-- Modelled from the spec: `Rule::matchCharacter` (single-character rule: the code unit at
`offset` equals the configured character, advances by 1). The optional last argument
`saveRestoreOffset` (`true` when a caller leaves it out) makes a successful match checkpoint
the offset first: the callers restore the offset after it without saving it themselves. -/
def matchCharacter (text : QString) (_length : Int) (progress : ProgressData) (c : QChar)
    (saveRestoreOffset : Bool) : Option (Bool × ProgressData) :=
  match charAt text progress.offset with
  | none => none
  | some ch =>
    if ch = c then
      let p1 := if saveRestoreOffset then progress.saveOffset else progress
      some (true, p1.incrementOffset)
    else some (false, progress)

/-- Modelled from the spec: the loop of `Rule::charPredicateMatchSucceed`,
`while (offset < length && p(text.at(offset))) incrementOffset()`; the fuel bounds the
number of iterations. -/
def predicateLoop (p : QChar → Bool) (text : QString) (length : Int) :
    Nat → ProgressData → Option ProgressData
  | 0, progress => some progress
  | fuel + 1, progress =>
    if progress.offset < length then
      match charAt text progress.offset with
      | none => none
      | some c =>
        if p c then predicateLoop p text length fuel progress.incrementOffset
        else some progress
    else some progress

/-- Modelled from the spec: `Rule::charPredicateMatchSucceed` (a run of one or more
consecutive code units satisfying the predicate, as in the whitespace-run rule): advances
while the predicate holds and succeeds when the offset moved. -/
def charPredicateMatchSucceed (text : QString) (length : Int) (progress : ProgressData)
    (p : QChar → Bool) : Option (Bool × ProgressData) :=
  match predicateLoop p text length (length - progress.offset).toNat progress with
  | none => none
  | some p1 => some (decide (progress.offset ≠ p1.offset), p1)

/-- Modelled from the spec: the characters that `Rule::matchEscapeSequence` accepts after
the backslash, `a b e f n r t v ? ' " \`. -/
def isEscapeChar (c : QChar) : Bool :=
  c == kA || c == kB || c == kE || c == kF || c == kN || c == kR || c == kT || c == kV ||
  c == kQuestion || c == kSingleQuote || c == kQuote || c == kBackSlash

/-- Modelled from the spec: `Rule::matchEscapeSequence` (backslash-escape sequence: a
backslash and one escape character); with `saveRestoreOffset` a failure after the
backslash restores the offset. -/
def matchEscapeSequence (text : QString) (length : Int) (progress : ProgressData)
    (saveRestoreOffset : Bool) : Option (Bool × ProgressData) :=
  match matchCharacter text length progress kBackSlash saveRestoreOffset with
  | none => none
  | some (false, p1) => some (false, p1)
  | some (true, p1) =>
    if p1.offset < length then
      match charAt text p1.offset with
      | none => none
      | some c =>
        if isEscapeChar c then some (true, p1.incrementOffset)
        else if saveRestoreOffset then some (false, p1.restoreOffset)
        else some (false, p1)
    else if saveRestoreOffset then some (false, p1.restoreOffset)
    else some (false, p1)

/-- Modelled from the spec: the loop of `Rule::matchOctalSequence`,
`while (offset < length && count < 3 && isOctalDigit(text.at(offset)))`; the first argument
is the number of digits still allowed. -/
def octalLoop (text : QString) (length : Int) : Nat → ProgressData → Option ProgressData
  | 0, progress => some progress
  | fuel + 1, progress =>
    if progress.offset < length then
      match charAt text progress.offset with
      | none => none
      | some c =>
        if isOctalDigit c then octalLoop text length fuel progress.incrementOffset
        else some progress
    else some progress

/-- Modelled from the spec: `Rule::matchOctalSequence` (octal escape sequence: a backslash
and one to three octal digits). -/
def matchOctalSequence (text : QString) (length : Int) (progress : ProgressData)
    (saveRestoreOffset : Bool) : Option (Bool × ProgressData) :=
  match matchCharacter text length progress kBackSlash saveRestoreOffset with
  | none => none
  | some (false, p1) => some (false, p1)
  | some (true, p1) =>
    match octalLoop text length 3 p1 with
    | none => none
    | some p2 =>
      if p1.offset ≠ p2.offset then some (true, p2)
      else if saveRestoreOffset then some (false, p2.restoreOffset)
      else some (false, p2)

/-- Modelled from the spec: `Rule::matchHexSequence` (hex escape sequence: a backslash, an
`x` and one or more hexadecimal digits). -/
def matchHexSequence (text : QString) (length : Int) (progress : ProgressData)
    (saveRestoreOffset : Bool) : Option (Bool × ProgressData) :=
  match matchCharacter text length progress kBackSlash saveRestoreOffset with
  | none => none
  | some (false, p1) => some (false, p1)
  | some (true, p1) =>
    if p1.offset < length then
      match matchCharacter text length p1 kX false with
      | none => none
      | some (false, p2) =>
        if saveRestoreOffset then some (false, p2.restoreOffset) else some (false, p2)
      | some (true, p2) =>
        match predicateLoop isHexDigit text length (length - p2.offset).toNat p2 with
        | none => none
        | some p3 =>
          if p2.offset ≠ p3.offset then some (true, p3)
          else if saveRestoreOffset then some (false, p3.restoreOffset)
          else some (false, p3)
    else if saveRestoreOffset then some (false, p1.restoreOffset)
    else some (false, p1)

/-- The short-circuit test `cond && f(text.at(i))`: the text is read only when `cond`
holds. -/
def andAt (cond : Bool) (text : QString) (i : Int) (f : QChar → Bool) : Option Bool :=
  if cond then
    match charAt text i with
    | none => none
    | some c => some (f c)
  else some false

/-! ## Capture substitution (`replaceByCaptures`) -/

/-- The ways in which `replaceByCaptures` can fail to return. -/
inductive ReplaceError where
  | assertFailed
  | outOfRange
  | outOfFuel
  deriving DecidableEq, Repr

/-- The access `captures.at(i)` of `QStringList`, `none` outside the list. -/
def capturesAt (captures : List QString) (i : Int) : Option QString :=
  if i < 0 then none else captures[i.toNat]?

/-- The overload `replaceByCaptures(QChar *c, const QStringList &captures)`. -/
def replaceByCapturesChar (q : QCharOps) (c : QChar) (captures : List QString) :
    Option QChar :=
  let index := q.digitValue c
  if index > 0 then
    match capturesAt captures index with
    | none => none
    | some capture =>
      match capture with
      | [] => some c
      | first :: _ => some first
  else some c

/-- The value of a string of ASCII decimal digits, most significant digit first. -/
def decimalValue : QString → Nat → Nat
  | [], acc => acc
  | d :: ds, acc => decimalValue ds (10 * acc + (d - 48))

/-- The call `accumulator.toInt(&ok)` of `QString` on the text of a placeholder number:
`none` stands for `ok == false` (an empty string, a code unit that is not one of the ASCII
digits, or a value that does not fit a 32 bit `int`). -/
def toInt (s : QString) : Option Int :=
  if s ≠ [] ∧ s.all (fun c => decide (48 ≤ c ∧ c ≤ 57)) ∧ decimalValue s 0 < 2 ^ 31 then
    some (decimalValue s 0 : Nat)
  else none

/-- The call `s->replace(index, len, after)` of `QString`. -/
def replaceAt (s : QString) (index len : Int) (after : QString) : QString :=
  s.take index.toNat ++ after ++ s.drop (index.toNat + len.toNat)

/-- The inner loop of `replaceByCaptures`: the digits of `s` from `start` on. It returns the
accumulator and the offset after the digits. -/
def digitsFrom (q : QCharOps) (s : QString) : Nat → Int → QString → QString × Int
  | 0, start, accumulator => (accumulator, start)
  | fuel + 1, start, accumulator =>
    if start < (s.length : Int) then
      match charAt s start with
      | none => (accumulator, start)
      | some c =>
        if q.isDigit c then digitsFrom q s fuel (start + 1) (accumulator ++ [c])
        else (accumulator, start)
    else (accumulator, start)

/-- The outer loop of `replaceByCaptures(QString *s, const QStringList &captures)`; `start`
is the variable `from`, and the fuel bounds the number of iterations. -/
def replaceLoop (q : QCharOps) (captures : List QString) :
    Nat → QString → Int → Except ReplaceError QString
  | 0, s, start => if indexOf s kPercent start = -1 then .ok s else .error .outOfFuel
  | fuel + 1, s, start =>
    let index := indexOf s kPercent start
    if index = -1 then .ok s
    else
      let r := digitsFrom q s (s.length - (index + 1)).toNat (index + 1) []
      let accumulator := r.1
      match toInt accumulator with
      | none => .error .assertFailed
      | some number =>
        match capturesAt captures number with
        | none => .error .outOfRange
        | some capture =>
          replaceLoop q captures fuel
            (replaceAt s index ((accumulator.length : Int) + 1) capture) r.2

/-- The overload `replaceByCaptures(QString *s, const QStringList &captures)`; the fuel
bounds the number of iterations of its loop. -/
def replaceByCaptures (q : QCharOps) (fuel : Nat) (s : QString) (captures : List QString) :
    Except ReplaceError QString :=
  replaceLoop q captures fuel s 0

/-! ## The rules of `specificrules.cpp` -/

/-- The rule `DetectCharRule::doMatchSucceed`. -/
def DetectCharRule.doMatchSucceed (m_char : QChar) (text : QString) (length : Int)
    (progress : ProgressData) : Option (Bool × ProgressData) :=
  matchCharacter text length progress m_char true

/-- The rule `Detect2CharsRule::doMatchSucceed`. -/
def Detect2CharsRule.doMatchSucceed (m_char m_char1 : QChar) (text : QString) (length : Int)
    (progress : ProgressData) : Option (Bool × ProgressData) :=
  match matchCharacter text length progress m_char true with
  | none => none
  | some (false, p1) => some (false, p1)
  | some (true, p1) =>
    if p1.offset < length then
      match matchCharacter text length p1 m_char1 false with
      | none => none
      | some (true, p2) => some (true, p2)
      | some (false, p2) => some (false, p2.restoreOffset)
    else some (false, p1.restoreOffset)

/-- The rule `AnyCharRule::doMatchSucceed`. -/
def AnyCharRule.doMatchSucceed (m_characterSet : QString) (text : QString) (_length : Int)
    (progress : ProgressData) : Option (Bool × ProgressData) :=
  match charAt text progress.offset with
  | none => none
  | some c =>
    if c ∈ m_characterSet then some (true, progress.incrementOffset)
    else some (false, progress)

/-- The members of `StringDetectRule`. -/
structure StringDetectRule where
  m_string : QString
  m_length : Int
  m_caseSensitivity : CaseSensitivity

/-- The setter `StringDetectRule::setString`. -/
def StringDetectRule.setString (r : StringDetectRule) (s : QString) : StringDetectRule :=
  { r with m_string := s, m_length := (s.length : Int) }

/-- The setter `StringDetectRule::setInsensitive`; `toBool` (of `reuse.h`) is a parameter. -/
def StringDetectRule.setInsensitive (toBool : QString → Bool) (r : StringDetectRule)
    (insensitive : QString) : StringDetectRule :=
  { r with m_caseSensitivity := toCaseSensitivity (!toBool insensitive) }

/-- The method `StringDetectRule::doReplaceExpressions`. -/
def StringDetectRule.doReplaceExpressions (q : QCharOps) (fuel : Nat) (r : StringDetectRule)
    (captures : List QString) : Except ReplaceError StringDetectRule :=
  match replaceByCaptures q fuel r.m_string captures with
  | .error e => .error e
  | .ok s => .ok { r with m_string := s, m_length := (s.length : Int) }

/-- The rule `StringDetectRule::doMatchSucceed`. -/
def StringDetectRule.doMatchSucceed (q : QCharOps) (r : StringDetectRule) (text : QString)
    (length : Int) (progress : ProgressData) : Option (Bool × ProgressData) :=
  if length - progress.offset ≥ r.m_length then
    match fromRawData text progress.offset r.m_length with
    | none => none
    | some candidate =>
      if compareEq q candidate r.m_string r.m_caseSensitivity then
        some (true, progress.incrementOffsetBy r.m_length)
      else some (false, progress)
  else some (false, progress)

/-- The outcome of `QRegExp::indexIn`: the returned position (`-1` without a match), and
what `matchedLength()` and `capturedTexts()` return afterwards. -/
structure RegExpMatch where
  index : Int
  matchedLength : Int
  capturedTexts : List QString

/-- The regular expression engine `QRegExp`, a black box: `indexIn text offset` searches
`text` from `offset` on (with `QRegExp::CaretAtZero`). -/
structure QRegExp where
  indexIn : QString → Int → RegExpMatch

/-- The rule `RegExprRule::doMatchSucceed`. -/
def RegExprRule.doMatchSucceed (m_expression : QRegExp) (text : QString) (_length : Int)
    (progress : ProgressData) : Option (Bool × ProgressData) :=
  let offset := progress.offset
  let m := m_expression.indexIn text offset
  if m.index = offset then
    if m.matchedLength = 0 then some (false, progress)
    else some (true, (progress.incrementOffsetBy m.matchedLength).setCaptures m.capturedTexts)
  else some (false, progress)

/-- Modelled from the spec: the class `KeywordList` (`keywordlist.cpp` is not part of the
sources at hand), a set of literal words. -/
structure KeywordList where
  m_keywords : List QString

/-- Modelled from the spec: `KeywordList::isKeyword`, membership of the candidate in the
list under the given case sensitivity. -/
def KeywordList.isKeyword (q : QCharOps) (l : KeywordList) (keyword : QString)
    (sensitivity : CaseSensitivity) : Bool :=
  l.m_keywords.any (fun s => compareEq q keyword s sensitivity)

/-- Modelled from the spec: the part of the class `HighlightDefinition`
(`highlightdefinition.cpp` is not part of the sources at hand) that the keyword rule uses:
the delimiter predicate and the global keyword case sensitivity. -/
structure HighlightDefinition where
  isDelimiter : QChar → Bool
  keywordsSensitive : CaseSensitivity

/-- The members of `KeywordRule`. -/
structure KeywordRule where
  m_overrideGlobal : Bool
  m_localCaseSensitivity : CaseSensitivity
  m_list : KeywordList
  definition : HighlightDefinition

/-- The constructor `KeywordRule::KeywordRule` followed by `setList`; the member
`m_localCaseSensitivity` is not initialised by the constructor, so its value is a parameter. -/
def KeywordRule.create (definition : HighlightDefinition) (list : KeywordList)
    (uninitialised : CaseSensitivity) : KeywordRule :=
  { m_overrideGlobal := false, m_localCaseSensitivity := uninitialised, m_list := list,
    definition := definition }

/-- The setter `KeywordRule::setInsensitive`; `toBool` (of `reuse.h`) is a parameter. -/
def KeywordRule.setInsensitive (toBool : QString → Bool) (r : KeywordRule)
    (insensitive : QString) : KeywordRule :=
  if insensitive ≠ [] then
    { r with m_overrideGlobal := true,
             m_localCaseSensitivity := toCaseSensitivity (!toBool insensitive) }
  else r

/-- The loop `while (current < length && !isDelimiter(text.at(current))) ++current` on a
local `int`; the fuel bounds the number of iterations. -/
def scanLoop (p : QChar → Bool) (text : QString) (length : Int) : Nat → Int → Option Int
  | 0, current => some current
  | fuel + 1, current =>
    if current < length then
      match charAt text current with
      | none => none
      | some c => if p c then scanLoop p text length fuel (current + 1) else some current
    else some current

/-- The condition of the last `if` of `KeywordRule::doMatchSucceed`:
`(m_overrideGlobal && m_list->isKeyword(candidate, m_localCaseSensitivity)) ||
(!m_overrideGlobal && m_list->isKeyword(candidate, definition()->keywordsSensitive()))`. -/
def KeywordRule.keywordTest (q : QCharOps) (r : KeywordRule) (candidate : QString) : Bool :=
  (r.m_overrideGlobal && r.m_list.isKeyword q candidate r.m_localCaseSensitivity) ||
  (!r.m_overrideGlobal && r.m_list.isKeyword q candidate r.definition.keywordsSensitive)

/-- The rule `KeywordRule::doMatchSucceed`. -/
def KeywordRule.doMatchSucceed (q : QCharOps) (r : KeywordRule) (text : QString) (length : Int)
    (progress : ProgressData) : Option (Bool × ProgressData) :=
  let current := progress.offset
  match andAt (decide (current > 0)) text (current - 1)
      (fun c => !r.definition.isDelimiter c) with
  | none => none
  | some true => some (false, progress)
  | some false =>
    match charAt text current with
    | none => none
    | some c =>
      if r.definition.isDelimiter c then some (false, progress)
      else
        match scanLoop (fun c => !r.definition.isDelimiter c) text length
            (length - current).toNat current with
        | none => none
        | some current1 =>
          match fromRawData text progress.offset (current1 - progress.offset) with
          | none => none
          | some candidate =>
            if r.keywordTest q candidate then some (true, progress.setOffset current1)
            else some (false, progress)

/-- The rule `IntRule::doMatchSucceed`. -/
def IntRule.doMatchSucceed (q : QCharOps) (text : QString) (length : Int)
    (progress : ProgressData) : Option (Bool × ProgressData) :=
  let offset := progress.offset
  match andAt (decide (offset > 0)) text (offset - 1) q.isDigit with
  | none => none
  | some true => some (false, progress)
  | some false =>
    match charAt text offset with
    | none => none
    | some c =>
      if q.isDigit c && c != kZero then
        match charPredicateMatchSucceed text length progress.incrementOffset q.isDigit with
        | none => none
        | some (_, p1) => some (true, p1)
      else some (false, progress)

/-- The end of `FloatRule::doMatchSucceed`, after the optional exponent. -/
def FloatRule.finish (integralPart fractionalPart decimalPoint exponentialPart : Bool)
    (progress : ProgressData) : Bool × ProgressData :=
  if (integralPart || fractionalPart) && (decimalPoint || exponentialPart) then
    (true, progress)
  else (false, progress.restoreOffset)

/-- The exponent block of `FloatRule::doMatchSucceed` (from `bool exponentialPart = false`
on), entered with the three flags computed before it. -/
def FloatRule.exponentBlock (q : QCharOps) (text : QString) (length : Int)
    (integralPart decimalPoint fractionalPart : Bool) (progress : ProgressData) :
    Option (Bool × ProgressData) :=
  let offset := progress.offset
  match andAt (decide (offset < length)) text offset
      (fun c => c == kE || q.toLower c == kE) with
  | none => none
  | some false =>
    some (FloatRule.finish integralPart fractionalPart decimalPoint false progress)
  | some true =>
    let p4 := progress.incrementOffset
    let offset1 := p4.offset
    match andAt (decide (offset1 < length)) text offset1
        (fun c => c == kPlus || c == kMinus) with
    | none => none
    | some sign =>
      let p5 := if sign then p4.incrementOffset else p4
      match charPredicateMatchSucceed text length p5 q.isDigit with
      | none => none
      | some (true, p6) =>
        some (FloatRule.finish integralPart fractionalPart decimalPoint true p6)
      | some (false, p6) => some (false, p6.restoreOffset)

/-- The rule `FloatRule::doMatchSucceed`. -/
def FloatRule.doMatchSucceed (q : QCharOps) (text : QString) (length : Int)
    (progress : ProgressData) : Option (Bool × ProgressData) :=
  let p0 := progress.saveOffset
  match charPredicateMatchSucceed text length p0 q.isDigit with
  | none => none
  | some (integralPart, p1) =>
    match andAt (decide (p1.offset < length)) text p1.offset (fun c => c == kDot) with
    | none => none
    | some decimalPoint =>
      let p2 := if decimalPoint then p1.incrementOffset else p1
      match charPredicateMatchSucceed text length p2 q.isDigit with
      | none => none
      | some (fractionalPart, p3) =>
        FloatRule.exponentBlock q text length integralPart decimalPoint fractionalPart p3

/-- The rule `HlCOctRule::doMatchSucceed`. -/
def HlCOctRule.doMatchSucceed (q : QCharOps) (text : QString) (length : Int)
    (progress : ProgressData) : Option (Bool × ProgressData) :=
  match matchCharacter text length progress kZero true with
  | none => none
  | some (false, p1) => some (false, p1)
  | some (true, p1) =>
    match andAt (decide (p1.offset < length)) text p1.offset
        (fun c => c == kX || q.toLower c == kX) with
    | none => none
    | some true => some (false, p1.restoreOffset)
    | some false =>
      match charPredicateMatchSucceed text length p1 isOctalDigit with
      | none => none
      | some (_, p2) => some (true, p2)

/-- The rule `HlCHexRule::doMatchSucceed`. -/
def HlCHexRule.doMatchSucceed (q : QCharOps) (text : QString) (length : Int)
    (progress : ProgressData) : Option (Bool × ProgressData) :=
  match matchCharacter text length progress kZero true with
  | none => none
  | some (false, p1) => some (false, p1)
  | some (true, p1) =>
    match andAt (decide (p1.offset < length)) text p1.offset
        (fun c => c != kX && q.toLower c != kX) with
    | none => none
    | some true => some (false, p1.restoreOffset)
    | some false =>
      match charPredicateMatchSucceed text length p1.incrementOffset isHexDigit with
      | none => none
      | some (true, p2) => some (true, p2)
      | some (false, p2) => some (false, p2.restoreOffset)

/-- The rule `HlCStringCharRule::doMatchSucceed`. -/
def HlCStringCharRule.doMatchSucceed (text : QString) (length : Int)
    (progress : ProgressData) : Option (Bool × ProgressData) :=
  match matchEscapeSequence text length progress true with
  | none => none
  | some (true, p1) => some (true, p1)
  | some (false, p1) =>
    match matchOctalSequence text length p1 true with
    | none => none
    | some (true, p2) => some (true, p2)
    | some (false, p2) =>
      match matchHexSequence text length p2 true with
      | none => none
      | some (true, p3) => some (true, p3)
      | some (false, p3) => some (false, p3)

/-- The rule `HlCCharRule::doMatchSucceed`. -/
def HlCCharRule.doMatchSucceed (text : QString) (length : Int)
    (progress : ProgressData) : Option (Bool × ProgressData) :=
  match matchCharacter text length progress kSingleQuote true with
  | none => none
  | some (false, p1) => some (false, p1)
  | some (true, p1) =>
    if p1.offset < length then
      match charAt text p1.offset with
      | none => none
      | some c =>
        match (if c != kBackSlash && c != kSingleQuote then some (true, p1.incrementOffset)
               else matchEscapeSequence text length p1 false) with
        | none => none
        | some (false, p2) => some (false, p2.restoreOffset)
        | some (true, p2) =>
          if p2.offset < length then
            match matchCharacter text length p2 kSingleQuote false with
            | none => none
            | some (true, p3) => some (true, p3)
            | some (false, p3) => some (false, p3.restoreOffset)
          else some (false, p2.restoreOffset)
    else some (false, p1.restoreOffset)

/-- The loop of `RangeDetectRule::doMatchSucceed`; it returns `true` when the closing
character was matched; the fuel bounds the number of iterations. -/
def rangeLoop (m_char1 : QChar) (text : QString) (length : Int) :
    Nat → ProgressData → Option (Bool × ProgressData)
  | 0, progress => some (false, progress)
  | fuel + 1, progress =>
    if progress.offset < length then
      match matchCharacter text length progress m_char1 false with
      | none => none
      | some (true, p1) => some (true, p1)
      | some (false, p1) => rangeLoop m_char1 text length fuel p1.incrementOffset
    else some (false, progress)

/-- The rule `RangeDetectRule::doMatchSucceed`. -/
def RangeDetectRule.doMatchSucceed (m_char m_char1 : QChar) (text : QString) (length : Int)
    (progress : ProgressData) : Option (Bool × ProgressData) :=
  match matchCharacter text length progress m_char true with
  | none => none
  | some (false, p1) => some (false, p1)
  | some (true, p1) =>
    match rangeLoop m_char1 text length (length - p1.offset).toNat p1 with
    | none => none
    | some (true, p2) => some (true, p2)
    | some (false, p2) => some (false, p2.restoreOffset)

/-- The rule `LineContinueRule::doMatchSucceed`. -/
def LineContinueRule.doMatchSucceed (text : QString) (length : Int)
    (progress : ProgressData) : Option (Bool × ProgressData) :=
  if progress.offset ≠ length - 1 then some (false, progress)
  else
    match charAt text progress.offset with
    | none => none
    | some c =>
      if c = kBackSlash then some (true, progress.incrementOffset.setWillContinueLine true)
      else some (false, progress)

/-- The rule `DetectSpacesRule::doMatchSucceed`. -/
def DetectSpacesRule.doMatchSucceed (q : QCharOps) (text : QString) (length : Int)
    (progress : ProgressData) : Option (Bool × ProgressData) :=
  charPredicateMatchSucceed text length progress q.isSpace

/-- The rule `DetectIdentifierRule::doMatchSucceed`. -/
def DetectIdentifierRule.doMatchSucceed (q : QCharOps) (text : QString) (length : Int)
    (progress : ProgressData) : Option (Bool × ProgressData) :=
  match charAt text progress.offset with
  | none => none
  | some c =>
    if q.isLetter c || c == kUnderscore then
      let p1 := progress.incrementOffset
      match predicateLoop
          (fun current => q.isLetterOrNumber current || q.isMark current || current == kUnderscore)
          text length (length - p1.offset).toNat p1 with
      | none => none
      | some p2 => some (true, p2)
    else some (false, progress)

/-- The rule variants of `specificrules.cpp` with their configured members. -/
inductive Rule where
  | detectChar (m_char : QChar)
  | detect2Chars (m_char m_char1 : QChar)
  | anyChar (m_characterSet : QString)
  | stringDetect (r : StringDetectRule)
  | regExpr (m_expression : QRegExp)
  | keyword (r : KeywordRule)
  | int
  | float
  | hlCOct
  | hlCHex
  | hlCStringChar
  | hlCChar
  | rangeDetect (m_char m_char1 : QChar)
  | lineContinue
  | detectSpaces
  | detectIdentifier

/-- The virtual call `rule->doMatchSucceed(text, length, progress)`. -/
def Rule.doMatchSucceed (q : QCharOps) (rule : Rule) (text : QString) (length : Int)
    (progress : ProgressData) : Option (Bool × ProgressData) :=
  match rule with
  | .detectChar c => DetectCharRule.doMatchSucceed c text length progress
  | .detect2Chars c c1 => Detect2CharsRule.doMatchSucceed c c1 text length progress
  | .anyChar cs => AnyCharRule.doMatchSucceed cs text length progress
  | .stringDetect r => StringDetectRule.doMatchSucceed q r text length progress
  | .regExpr e => RegExprRule.doMatchSucceed e text length progress
  | .keyword r => KeywordRule.doMatchSucceed q r text length progress
  | .int => IntRule.doMatchSucceed q text length progress
  | .float => FloatRule.doMatchSucceed q text length progress
  | .hlCOct => HlCOctRule.doMatchSucceed q text length progress
  | .hlCHex => HlCHexRule.doMatchSucceed q text length progress
  | .hlCStringChar => HlCStringCharRule.doMatchSucceed text length progress
  | .hlCChar => HlCCharRule.doMatchSucceed text length progress
  | .rangeDetect c c1 => RangeDetectRule.doMatchSucceed c c1 text length progress
  | .lineContinue => LineContinueRule.doMatchSucceed text length progress
  | .detectSpaces => DetectSpacesRule.doMatchSucceed q text length progress
  | .detectIdentifier => DetectIdentifierRule.doMatchSucceed q text length progress

/-! ## The rules with the history of the offset

The same code run on a cursor that records every value its offset is given (by
`incrementOffset`, `setOffset` and `restoreOffset`), the last one first. -/

/-- A cursor and the values its offset has been given during a match attempt, last first. -/
structure TracedProgress where
  progress : ProgressData
  offsets : List Int
  deriving DecidableEq, Repr

namespace TracedProgress

/-- The cursor becomes `p`, and the offset of `p` is recorded. -/
@[simp] def record (t : TracedProgress) (p : ProgressData) : TracedProgress :=
  { progress := p, offsets := p.offset :: t.offsets }

/-- The call `setOffset(index)`, recorded. -/
@[simp] def setOffset (t : TracedProgress) (o : Int) : TracedProgress :=
  t.record (t.progress.setOffset o)

/-- The call `incrementOffset(delta)`, recorded. -/
@[simp] def incrementOffsetBy (t : TracedProgress) (delta : Int) : TracedProgress :=
  t.record (t.progress.incrementOffsetBy delta)

/-- The call `incrementOffset()`, recorded. -/
@[simp] def incrementOffset (t : TracedProgress) : TracedProgress :=
  t.record t.progress.incrementOffset

/-- The call `saveOffset()`; the offset is not written. -/
@[simp] def saveOffset (t : TracedProgress) : TracedProgress :=
  { t with progress := t.progress.saveOffset }

/-- The call `restoreOffset()`, recorded. -/
@[simp] def restoreOffset (t : TracedProgress) : TracedProgress :=
  t.record t.progress.restoreOffset

/-- The call `setCaptures(list of strings)`; the offset is not written. -/
@[simp] def setCaptures (t : TracedProgress) (c : List QString) : TracedProgress :=
  { t with progress := t.progress.setCaptures c }

/-- The call `setWillContinueLine(bool)`; the offset is not written. -/
@[simp] def setWillContinueLine (t : TracedProgress) (b : Bool) : TracedProgress :=
  { t with progress := t.progress.setWillContinueLine b }

/-- The cursor at the start of an attempt: no offset has been written yet. -/
def start (p : ProgressData) : TracedProgress := { progress := p, offsets := [] }

/-- The outcome of an attempt without the history. -/
def erase (r : Bool × TracedProgress) : Bool × ProgressData := (r.1, r.2.progress)

end TracedProgress

namespace Traced

/-- Modelled from the spec: `Rule::matchCharacter`, on a recording cursor. -/
def matchCharacter (text : QString) (_length : Int) (t : TracedProgress) (c : QChar)
    (saveRestoreOffset : Bool) : Option (Bool × TracedProgress) :=
  match charAt text t.progress.offset with
  | none => none
  | some ch =>
    if ch = c then
      let t1 := if saveRestoreOffset then t.saveOffset else t
      some (true, t1.incrementOffset)
    else some (false, t)

/-- Modelled from the spec: the loop of `Rule::charPredicateMatchSucceed`, on a recording
cursor. -/
def predicateLoop (p : QChar → Bool) (text : QString) (length : Int) :
    Nat → TracedProgress → Option TracedProgress
  | 0, t => some t
  | fuel + 1, t =>
    if t.progress.offset < length then
      match charAt text t.progress.offset with
      | none => none
      | some c =>
        if p c then predicateLoop p text length fuel t.incrementOffset
        else some t
    else some t

/-- Modelled from the spec: `Rule::charPredicateMatchSucceed`, on a recording cursor. -/
def charPredicateMatchSucceed (text : QString) (length : Int) (t : TracedProgress)
    (p : QChar → Bool) : Option (Bool × TracedProgress) :=
  match predicateLoop p text length (length - t.progress.offset).toNat t with
  | none => none
  | some t1 => some (decide (t.progress.offset ≠ t1.progress.offset), t1)

/-- Modelled from the spec: `Rule::matchEscapeSequence`, on a recording cursor. -/
def matchEscapeSequence (text : QString) (length : Int) (t : TracedProgress)
    (saveRestoreOffset : Bool) : Option (Bool × TracedProgress) :=
  match matchCharacter text length t kBackSlash saveRestoreOffset with
  | none => none
  | some (false, t1) => some (false, t1)
  | some (true, t1) =>
    if t1.progress.offset < length then
      match charAt text t1.progress.offset with
      | none => none
      | some c =>
        if isEscapeChar c then some (true, t1.incrementOffset)
        else if saveRestoreOffset then some (false, t1.restoreOffset)
        else some (false, t1)
    else if saveRestoreOffset then some (false, t1.restoreOffset)
    else some (false, t1)

/-- Modelled from the spec: the loop of `Rule::matchOctalSequence`, on a recording cursor. -/
def octalLoop (text : QString) (length : Int) : Nat → TracedProgress → Option TracedProgress
  | 0, t => some t
  | fuel + 1, t =>
    if t.progress.offset < length then
      match charAt text t.progress.offset with
      | none => none
      | some c =>
        if isOctalDigit c then octalLoop text length fuel t.incrementOffset
        else some t
    else some t

/-- Modelled from the spec: `Rule::matchOctalSequence`, on a recording cursor. -/
def matchOctalSequence (text : QString) (length : Int) (t : TracedProgress)
    (saveRestoreOffset : Bool) : Option (Bool × TracedProgress) :=
  match matchCharacter text length t kBackSlash saveRestoreOffset with
  | none => none
  | some (false, t1) => some (false, t1)
  | some (true, t1) =>
    match octalLoop text length 3 t1 with
    | none => none
    | some t2 =>
      if t1.progress.offset ≠ t2.progress.offset then some (true, t2)
      else if saveRestoreOffset then some (false, t2.restoreOffset)
      else some (false, t2)

/-- Modelled from the spec: `Rule::matchHexSequence`, on a recording cursor. -/
def matchHexSequence (text : QString) (length : Int) (t : TracedProgress)
    (saveRestoreOffset : Bool) : Option (Bool × TracedProgress) :=
  match matchCharacter text length t kBackSlash saveRestoreOffset with
  | none => none
  | some (false, t1) => some (false, t1)
  | some (true, t1) =>
    if t1.progress.offset < length then
      match matchCharacter text length t1 kX false with
      | none => none
      | some (false, t2) =>
        if saveRestoreOffset then some (false, t2.restoreOffset) else some (false, t2)
      | some (true, t2) =>
        match predicateLoop isHexDigit text length (length - t2.progress.offset).toNat t2 with
        | none => none
        | some t3 =>
          if t2.progress.offset ≠ t3.progress.offset then some (true, t3)
          else if saveRestoreOffset then some (false, t3.restoreOffset)
          else some (false, t3)
    else if saveRestoreOffset then some (false, t1.restoreOffset)
    else some (false, t1)

/-- The rule `DetectCharRule::doMatchSucceed`, on a recording cursor. -/
def DetectCharRule.doMatchSucceed (m_char : QChar) (text : QString) (length : Int)
    (t : TracedProgress) : Option (Bool × TracedProgress) :=
  matchCharacter text length t m_char true

/-- The rule `Detect2CharsRule::doMatchSucceed`, on a recording cursor. -/
def Detect2CharsRule.doMatchSucceed (m_char m_char1 : QChar) (text : QString) (length : Int)
    (t : TracedProgress) : Option (Bool × TracedProgress) :=
  match matchCharacter text length t m_char true with
  | none => none
  | some (false, t1) => some (false, t1)
  | some (true, t1) =>
    if t1.progress.offset < length then
      match matchCharacter text length t1 m_char1 false with
      | none => none
      | some (true, t2) => some (true, t2)
      | some (false, t2) => some (false, t2.restoreOffset)
    else some (false, t1.restoreOffset)

/-- The rule `AnyCharRule::doMatchSucceed`, on a recording cursor. -/
def AnyCharRule.doMatchSucceed (m_characterSet : QString) (text : QString) (_length : Int)
    (t : TracedProgress) : Option (Bool × TracedProgress) :=
  match charAt text t.progress.offset with
  | none => none
  | some c =>
    if c ∈ m_characterSet then some (true, t.incrementOffset)
    else some (false, t)

/-- The rule `StringDetectRule::doMatchSucceed`, on a recording cursor. -/
def StringDetectRule.doMatchSucceed (q : QCharOps) (r : StringDetectRule) (text : QString)
    (length : Int) (t : TracedProgress) : Option (Bool × TracedProgress) :=
  if length - t.progress.offset ≥ r.m_length then
    match fromRawData text t.progress.offset r.m_length with
    | none => none
    | some candidate =>
      if compareEq q candidate r.m_string r.m_caseSensitivity then
        some (true, t.incrementOffsetBy r.m_length)
      else some (false, t)
  else some (false, t)

/-- The rule `RegExprRule::doMatchSucceed`, on a recording cursor. -/
def RegExprRule.doMatchSucceed (m_expression : QRegExp) (text : QString) (_length : Int)
    (t : TracedProgress) : Option (Bool × TracedProgress) :=
  let offset := t.progress.offset
  let m := m_expression.indexIn text offset
  if m.index = offset then
    if m.matchedLength = 0 then some (false, t)
    else some (true, (t.incrementOffsetBy m.matchedLength).setCaptures m.capturedTexts)
  else some (false, t)

/-- The rule `KeywordRule::doMatchSucceed`, on a recording cursor. -/
def KeywordRule.doMatchSucceed (q : QCharOps) (r : KeywordRule) (text : QString) (length : Int)
    (t : TracedProgress) : Option (Bool × TracedProgress) :=
  let current := t.progress.offset
  match andAt (decide (current > 0)) text (current - 1)
      (fun c => !r.definition.isDelimiter c) with
  | none => none
  | some true => some (false, t)
  | some false =>
    match charAt text current with
    | none => none
    | some c =>
      if r.definition.isDelimiter c then some (false, t)
      else
        match scanLoop (fun c => !r.definition.isDelimiter c) text length
            (length - current).toNat current with
        | none => none
        | some current1 =>
          match fromRawData text t.progress.offset (current1 - t.progress.offset) with
          | none => none
          | some candidate =>
            if r.keywordTest q candidate then some (true, t.setOffset current1)
            else some (false, t)

/-- The rule `IntRule::doMatchSucceed`, on a recording cursor. -/
def IntRule.doMatchSucceed (q : QCharOps) (text : QString) (length : Int)
    (t : TracedProgress) : Option (Bool × TracedProgress) :=
  let offset := t.progress.offset
  match andAt (decide (offset > 0)) text (offset - 1) q.isDigit with
  | none => none
  | some true => some (false, t)
  | some false =>
    match charAt text offset with
    | none => none
    | some c =>
      if q.isDigit c && c != kZero then
        match charPredicateMatchSucceed text length t.incrementOffset q.isDigit with
        | none => none
        | some (_, t1) => some (true, t1)
      else some (false, t)

/-- The end of `FloatRule::doMatchSucceed`, on a recording cursor. -/
def FloatRule.finish (integralPart fractionalPart decimalPoint exponentialPart : Bool)
    (t : TracedProgress) : Bool × TracedProgress :=
  if (integralPart || fractionalPart) && (decimalPoint || exponentialPart) then
    (true, t)
  else (false, t.restoreOffset)

/-- The exponent block of `FloatRule::doMatchSucceed`, on a recording cursor. -/
def FloatRule.exponentBlock (q : QCharOps) (text : QString) (length : Int)
    (integralPart decimalPoint fractionalPart : Bool) (t : TracedProgress) :
    Option (Bool × TracedProgress) :=
  let offset := t.progress.offset
  match andAt (decide (offset < length)) text offset
      (fun c => c == kE || q.toLower c == kE) with
  | none => none
  | some false =>
    some (FloatRule.finish integralPart fractionalPart decimalPoint false t)
  | some true =>
    let t4 := t.incrementOffset
    let offset1 := t4.progress.offset
    match andAt (decide (offset1 < length)) text offset1
        (fun c => c == kPlus || c == kMinus) with
    | none => none
    | some sign =>
      let t5 := if sign then t4.incrementOffset else t4
      match charPredicateMatchSucceed text length t5 q.isDigit with
      | none => none
      | some (true, t6) =>
        some (FloatRule.finish integralPart fractionalPart decimalPoint true t6)
      | some (false, t6) => some (false, t6.restoreOffset)

/-- The rule `FloatRule::doMatchSucceed`, on a recording cursor. -/
def FloatRule.doMatchSucceed (q : QCharOps) (text : QString) (length : Int)
    (t : TracedProgress) : Option (Bool × TracedProgress) :=
  let t0 := t.saveOffset
  match charPredicateMatchSucceed text length t0 q.isDigit with
  | none => none
  | some (integralPart, t1) =>
    match andAt (decide (t1.progress.offset < length)) text t1.progress.offset
        (fun c => c == kDot) with
    | none => none
    | some decimalPoint =>
      let t2 := if decimalPoint then t1.incrementOffset else t1
      match charPredicateMatchSucceed text length t2 q.isDigit with
      | none => none
      | some (fractionalPart, t3) =>
        FloatRule.exponentBlock q text length integralPart decimalPoint fractionalPart t3

/-- The rule `HlCOctRule::doMatchSucceed`, on a recording cursor. -/
def HlCOctRule.doMatchSucceed (q : QCharOps) (text : QString) (length : Int)
    (t : TracedProgress) : Option (Bool × TracedProgress) :=
  match matchCharacter text length t kZero true with
  | none => none
  | some (false, t1) => some (false, t1)
  | some (true, t1) =>
    match andAt (decide (t1.progress.offset < length)) text t1.progress.offset
        (fun c => c == kX || q.toLower c == kX) with
    | none => none
    | some true => some (false, t1.restoreOffset)
    | some false =>
      match charPredicateMatchSucceed text length t1 isOctalDigit with
      | none => none
      | some (_, t2) => some (true, t2)

/-- The rule `HlCHexRule::doMatchSucceed`, on a recording cursor. -/
def HlCHexRule.doMatchSucceed (q : QCharOps) (text : QString) (length : Int)
    (t : TracedProgress) : Option (Bool × TracedProgress) :=
  match matchCharacter text length t kZero true with
  | none => none
  | some (false, t1) => some (false, t1)
  | some (true, t1) =>
    match andAt (decide (t1.progress.offset < length)) text t1.progress.offset
        (fun c => c != kX && q.toLower c != kX) with
    | none => none
    | some true => some (false, t1.restoreOffset)
    | some false =>
      match charPredicateMatchSucceed text length t1.incrementOffset isHexDigit with
      | none => none
      | some (true, t2) => some (true, t2)
      | some (false, t2) => some (false, t2.restoreOffset)

/-- The rule `HlCStringCharRule::doMatchSucceed`, on a recording cursor. -/
def HlCStringCharRule.doMatchSucceed (text : QString) (length : Int)
    (t : TracedProgress) : Option (Bool × TracedProgress) :=
  match matchEscapeSequence text length t true with
  | none => none
  | some (true, t1) => some (true, t1)
  | some (false, t1) =>
    match matchOctalSequence text length t1 true with
    | none => none
    | some (true, t2) => some (true, t2)
    | some (false, t2) =>
      match matchHexSequence text length t2 true with
      | none => none
      | some (true, t3) => some (true, t3)
      | some (false, t3) => some (false, t3)

/-- The rule `HlCCharRule::doMatchSucceed`, on a recording cursor. -/
def HlCCharRule.doMatchSucceed (text : QString) (length : Int)
    (t : TracedProgress) : Option (Bool × TracedProgress) :=
  match matchCharacter text length t kSingleQuote true with
  | none => none
  | some (false, t1) => some (false, t1)
  | some (true, t1) =>
    if t1.progress.offset < length then
      match charAt text t1.progress.offset with
      | none => none
      | some c =>
        match (if c != kBackSlash && c != kSingleQuote then some (true, t1.incrementOffset)
               else matchEscapeSequence text length t1 false) with
        | none => none
        | some (false, t2) => some (false, t2.restoreOffset)
        | some (true, t2) =>
          if t2.progress.offset < length then
            match matchCharacter text length t2 kSingleQuote false with
            | none => none
            | some (true, t3) => some (true, t3)
            | some (false, t3) => some (false, t3.restoreOffset)
          else some (false, t2.restoreOffset)
    else some (false, t1.restoreOffset)

/-- The loop of `RangeDetectRule::doMatchSucceed`, on a recording cursor. -/
def rangeLoop (m_char1 : QChar) (text : QString) (length : Int) :
    Nat → TracedProgress → Option (Bool × TracedProgress)
  | 0, t => some (false, t)
  | fuel + 1, t =>
    if t.progress.offset < length then
      match matchCharacter text length t m_char1 false with
      | none => none
      | some (true, t1) => some (true, t1)
      | some (false, t1) => rangeLoop m_char1 text length fuel t1.incrementOffset
    else some (false, t)

/-- The rule `RangeDetectRule::doMatchSucceed`, on a recording cursor. -/
def RangeDetectRule.doMatchSucceed (m_char m_char1 : QChar) (text : QString) (length : Int)
    (t : TracedProgress) : Option (Bool × TracedProgress) :=
  match matchCharacter text length t m_char true with
  | none => none
  | some (false, t1) => some (false, t1)
  | some (true, t1) =>
    match rangeLoop m_char1 text length (length - t1.progress.offset).toNat t1 with
    | none => none
    | some (true, t2) => some (true, t2)
    | some (false, t2) => some (false, t2.restoreOffset)

/-- The rule `LineContinueRule::doMatchSucceed`, on a recording cursor. -/
def LineContinueRule.doMatchSucceed (text : QString) (length : Int)
    (t : TracedProgress) : Option (Bool × TracedProgress) :=
  if t.progress.offset ≠ length - 1 then some (false, t)
  else
    match charAt text t.progress.offset with
    | none => none
    | some c =>
      if c = kBackSlash then some (true, t.incrementOffset.setWillContinueLine true)
      else some (false, t)

/-- The rule `DetectSpacesRule::doMatchSucceed`, on a recording cursor. -/
def DetectSpacesRule.doMatchSucceed (q : QCharOps) (text : QString) (length : Int)
    (t : TracedProgress) : Option (Bool × TracedProgress) :=
  charPredicateMatchSucceed text length t q.isSpace

/-- The rule `DetectIdentifierRule::doMatchSucceed`, on a recording cursor. -/
def DetectIdentifierRule.doMatchSucceed (q : QCharOps) (text : QString) (length : Int)
    (t : TracedProgress) : Option (Bool × TracedProgress) :=
  match charAt text t.progress.offset with
  | none => none
  | some c =>
    if q.isLetter c || c == kUnderscore then
      let t1 := t.incrementOffset
      match predicateLoop
          (fun current => q.isLetterOrNumber current || q.isMark current || current == kUnderscore)
          text length (length - t1.progress.offset).toNat t1 with
      | none => none
      | some t2 => some (true, t2)
    else some (false, t)

/-- The virtual call `rule->doMatchSucceed(text, length, progress)`, on a recording
cursor. -/
def Rule.doMatchSucceed (q : QCharOps) (rule : Rule) (text : QString) (length : Int)
    (t : TracedProgress) : Option (Bool × TracedProgress) :=
  match rule with
  | .detectChar c => DetectCharRule.doMatchSucceed c text length t
  | .detect2Chars c c1 => Detect2CharsRule.doMatchSucceed c c1 text length t
  | .anyChar cs => AnyCharRule.doMatchSucceed cs text length t
  | .stringDetect r => StringDetectRule.doMatchSucceed q r text length t
  | .regExpr e => RegExprRule.doMatchSucceed e text length t
  | .keyword r => KeywordRule.doMatchSucceed q r text length t
  | .int => IntRule.doMatchSucceed q text length t
  | .float => FloatRule.doMatchSucceed q text length t
  | .hlCOct => HlCOctRule.doMatchSucceed q text length t
  | .hlCHex => HlCHexRule.doMatchSucceed q text length t
  | .hlCStringChar => HlCStringCharRule.doMatchSucceed text length t
  | .hlCChar => HlCCharRule.doMatchSucceed text length t
  | .rangeDetect c c1 => RangeDetectRule.doMatchSucceed c c1 text length t
  | .lineContinue => LineContinueRule.doMatchSucceed text length t
  | .detectSpaces => DetectSpacesRule.doMatchSucceed q text length t
  | .detectIdentifier => DetectIdentifierRule.doMatchSucceed q text length t

end Traced

/-! ## A concrete character table

The Qt tables restricted to ASCII, used to evaluate the rules on concrete lines. -/

/-- The Qt character functions on the ASCII range (every other code unit is unclassified
and maps to itself). -/
def asciiOps : QCharOps where
  isDigit c := decide (48 ≤ c ∧ c ≤ 57)
  isSpace c := decide (c = 32 ∨ (9 ≤ c ∧ c ≤ 13))
  isLetter c := decide ((65 ≤ c ∧ c ≤ 90) ∨ (97 ≤ c ∧ c ≤ 122))
  isLetterOrNumber c :=
    decide ((48 ≤ c ∧ c ≤ 57) ∨ (65 ≤ c ∧ c ≤ 90) ∨ (97 ≤ c ∧ c ≤ 122))
  isMark _ := false
  toLower c := if 65 ≤ c ∧ c ≤ 90 then c + 32 else c
  foldCase c := if 65 ≤ c ∧ c ≤ 90 then c + 32 else c
  digitValue c := if 48 ≤ c ∧ c ≤ 57 then (c : Int) - 48 else -1

/-- The code units of a Lean string literal (ASCII). -/
def ofString (s : String) : QString := s.toList.map Char.toNat

/-- A cursor at the given offset with nothing saved, no captures and no continuation. -/
def cursorAt (offset : Int) : ProgressData :=
  { offset := offset, savedOffset := -1, captures := [], willContinueLine := false }

/-! ## Notions used to state the results -/

/-- The end of the maximal run of code units satisfying `p` that starts at index `i`. -/
def runEnd (p : QChar → Bool) (text : QString) (i : Int) : Int :=
  i + (((text.drop i.toNat).takeWhile p).length : Int)

/-- The code unit at index `i`, and `0` outside the string. -/
def codeUnit (text : QString) (i : Int) : QChar := (charAt text i).getD 0

/-- The index `j` ends the maximal run of code units satisfying `p` that starts at `i`:
every code unit from `i` up to `j` (excluded) satisfies `p`, and `j` is the end of the line
or holds a code unit that does not. -/
def MaximalRun (p : QChar → Bool) (text : QString) (i j : Int) : Prop :=
  i ≤ j ∧ j ≤ (text.length : Int) ∧
  (∀ k, i ≤ k → k < j → ∃ c, charAt text k = some c ∧ p c = true) ∧
  (∀ c, charAt text j = some c → p c = false)

/-- The outcome of a match attempt that returns, keeps the captures and the continuation
flag, leaves the offset where it was on failure, and moves it forward inside the line on
success. -/
def CleanAttempt (text : QString) (progress : ProgressData)
    (res : Option (Bool × ProgressData)) : Prop :=
  ∃ b p1, res = some (b, p1) ∧ p1.captures = progress.captures ∧
    p1.willContinueLine = progress.willContinueLine ∧
    (b = false → p1.offset = progress.offset) ∧
    (b = true → progress.offset < p1.offset ∧ p1.offset ≤ (text.length : Int))

/-- The invariant of a configured rule: the cached length of a literal-string rule is the
length of its string (`setString` and `doReplaceExpressions` establish it). -/
def Rule.WellFormed : Rule → Prop
  | .stringDetect r => r.m_length = (r.m_string.length : Int)
  | _ => True

/-- A fact about the lower-case table of Qt: the code units whose lower case is `lower` are
`lower` itself and `upper`. -/
def LowerCaseOf (q : QCharOps) (lower upper : QChar) : Prop :=
  ∀ c, q.toLower c = lower ↔ (c = lower ∨ c = upper)

/-- The code unit is an exponent marker, `e` or `E`. -/
def isExponentMarker (c : QChar) : Bool := c == kE || c == kUpperE

/-- The test that `FloatRule::doMatchSucceed` applies to the code unit after the mantissa:
`c == kE || c.toLower() == kE`. -/
def FloatRule.markerTest (q : QCharOps) (c : QChar) : Bool := c == kE || q.toLower c == kE

/-- The line has an exponent marker (a code unit satisfying `isMarker`) at index `i`. -/
def hasExponentMarker (isMarker : QChar → Bool) (text : QString) (i : Int) : Bool :=
  decide (i < (text.length : Int)) && isMarker (codeUnit text i)

/-- The index after an exponent marker at index `i` and its optional sign `+` or `-`. -/
def exponentDigitsStart (text : QString) (i : Int) : Int :=
  if decide (i + 1 < (text.length : Int))
      && (codeUnit text (i + 1) == kPlus || codeUnit text (i + 1) == kMinus) then i + 2
  else i + 1

/-- The parts of a float literal as the specification reads them from an offset: a maximal
digit run, an optional decimal point, a maximal digit run, and an optional exponent. -/
structure FloatParse where
  start : Int
  integralEnd : Int
  decimalPoint : Bool
  fractionStart : Int
  fractionEnd : Int
  marker : Bool
  digitsStart : Int
  digitsEnd : Int

/-- The parse of the line from `offset` on, following the specification of the float rule;
`isMarker` recognises the exponent marker (`isExponentMarker` in the specification). -/
def floatParse (q : QCharOps) (isMarker : QChar → Bool) (text : QString) (offset : Int) :
    FloatParse :=
  let i1 := runEnd q.isDigit text offset
  let point := decide (i1 < (text.length : Int)) && codeUnit text i1 == kDot
  let i2 := if point then i1 + 1 else i1
  let i3 := runEnd q.isDigit text i2
  let i5 := exponentDigitsStart text i3
  { start := offset, integralEnd := i1, decimalPoint := point, fractionStart := i2,
    fractionEnd := i3, marker := hasExponentMarker isMarker text i3, digitsStart := i5,
    digitsEnd := runEnd q.isDigit text i5 }

/-- The integral digit run is not empty. -/
def FloatParse.integral (f : FloatParse) : Bool := decide (f.start ≠ f.integralEnd)

/-- The fractional digit run is not empty. -/
def FloatParse.fraction (f : FloatParse) : Bool := decide (f.fractionStart ≠ f.fractionEnd)

/-- The exponent is present: a marker, an optional sign and a digit run that is not empty. -/
def FloatParse.exponent (f : FloatParse) : Bool :=
  f.marker && decide (f.digitsStart ≠ f.digitsEnd)

/-- The end of everything parsed. -/
def FloatParse.stop (f : FloatParse) : Int :=
  if f.exponent then f.digitsEnd else f.fractionEnd

/-- The text of the maximal run of code units satisfying `p` that starts at index `i`. -/
def runText (p : QChar → Bool) (text : QString) (i : Int) : QString :=
  (text.drop i.toNat).takeWhile p

/-- The effective case sensitivity of a keyword rule: the rule-local one when the rule
overrides the global default, the one of the definition otherwise. -/
def KeywordRule.effectiveSensitivity (r : KeywordRule) : CaseSensitivity :=
  if r.m_overrideGlobal then r.m_localCaseSensitivity else r.definition.keywordsSensitive

/-- The substitution the specification describes, on the text that is left to read: every
placeholder (a percent sign and the digits after it) is replaced by the capture at that
index, and every other code unit is kept; `none` when a placeholder has no number or the
number is outside the capture list. The fuel bounds the number of steps. -/
def substituteAll (q : QCharOps) (captures : List QString) : Nat → QString → Option QString
  | 0, _ => some []
  | _ + 1, [] => some []
  | fuel + 1, c :: rest =>
    if c = kPercent then
      match toInt (rest.takeWhile q.isDigit) with
      | none => none
      | some number =>
        match capturesAt captures number, substituteAll q captures fuel
            (rest.dropWhile q.isDigit) with
        | some capture, some tail => some (capture ++ tail)
        | _, _ => none
    else
      match substituteAll q captures fuel rest with
      | some tail => some (c :: tail)
      | none => none

/-- The cursor `p1` has the captures and the continuation flag of the cursor `p`. -/
def Frame (p p1 : ProgressData) : Prop :=
  p1.captures = p.captures ∧ p1.willContinueLine = p.willContinueLine

/-- The rule is the regular-expression rule. -/
def Rule.isRegExpr : Rule → Bool
  | .regExpr _ => true
  | _ => false

/-- The rule is the line-continuation rule. -/
def Rule.isLineContinue : Rule → Bool
  | .lineContinue => true
  | _ => false

/-- A fact about the regular expression engine: a match reported at the position the search
started from lies inside the text, from that position on. -/
def QRegExp.Sound (e : QRegExp) (text : QString) : Prop :=
  ∀ start : Int, (e.indexIn text start).index = start →
    0 ≤ (e.indexIn text start).matchedLength ∧
    start + (e.indexIn text start).matchedLength ≤ (text.length : Int)

/-- The engine of a regular-expression rule is sound on the text (nothing to ask of the
other rules). -/
def Rule.EngineSound (text : QString) : Rule → Prop
  | .regExpr e => e.Sound text
  | _ => True

/-- The test of the loop of `DetectIdentifierRule::doMatchSucceed`:
`current.isLetterOrNumber() || current.isMark() || current == kUnderscore`. -/
def DetectIdentifierRule.continues (q : QCharOps) (c : QChar) : Bool :=
  q.isLetterOrNumber c || q.isMark c || c == kUnderscore

/-- Every `%` of the string starts a placeholder with a number below `size`: the digits that
follow it, read by `toInt`, give a number smaller than `size` (so there is at least one
digit). -/
def placeholdersValid (q : QCharOps) (size : Nat) : QString → Bool
  | [] => true
  | c :: rest =>
    (c != kPercent ||
      match toInt (rest.takeWhile q.isDigit) with
      | some number => decide (number < (size : Int))
      | none => false) &&
    placeholdersValid q size rest

/-- A call of one of the two methods of `StringDetectRule` that write `m_string`. -/
inductive StringDetectRule.Call where
  | setString (s : QString)
  | doReplaceExpressions (captures : List QString)

/-- The effect of one call on the rule; the fuel bounds the loop of the substitution. -/
def StringDetectRule.call (q : QCharOps) (fuel : Nat) (r : StringDetectRule) :
    StringDetectRule.Call → Except ReplaceError StringDetectRule
  | .setString s => .ok (r.setString s)
  | .doReplaceExpressions captures => r.doReplaceExpressions q fuel captures

/-- The effect of a sequence of calls, first call first; it returns when every call does. -/
def StringDetectRule.calls (q : QCharOps) (fuel : Nat) :
    StringDetectRule → List StringDetectRule.Call → Except ReplaceError StringDetectRule
  | r, [] => .ok r
  | r, c :: cs =>
    match StringDetectRule.call q fuel r c with
    | .error e => .error e
    | .ok r1 => StringDetectRule.calls q fuel r1 cs

/-- The step from the cursor `t` to the cursor `t1` stays below the bound `B`: every offset
recorded by `t1` is at most `B` or was recorded by `t` already, and the saved offset and the
offset are at most `B` after the step when they were before. -/
def TracedProgress.Keeps (B : Int) (t t1 : TracedProgress) : Prop :=
  (∀ o ∈ t1.offsets, o ≤ B ∨ o ∈ t.offsets) ∧
  (t.progress.savedOffset ≤ B → t1.progress.savedOffset ≤ B) ∧
  (t.progress.offset ≤ B → t1.progress.offset ≤ B)

/-- The rule is the C-style hex rule. -/
def Rule.isHlCHex : Rule → Bool
  | .hlCHex => true
  | _ => false

/-- A candidate of the keyword rule can start at the offset: the offset is `0` or the code
unit before it is a delimiter, and the code unit at the offset is not a delimiter. -/
def KeywordRule.candidateStarts (definition : HighlightDefinition) (text : QString)
    (offset : Int) : Prop :=
  (offset = 0 ∨ ∃ c, charAt text (offset - 1) = some c ∧ definition.isDelimiter c = true) ∧
  (∃ c, charAt text offset = some c ∧ definition.isDelimiter c = false)

/-- The test of the identifier run in the words of the specification: the code unit is a
letter, a combining mark, a digit or an underscore. -/
def DetectIdentifierRule.continuesAsStated (q : QCharOps) (c : QChar) : Bool :=
  q.isLetter c || q.isMark c || q.isDigit c || c == kUnderscore

/-! ## Sample inputs -/

/-- A keyword rule over the list `if`, `else`, case-sensitive, with the space as the only
delimiter. -/
def ifElseRule : KeywordRule :=
  KeywordRule.create ⟨fun c => decide (c = 32), CaseSensitivity.CaseSensitive⟩
    ⟨[ofString "if", ofString "else"]⟩ CaseSensitivity.CaseSensitive

/-- The cursor at the start of a line. -/
def lineStart : ProgressData := cursorAt 0

/-- The line `3e`. -/
def line3e : QString := ofString "3e"

/-- The line `if` followed by a space. -/
def lineIf : QString := ofString "if "

/-- The line `123`. -/
def line123 : QString := ofString "123"

/-- The line `3.`. -/
def line3dot : QString := ofString "3."

/-- The line `017`. -/
def line017 : QString := ofString "017"

/-- The line `0x1F`. -/
def line0x1F : QString := ofString "0x1F"

/-- The parse of the line `3.` as a float literal. -/
def parse3dot : FloatParse := floatParse asciiOps isExponentMarker line3dot lineStart.offset

/-- The line `abc` followed by a backslash. -/
def lineAbcBackslash : QString := ofString "abc\\"

/-- The line `<tag>`. -/
def lineTag : QString := ofString "<tag>"

/-- The code unit of the character `<`. -/
def kLess : QChar := 60

/-- The code unit of the character `>`. -/
def kGreater : QChar := 62

/-- The line `xAB`. -/
def lineXAB : QString := ofString "xAB"

/-- A literal-string rule for `ab` that is not case-sensitive. -/
def abRule : StringDetectRule :=
  StringDetectRule.setInsensitive (fun v => decide (v = ofString "true"))
    (StringDetectRule.setString ⟨[], 0, CaseSensitivity.CaseSensitive⟩ (ofString "ab"))
    (ofString "true")

/-- The line `ab`. -/
def lineAb : QString := ofString "ab"

/-- The code unit of the character `a`. -/
def kLowerA : QChar := 97

/-- The code unit of the character `b`. -/
def kLowerB : QChar := 98

/-- The code unit of the character `1`. -/
def kOne : QChar := 49

/-- The captures of a match of `foo_bar` with the groups `foo` and `bar`. -/
def fooBarCaptures : List QString := [ofString "foo_bar", ofString "foo", ofString "bar"]

/-- A cursor at the start of a line that holds the captures `fooBarCaptures`. -/
def captureStart : ProgressData := { cursorAt 0 with captures := fooBarCaptures }

/-- The line that is the single code unit `0`. -/
def lineZero : QString := ofString "0"

/-- The cursor at offset `3`. -/
def cursor3 : ProgressData := cursorAt 3

/-- The cursor at offset `4` with the continuation flag set. -/
def cursor4Continued : ProgressData := { cursorAt 4 with willContinueLine := true }

/-- The line `'\\101'`, a char literal with an octal escape. -/
def lineOctalChar : QString := ofString "'\\101'"

/-- The line `'\\x41'`, a char literal with a hex escape. -/
def lineHexChar : QString := ofString "'\\x41'"

/-- The line `'\\n'`, a char literal with a backslash escape. -/
def lineNewlineChar : QString := ofString "'\\n'"

/-- The line `\\x41`, a hex escape. -/
def lineHexEscape : QString := ofString "\\x41"

/-- The line `'a'`. -/
def lineCharA : QString := ofString "'a'"

/-- The line `ab_1 c`. -/
def lineIdent : QString := ofString "ab_1 c"

/-- The line of two spaces and `x`. -/
def lineSpaces : QString := ofString "  x"

/-- The line `3.5e+`. -/
def line35ePlus : QString := ofString "3.5e+"

/-- The parse of the line `3.5e+` as a float literal. -/
def parse35ePlus : FloatParse := floatParse asciiOps isExponentMarker line35ePlus lineStart.offset

/-- The line `09`, an invalid octal literal. -/
def line09 : QString := ofString "09"

/-- The line `0x`, a hex marker without a digit. -/
def line0x : QString := ofString "0x"

/-- The line `0Xg`, a hex marker followed by a letter that is not a hex digit. -/
def line0Xg : QString := ofString "0Xg"

/-- The parameter string `%1_%2`. -/
def patternFooBar : QString := ofString "%1_%2"

/-- A literal-string rule before its string is set. -/
def freshRule : StringDetectRule :=
  { m_string := [], m_length := 0, m_caseSensitivity := CaseSensitivity.CaseSensitive }

/-- The calls that configure a rule as `%1_%2` and substitute the captures `foo`, `bar`. -/
def fooBarCalls : List StringDetectRule.Call :=
  [StringDetectRule.Call.setString patternFooBar,
    StringDetectRule.Call.doReplaceExpressions fooBarCaptures]

/-- The rule for the literal string `foo_bar`. -/
def fooBarRule : StringDetectRule :=
  { m_string := ofString "foo_bar", m_length := 7,
    m_caseSensitivity := CaseSensitivity.CaseSensitive }

/-- The table `asciiOps` with the code unit U+00B2 (superscript two) added: in the table of
Qt it is a number that is not a decimal digit, so `QChar::isLetterOrNumber` holds for it and
`isDigit`, `isLetter` and `isMark` do not. -/
def superscriptOps : QCharOps :=
  { asciiOps with isLetterOrNumber := fun c => asciiOps.isLetterOrNumber c || c == 178 }

/-- The line of `a`, superscript two (U+00B2) and a space. -/
def lineSuperscript : QString := [97, 178, 32]

/-- A reading of attribute values as booleans for the samples: `true` and `1` read as
true. -/
def toBoolSample (s : QString) : Bool := decide (s = ofString "true" ∨ s = ofString "1")

/-- The line `IF` followed by a space. -/
def lineUpperIf : QString := ofString "IF "

/-- A keyword rule for `if` and `else`, delimited by spaces, in a definition whose keywords
are not case sensitive. -/
def ifElseInsensitiveRule : KeywordRule :=
  KeywordRule.create ⟨fun c => decide (c = 32), CaseSensitivity.CaseInsensitive⟩
    ⟨[ofString "if", ofString "else"]⟩ CaseSensitivity.CaseSensitive

/-! ## Reading the text -/

theorem charAt_eq_some_codeUnit (text : QString) (i : Int) (h0 : 0 ≤ i)
    (h1 : i < (text.length : Int)) : charAt text i = some (codeUnit text i) := by
  unfold codeUnit charAt
  have h2 : i.toNat < text.length := by omega
  simp [List.getElem?_eq_getElem h2, show ¬ i < 0 by omega]

theorem charAt_eq_none (text : QString) (i : Int) (h : i < 0 ∨ (text.length : Int) ≤ i) :
    charAt text i = none := by
  unfold charAt
  split
  · rfl
  · apply List.getElem?_eq_none
    omega

theorem charAt_some_bounds (text : QString) (i : Int) (c : QChar)
    (h : charAt text i = some c) : 0 ≤ i ∧ i < (text.length : Int) := by
  by_contra hc
  rw [charAt_eq_none text i (by omega)] at h
  cases h

theorem drop_eq_codeUnit_cons (text : QString) (i : Int) (h0 : 0 ≤ i)
    (h1 : i < (text.length : Int)) :
    text.drop i.toNat = codeUnit text i :: text.drop (i + 1).toNat := by
  have h2 : i.toNat < text.length := by omega
  have h3 : (i + 1).toNat = i.toNat + 1 := by omega
  rw [h3, List.drop_eq_getElem_cons h2]
  congr 1
  unfold codeUnit charAt
  simp [List.getElem?_eq_getElem h2, show ¬ i < 0 by omega]

theorem runEnd_step (p : QChar → Bool) (text : QString) (i : Int) (h0 : 0 ≤ i)
    (h1 : i < (text.length : Int)) (hp : p (codeUnit text i) = true) :
    runEnd p text i = runEnd p text (i + 1) := by
  unfold runEnd
  rw [drop_eq_codeUnit_cons text i h0 h1, List.takeWhile_cons_of_pos hp]
  simp
  omega

theorem runEnd_stop (p : QChar → Bool) (text : QString) (i : Int) (h0 : 0 ≤ i)
    (h1 : i < (text.length : Int)) (hp : p (codeUnit text i) = false) :
    runEnd p text i = i := by
  unfold runEnd
  rw [drop_eq_codeUnit_cons text i h0 h1, List.takeWhile_cons_of_neg (by simp [hp])]
  simp

theorem runEnd_of_length_le (p : QChar → Bool) (text : QString) (i : Int)
    (h1 : (text.length : Int) ≤ i) : runEnd p text i = i := by
  unfold runEnd
  rw [List.drop_eq_nil_of_le (by omega)]
  simp

theorem le_runEnd (p : QChar → Bool) (text : QString) (i : Int) : i ≤ runEnd p text i := by
  unfold runEnd
  omega

theorem runEnd_le_length (p : QChar → Bool) (text : QString) (i : Int) (h0 : 0 ≤ i)
    (h1 : i ≤ (text.length : Int)) : runEnd p text i ≤ (text.length : Int) := by
  unfold runEnd
  have h2 := (@List.takeWhile_sublist _ (text.drop i.toNat) p).length_le
  rw [List.length_drop] at h2
  omega

theorem predicateLoop_eq (p : QChar → Bool) (text : QString) (fuel : Nat) :
    ∀ progress : ProgressData, 0 ≤ progress.offset →
      ((text.length : Int) - progress.offset).toNat ≤ fuel →
      predicateLoop p text (text.length : Int) fuel progress
        = some (progress.setOffset (runEnd p text progress.offset)) := by
  induction fuel with
  | zero =>
    intro progress h0 hf
    rw [runEnd_of_length_le p text _ (by omega)]
    rfl
  | succ n ih =>
    intro progress h0 hf
    unfold predicateLoop
    by_cases hlt : progress.offset < (text.length : Int)
    · rw [if_pos hlt, charAt_eq_some_codeUnit text _ h0 hlt]
      by_cases hp : p (codeUnit text progress.offset) = true
      · simp only [hp, if_true]
        rw [ih progress.incrementOffset
          (by simp [ProgressData.incrementOffset, ProgressData.incrementOffsetBy]; omega)
          (by simp [ProgressData.incrementOffset, ProgressData.incrementOffsetBy]; omega)]
        rw [runEnd_step p text _ h0 hlt hp]
        rfl
      · simp only [hp]
        rw [runEnd_stop p text _ h0 hlt (by simpa using hp)]
        rfl
    · rw [if_neg hlt, runEnd_of_length_le p text _ (by omega)]
      rfl

theorem runEnd_ne_iff (p : QChar → Bool) (text : QString) (i : Int) (h0 : 0 ≤ i) :
    i ≠ runEnd p text i ↔ (i < (text.length : Int) ∧ p (codeUnit text i) = true) := by
  by_cases hlt : i < (text.length : Int)
  · by_cases hp : p (codeUnit text i) = true
    · have h1 := runEnd_step p text i h0 hlt hp
      have h2 := le_runEnd p text (i + 1)
      constructor
      · intro _; exact ⟨hlt, hp⟩
      · intro _; omega
    · have h1 := runEnd_stop p text i h0 hlt (by simpa using hp)
      constructor
      · intro h; exact absurd h1.symm h
      · intro h; exact absurd h.2 hp
  · have h1 := runEnd_of_length_le p text i (by omega)
    constructor
    · intro h; exact absurd h1.symm h
    · intro h; exact absurd h.1 hlt

theorem charPredicateMatchSucceed_eq (p : QChar → Bool) (text : QString)
    (progress : ProgressData) (h0 : 0 ≤ progress.offset) :
    charPredicateMatchSucceed text (text.length : Int) progress p
      = some (decide (progress.offset ≠ runEnd p text progress.offset),
              progress.setOffset (runEnd p text progress.offset)) := by
  unfold charPredicateMatchSucceed
  rw [predicateLoop_eq p text _ progress h0 (le_refl _)]
  rfl

theorem andAt_eq (cond : Bool) (text : QString) (i : Int) (f : QChar → Bool)
    (h : cond = true → 0 ≤ i ∧ i < (text.length : Int)) :
    andAt cond text i f = some (cond && f (codeUnit text i)) := by
  unfold andAt
  cases cond with
  | false => simp
  | true =>
    have h2 := h rfl
    simp [charAt_eq_some_codeUnit text i h2.1 h2.2]

theorem matchCharacter_eq (text : QString) (length : Int) (progress : ProgressData)
    (c : QChar) (s : Bool) (h0 : 0 ≤ progress.offset)
    (h1 : progress.offset < (text.length : Int)) :
    matchCharacter text length progress c s
      = some (if codeUnit text progress.offset = c then
                (true, (if s then progress.saveOffset else progress).incrementOffset)
              else (false, progress)) := by
  simp only [matchCharacter, charAt_eq_some_codeUnit text _ h0 h1]
  by_cases hc : codeUnit text progress.offset = c <;> simp [hc]

theorem IntRule_eq (q : QCharOps) (text : QString) (progress : ProgressData)
    (h0 : 0 ≤ progress.offset) (h1 : progress.offset < (text.length : Int)) :
    IntRule.doMatchSucceed q text (text.length : Int) progress
      = some (if 0 < progress.offset ∧ q.isDigit (codeUnit text (progress.offset - 1)) = true
              then (false, progress)
              else if q.isDigit (codeUnit text progress.offset) = true
                  ∧ codeUnit text progress.offset ≠ kZero
              then (true, progress.setOffset (runEnd q.isDigit text progress.offset))
              else (false, progress)) := by
  unfold IntRule.doMatchSucceed
  simp only [charAt_eq_some_codeUnit text _ h0 h1]
  rw [andAt_eq _ text _ _ (by intro h; simp at h; omega)]
  by_cases hpos : 0 < progress.offset
  · by_cases hd : q.isDigit (codeUnit text (progress.offset - 1)) = true
    · simp [hpos, hd]
    · by_cases hc : q.isDigit (codeUnit text progress.offset) = true
      · by_cases hz : codeUnit text progress.offset = kZero
        · simp [hpos, hd, hc, hz]
        · simp [hpos, hd, hc, hz]
          rw [charPredicateMatchSucceed_eq _ _ _ (by simp; omega)]
          simp [runEnd_step q.isDigit text _ h0 h1 hc]
      · simp [hpos, hd, hc]
  · by_cases hc : q.isDigit (codeUnit text progress.offset) = true
    · by_cases hz : codeUnit text progress.offset = kZero
      · simp [hpos, hc, hz]
      · simp [hpos, hc, hz]
        rw [charPredicateMatchSucceed_eq _ _ _ (by simp; omega)]
        simp [runEnd_step q.isDigit text _ h0 h1 hc]
    · simp [hpos, hc]

theorem charAt_eq_some_iff (text : QString) (i : Int) (c : QChar) (h0 : 0 ≤ i)
    (h1 : i < (text.length : Int)) : charAt text i = some c ↔ codeUnit text i = c := by
  rw [charAt_eq_some_codeUnit text i h0 h1]
  simp

theorem maximalRun_runEnd (p : QChar → Bool) (text : QString) (n : Nat) :
    ∀ i : Int, 0 ≤ i → i ≤ (text.length : Int) → ((text.length : Int) - i).toNat = n →
      MaximalRun p text i (runEnd p text i) := by
  induction n with
  | zero =>
    intro i h0 h1 hn
    have h2 : i = (text.length : Int) := by omega
    rw [runEnd_of_length_le p text i (by omega)]
    refine ⟨le_refl _, h1, ?_, ?_⟩
    · intro k hk1 hk2; omega
    · intro c hc
      rw [charAt_eq_none text i (by omega)] at hc
      cases hc
  | succ m ih =>
    intro i h0 h1 hn
    have hlt : i < (text.length : Int) := by omega
    by_cases hp : p (codeUnit text i) = true
    · rw [runEnd_step p text i h0 hlt hp]
      obtain ⟨a1, a2, a3, a4⟩ := ih (i + 1) (by omega) (by omega) (by omega)
      refine ⟨by omega, a2, ?_, a4⟩
      intro k hk1 hk2
      by_cases hki : k = i
      · subst hki
        exact ⟨_, charAt_eq_some_codeUnit text k h0 hlt, hp⟩
      · exact a3 k (by omega) hk2
    · have hp2 : p (codeUnit text i) = false := by simpa using hp
      rw [runEnd_stop p text i h0 hlt hp2]
      refine ⟨le_refl _, h1, ?_, ?_⟩
      · intro k hk1 hk2; omega
      · intro c hc
        rw [(charAt_eq_some_iff text i c h0 hlt).1 hc] at hp2
        exact hp2

/-- C6. Integer rule (`IntRule::doMatchSucceed`): at an offset inside the line the rule
returns; it succeeds exactly when the code unit at the offset is a digit other than `0` and
the offset is `0` or the code unit before it is not a digit; on success only the offset
changes and it becomes the end of the maximal digit run that starts at the entry offset;
on failure the cursor is unchanged. -/
theorem IntRule_doMatchSucceed_spec (q : QCharOps) (text : QString) (progress : ProgressData)
    (h0 : 0 ≤ progress.offset) (h1 : progress.offset < (text.length : Int)) :
    ∃ b p1, IntRule.doMatchSucceed q text (text.length : Int) progress = some (b, p1) ∧
      (b = true ↔
        (∃ c, charAt text progress.offset = some c ∧ q.isDigit c = true ∧ c ≠ kZero) ∧
        (progress.offset = 0 ∨
          ∃ c, charAt text (progress.offset - 1) = some c ∧ q.isDigit c = false)) ∧
      (b = true → p1 = progress.setOffset (runEnd q.isDigit text progress.offset) ∧
        MaximalRun q.isDigit text progress.offset p1.offset) ∧
      (b = false → p1 = progress) := by
  rw [IntRule_eq q text progress h0 h1]
  have hmax := maximalRun_runEnd q.isDigit text _ progress.offset h0 (le_of_lt h1) rfl
  simp only [charAt_eq_some_iff text _ _ h0 h1]
  by_cases hpos : 0 < progress.offset
  · simp only [charAt_eq_some_iff text (progress.offset - 1) _ (by omega) (by omega)]
    by_cases hd : q.isDigit (codeUnit text (progress.offset - 1)) = true
    · refine ⟨false, progress, by simp [hpos, hd], ?_, by simp, by simp⟩
      simp [hd]
      intro _ _; omega
    · by_cases hc : q.isDigit (codeUnit text progress.offset) = true
          ∧ codeUnit text progress.offset ≠ kZero
      · refine ⟨true, progress.setOffset (runEnd q.isDigit text progress.offset),
          by simp [hpos, hd, hc], ?_, ?_, by simp⟩
        · simp [hc, hd]
        · intro _; exact ⟨rfl, hmax⟩
      · refine ⟨false, progress, by simp [hpos, hd, hc], ?_, by simp, by simp⟩
        simp
        intro h2 h3
        exact absurd ⟨h2, h3⟩ hc
  · have hz : progress.offset = 0 := by omega
    by_cases hc : q.isDigit (codeUnit text progress.offset) = true
        ∧ codeUnit text progress.offset ≠ kZero
    · refine ⟨true, progress.setOffset (runEnd q.isDigit text progress.offset),
        by simp [hpos, hc], ?_, ?_, by simp⟩
      · simp [hc, hz]
        simpa [hz] using hc
      · intro _; exact ⟨rfl, hmax⟩
    · refine ⟨false, progress, by simp [hpos, hc], ?_, by simp, by simp⟩
      simp
      intro h2 h3
      exact absurd ⟨h2, h3⟩ hc

theorem cleanAttempt_fail (text : QString) (progress p1 : ProgressData)
    (h1 : p1.captures = progress.captures)
    (h2 : p1.willContinueLine = progress.willContinueLine)
    (h3 : p1.offset = progress.offset) :
    CleanAttempt text progress (some (false, p1)) :=
  ⟨false, p1, rfl, h1, h2, fun _ => h3, fun h => (by cases h)⟩

theorem cleanAttempt_success (text : QString) (progress p1 : ProgressData)
    (h1 : p1.captures = progress.captures)
    (h2 : p1.willContinueLine = progress.willContinueLine)
    (h3 : progress.offset < p1.offset) (h4 : p1.offset ≤ (text.length : Int)) :
    CleanAttempt text progress (some (true, p1)) :=
  ⟨true, p1, rfl, h1, h2, fun h => (by cases h), fun _ => ⟨h3, h4⟩⟩

theorem DetectCharRule_clean (c : QChar) (text : QString) (progress : ProgressData)
    (h0 : 0 ≤ progress.offset) (h1 : progress.offset < (text.length : Int)) :
    CleanAttempt text progress
      (DetectCharRule.doMatchSucceed c text (text.length : Int) progress) := by
  unfold DetectCharRule.doMatchSucceed
  rw [matchCharacter_eq text _ progress c true h0 h1]
  split
  · exact cleanAttempt_success _ _ _ rfl rfl (by simp) (by simp; omega)
  · exact cleanAttempt_fail _ _ _ rfl rfl rfl

theorem Detect2CharsRule_eq (c c1 : QChar) (text : QString) (progress : ProgressData)
    (h0 : 0 ≤ progress.offset) (h1 : progress.offset < (text.length : Int)) :
    Detect2CharsRule.doMatchSucceed c c1 text (text.length : Int) progress
      = some (if codeUnit text progress.offset = c then
                if progress.offset + 1 < (text.length : Int)
                    ∧ codeUnit text (progress.offset + 1) = c1 then
                  (true, progress.saveOffset.setOffset (progress.offset + 2))
                else (false, progress.saveOffset)
              else (false, progress)) := by
  unfold Detect2CharsRule.doMatchSucceed
  rw [matchCharacter_eq text _ progress c true h0 h1]
  by_cases hc : codeUnit text progress.offset = c
  · by_cases hlt : progress.offset + 1 < (text.length : Int)
    · simp only [hc, if_true]
      rw [matchCharacter_eq text _ _ c1 false (by simp; omega) (by simpa using hlt)]
      by_cases hc1 : codeUnit text (progress.offset + 1) = c1
      · simp [hc1, hlt]
        omega
      · simp [hc1, hlt]
    · simp [hc, hlt]
  · simp [hc]

theorem Detect2CharsRule_clean (c c1 : QChar) (text : QString) (progress : ProgressData)
    (h0 : 0 ≤ progress.offset) (h1 : progress.offset < (text.length : Int)) :
    CleanAttempt text progress
      (Detect2CharsRule.doMatchSucceed c c1 text (text.length : Int) progress) := by
  rw [Detect2CharsRule_eq c c1 text progress h0 h1]
  split_ifs with ha hb
  · exact cleanAttempt_success _ _ _ rfl rfl (by simp) (by simp; omega)
  · exact cleanAttempt_fail _ _ _ rfl rfl rfl
  · exact cleanAttempt_fail _ _ _ rfl rfl rfl

theorem AnyCharRule_eq (cs : QString) (text : QString) (progress : ProgressData)
    (h0 : 0 ≤ progress.offset) (h1 : progress.offset < (text.length : Int)) :
    AnyCharRule.doMatchSucceed cs text (text.length : Int) progress
      = some (if codeUnit text progress.offset ∈ cs then (true, progress.incrementOffset)
              else (false, progress)) := by
  simp only [AnyCharRule.doMatchSucceed, charAt_eq_some_codeUnit text _ h0 h1]
  by_cases hc : codeUnit text progress.offset ∈ cs <;> simp [hc]

theorem AnyCharRule_clean (cs : QString) (text : QString) (progress : ProgressData)
    (h0 : 0 ≤ progress.offset) (h1 : progress.offset < (text.length : Int)) :
    CleanAttempt text progress
      (AnyCharRule.doMatchSucceed cs text (text.length : Int) progress) := by
  rw [AnyCharRule_eq cs text progress h0 h1]
  split
  · exact cleanAttempt_success _ _ _ rfl rfl (by simp) (by simp; omega)
  · exact cleanAttempt_fail _ _ _ rfl rfl rfl

theorem DetectSpacesRule_clean (q : QCharOps) (text : QString) (progress : ProgressData)
    (h0 : 0 ≤ progress.offset) (h1 : progress.offset < (text.length : Int)) :
    CleanAttempt text progress
      (DetectSpacesRule.doMatchSucceed q text (text.length : Int) progress) := by
  unfold DetectSpacesRule.doMatchSucceed
  rw [charPredicateMatchSucceed_eq _ _ _ h0]
  have h2 := le_runEnd q.isSpace text progress.offset
  have h3 := runEnd_le_length q.isSpace text progress.offset h0 (le_of_lt h1)
  by_cases hne : progress.offset ≠ runEnd q.isSpace text progress.offset
  · rw [decide_eq_true hne]
    exact cleanAttempt_success _ _ _ rfl rfl (by simp; omega) (by simpa using h3)
  · rw [decide_eq_false hne]
    exact cleanAttempt_fail _ _ _ rfl rfl (by simp; omega)

theorem IntRule_clean (q : QCharOps) (text : QString) (progress : ProgressData)
    (h0 : 0 ≤ progress.offset) (h1 : progress.offset < (text.length : Int)) :
    CleanAttempt text progress
      (IntRule.doMatchSucceed q text (text.length : Int) progress) := by
  rw [IntRule_eq q text progress h0 h1]
  have h3 := runEnd_le_length q.isDigit text progress.offset h0 (le_of_lt h1)
  split_ifs with ha hb
  · exact cleanAttempt_fail _ _ _ rfl rfl rfl
  · have h4 := (runEnd_ne_iff q.isDigit text progress.offset h0).2 ⟨h1, hb.1⟩
    have h2 := le_runEnd q.isDigit text progress.offset
    exact cleanAttempt_success _ _ _ rfl rfl (by simp; omega) (by simpa using h3)
  · exact cleanAttempt_fail _ _ _ rfl rfl rfl

theorem LineContinueRule_eq (text : QString) (progress : ProgressData)
    (h0 : 0 ≤ progress.offset) (h1 : progress.offset < (text.length : Int)) :
    LineContinueRule.doMatchSucceed text (text.length : Int) progress
      = some (if progress.offset = (text.length : Int) - 1
                  ∧ codeUnit text progress.offset = kBackSlash then
                (true, progress.incrementOffset.setWillContinueLine true)
              else (false, progress)) := by
  unfold LineContinueRule.doMatchSucceed
  rw [charAt_eq_some_codeUnit text _ h0 h1]
  by_cases ha : progress.offset = (text.length : Int) - 1
  · by_cases hb : codeUnit text progress.offset = kBackSlash
    · simp [ha, hb]
      rw [ha] at hb
      simp [hb]
    · simp [ha, hb]
      rw [ha] at hb
      simp [hb]
  · simp [ha]

theorem DetectIdentifierRule_eq (q : QCharOps) (text : QString) (progress : ProgressData)
    (h0 : 0 ≤ progress.offset) (h1 : progress.offset < (text.length : Int)) :
    DetectIdentifierRule.doMatchSucceed q text (text.length : Int) progress
      = some (if q.isLetter (codeUnit text progress.offset) = true
                  ∨ codeUnit text progress.offset = kUnderscore then
                (true, progress.setOffset
                  (runEnd (fun c => q.isLetterOrNumber c || q.isMark c || c == kUnderscore)
                    text (progress.offset + 1)))
              else (false, progress)) := by
  unfold DetectIdentifierRule.doMatchSucceed
  rw [charAt_eq_some_codeUnit text _ h0 h1]
  by_cases hc : q.isLetter (codeUnit text progress.offset) = true
      ∨ codeUnit text progress.offset = kUnderscore
  · rw [if_pos hc]
    have hc2 : (q.isLetter (codeUnit text progress.offset)
        || codeUnit text progress.offset == kUnderscore) = true := by simpa using hc
    simp only [hc2, if_true]
    rw [predicateLoop_eq _ text _ _ (by simp; omega) (le_refl _)]
    simp
  · rw [if_neg hc]
    have hc2 : (q.isLetter (codeUnit text progress.offset)
        || codeUnit text progress.offset == kUnderscore) = false := by
      simpa using hc
    simp [hc2]

theorem DetectIdentifierRule_clean (q : QCharOps) (text : QString) (progress : ProgressData)
    (h0 : 0 ≤ progress.offset) (h1 : progress.offset < (text.length : Int)) :
    CleanAttempt text progress
      (DetectIdentifierRule.doMatchSucceed q text (text.length : Int) progress) := by
  rw [DetectIdentifierRule_eq q text progress h0 h1]
  split
  · have h2 := le_runEnd (fun c => q.isLetterOrNumber c || q.isMark c || c == kUnderscore)
      text (progress.offset + 1)
    have h3 := runEnd_le_length
      (fun c => q.isLetterOrNumber c || q.isMark c || c == kUnderscore)
      text (progress.offset + 1) (by omega) (by omega)
    exact cleanAttempt_success _ _ _ rfl rfl (by simp; omega) (by simpa using h3)
  · exact cleanAttempt_fail _ _ _ rfl rfl rfl

theorem HlCOctRule_eq (q : QCharOps) (text : QString) (progress : ProgressData)
    (h0 : 0 ≤ progress.offset) (h1 : progress.offset < (text.length : Int)) :
    HlCOctRule.doMatchSucceed q text (text.length : Int) progress
      = some (if codeUnit text progress.offset = kZero then
                if progress.offset + 1 < (text.length : Int)
                    ∧ (codeUnit text (progress.offset + 1) = kX
                      ∨ q.toLower (codeUnit text (progress.offset + 1)) = kX) then
                  (false, progress.saveOffset)
                else
                  (true, progress.saveOffset.setOffset
                    (runEnd isOctalDigit text (progress.offset + 1)))
              else (false, progress)) := by
  unfold HlCOctRule.doMatchSucceed
  rw [matchCharacter_eq text _ progress kZero true h0 h1]
  by_cases hc : codeUnit text progress.offset = kZero
  · simp only [hc, if_true]
    rw [andAt_eq _ text _ _ (by intro h; simp at h; simp; omega)]
    by_cases hx : progress.offset + 1 < (text.length : Int)
        ∧ (codeUnit text (progress.offset + 1) = kX
          ∨ q.toLower (codeUnit text (progress.offset + 1)) = kX)
    · rw [if_pos hx]
      have hx2 : (decide (progress.offset + 1 < (text.length : Int))
          && (codeUnit text (progress.offset + 1) == kX
            || q.toLower (codeUnit text (progress.offset + 1)) == kX)) = true := by
        simpa using hx
      simp [hx2]
    · rw [if_neg hx]
      have hx2 : (decide (progress.offset + 1 < (text.length : Int))
          && (codeUnit text (progress.offset + 1) == kX
            || q.toLower (codeUnit text (progress.offset + 1)) == kX)) = false := by
        rw [Bool.eq_false_iff]
        intro h
        exact hx (by simpa using h)
      simp [hx2]
      rw [charPredicateMatchSucceed_eq _ _ _ (by simp; omega)]
      simp
  · simp [hc]

theorem HlCOctRule_clean (q : QCharOps) (text : QString) (progress : ProgressData)
    (h0 : 0 ≤ progress.offset) (h1 : progress.offset < (text.length : Int)) :
    CleanAttempt text progress
      (HlCOctRule.doMatchSucceed q text (text.length : Int) progress) := by
  rw [HlCOctRule_eq q text progress h0 h1]
  split_ifs with ha hb
  · exact cleanAttempt_fail _ _ _ rfl rfl rfl
  · have h2 := le_runEnd isOctalDigit text (progress.offset + 1)
    have h3 := runEnd_le_length isOctalDigit text (progress.offset + 1) (by omega) (by omega)
    exact cleanAttempt_success _ _ _ rfl rfl (by simp; omega) (by simpa using h3)
  · exact cleanAttempt_fail _ _ _ rfl rfl rfl

theorem HlCHexRule_eq (q : QCharOps) (text : QString) (progress : ProgressData)
    (h0 : 0 ≤ progress.offset) (h1 : progress.offset < (text.length : Int)) :
    HlCHexRule.doMatchSucceed q text (text.length : Int) progress
      = some (if codeUnit text progress.offset = kZero then
                if progress.offset + 1 < (text.length : Int)
                    ∧ codeUnit text (progress.offset + 1) ≠ kX
                    ∧ q.toLower (codeUnit text (progress.offset + 1)) ≠ kX then
                  (false, progress.saveOffset)
                else if progress.offset + 2 ≠ runEnd isHexDigit text (progress.offset + 2) then
                  (true, progress.saveOffset.setOffset
                    (runEnd isHexDigit text (progress.offset + 2)))
                else (false, progress.saveOffset)
              else (false, progress)) := by
  unfold HlCHexRule.doMatchSucceed
  rw [matchCharacter_eq text _ progress kZero true h0 h1]
  by_cases hc : codeUnit text progress.offset = kZero
  · simp only [hc, if_true]
    rw [andAt_eq _ text _ _ (by intro h; simp at h; simp; omega)]
    by_cases hx : progress.offset + 1 < (text.length : Int)
        ∧ codeUnit text (progress.offset + 1) ≠ kX
        ∧ q.toLower (codeUnit text (progress.offset + 1)) ≠ kX
    · rw [if_pos hx]
      have hx2 : (decide (progress.offset + 1 < (text.length : Int))
          && (codeUnit text (progress.offset + 1) != kX
            && q.toLower (codeUnit text (progress.offset + 1)) != kX)) = true := by
        simpa using hx
      simp [hx2]
    · rw [if_neg hx]
      have hx2 : (decide (progress.offset + 1 < (text.length : Int))
          && (codeUnit text (progress.offset + 1) != kX
            && q.toLower (codeUnit text (progress.offset + 1)) != kX)) = false := by
        rw [Bool.eq_false_iff]
        intro h
        exact hx (by simpa using h)
      simp [hx2]
      rw [charPredicateMatchSucceed_eq _ _ _ (by simp; omega)]
      have e2 : progress.offset + 1 + 1 = progress.offset + 2 := by omega
      simp only [ProgressData.saveOffset, ProgressData.incrementOffset,
        ProgressData.incrementOffsetBy, e2]
      by_cases hr : progress.offset + 2 = runEnd isHexDigit text (progress.offset + 2)
      · rw [← hr]
        simp
      · simp [hr]
  · simp [hc]

theorem HlCHexRule_clean (q : QCharOps) (text : QString) (progress : ProgressData)
    (h0 : 0 ≤ progress.offset) (h1 : progress.offset < (text.length : Int)) :
    CleanAttempt text progress
      (HlCHexRule.doMatchSucceed q text (text.length : Int) progress) := by
  rw [HlCHexRule_eq q text progress h0 h1]
  split_ifs with ha hb hc
  · exact cleanAttempt_fail _ _ _ rfl rfl rfl
  · have h2 := le_runEnd isHexDigit text (progress.offset + 2)
    have h4 := (runEnd_ne_iff isHexDigit text (progress.offset + 2) (by omega)).1 hc
    have h3 := runEnd_le_length isHexDigit text (progress.offset + 2) (by omega) (by omega)
    exact cleanAttempt_success _ _ _ rfl rfl (by simp; omega) (by simpa using h3)
  · exact cleanAttempt_fail _ _ _ rfl rfl rfl
  · exact cleanAttempt_fail _ _ _ rfl rfl rfl

theorem charAt_ne_some_iff (text : QString) (i : Int) (c : QChar) (h0 : 0 ≤ i) :
    charAt text i ≠ some c ↔ ¬ (i < (text.length : Int) ∧ codeUnit text i = c) := by
  by_cases hlt : i < (text.length : Int)
  · rw [charAt_eq_some_codeUnit text i h0 hlt]
    simp [hlt]
  · rw [charAt_eq_none text i (by omega)]
    simp [hlt]

theorem charAt_eq_some_iff2 (text : QString) (i : Int) (c : QChar) (h0 : 0 ≤ i) :
    charAt text i = some c ↔ (i < (text.length : Int) ∧ codeUnit text i = c) := by
  by_cases hlt : i < (text.length : Int)
  · rw [charAt_eq_some_codeUnit text i h0 hlt]
    simp [hlt]
  · rw [charAt_eq_none text i (by omega)]
    simp [hlt]

theorem asciiOps_lowerCaseOf_x : LowerCaseOf asciiOps kX kUpperX := by
  have key : ∀ c : Nat,
      (if 65 ≤ c ∧ c ≤ 90 then c + 32 else c) = 120 ↔ (c = 120 ∨ c = 88) := by
    intro c
    split <;> omega
  exact key

/-- C8. C-style octal rule (`HlCOctRule::doMatchSucceed`): at an offset inside the line the
rule returns; it succeeds exactly when the code unit at the offset is `0` and the next code
unit, if there is one, is neither `x` nor `X`; on success the offset becomes the end of the
maximal run of octal digits after the `0`; on failure the offset is the entry offset. -/
theorem HlCOctRule_doMatchSucceed_spec (q : QCharOps) (text : QString)
    (progress : ProgressData) (hx : LowerCaseOf q kX kUpperX)
    (h0 : 0 ≤ progress.offset) (h1 : progress.offset < (text.length : Int)) :
    ∃ b p1, HlCOctRule.doMatchSucceed q text (text.length : Int) progress = some (b, p1) ∧
      (b = true ↔
        charAt text progress.offset = some kZero ∧
        charAt text (progress.offset + 1) ≠ some kX ∧
        charAt text (progress.offset + 1) ≠ some kUpperX) ∧
      (b = true → p1.offset = runEnd isOctalDigit text (progress.offset + 1) ∧
        MaximalRun isOctalDigit text (progress.offset + 1) p1.offset) ∧
      (b = false → p1.offset = progress.offset) := by
  rw [HlCOctRule_eq q text progress h0 h1]
  have hmax := maximalRun_runEnd isOctalDigit text _ (progress.offset + 1) (by omega)
    (by omega) rfl
  rw [charAt_eq_some_iff text _ _ h0 h1, charAt_ne_some_iff text _ _ (by omega),
    charAt_ne_some_iff text _ _ (by omega)]
  by_cases hc : codeUnit text progress.offset = kZero
  · by_cases hb : progress.offset + 1 < (text.length : Int)
        ∧ (codeUnit text (progress.offset + 1) = kX
          ∨ q.toLower (codeUnit text (progress.offset + 1)) = kX)
    · refine ⟨false, progress.saveOffset, by simp [hc, hb], ?_, by simp, by simp⟩
      simp only [hc, true_and]
      constructor
      · intro h; cases h
      · intro h
        exfalso
        have h4 : q.toLower (codeUnit text (progress.offset + 1)) = kX := by
          rcases hb.2 with h2 | h2
          · exact (hx _).2 (Or.inl h2)
          · exact h2
        rcases (hx _).1 h4 with h3 | h3
        · exact h.1 ⟨hb.1, h3⟩
        · exact h.2 ⟨hb.1, h3⟩
    · refine ⟨true, progress.saveOffset.setOffset
          (runEnd isOctalDigit text (progress.offset + 1)), by simp [hc, hb], ?_, ?_, by simp⟩
      · simp only [hc, true_and, true_iff]
        constructor
        · intro h
          exact hb ⟨h.1, Or.inl h.2⟩
        · intro h
          exact hb ⟨h.1, Or.inr ((hx _).2 (Or.inr h.2))⟩
      · intro _
        exact ⟨rfl, hmax⟩
  · refine ⟨false, progress, by simp [hc], ?_, by simp, by simp⟩
    simp [hc]

/-- C9. C-style hex rule (`HlCHexRule::doMatchSucceed`): at an offset inside the line the
rule returns; it succeeds exactly when the code unit at the offset is `0`, the next one
exists and is `x` or `X`, and the one after exists and is a hexadecimal digit; on success
the offset becomes the end of the maximal run of hexadecimal digits after the marker; in
every other case the rule fails and the offset is the entry offset. -/
theorem HlCHexRule_doMatchSucceed_spec (q : QCharOps) (text : QString)
    (progress : ProgressData) (hx : LowerCaseOf q kX kUpperX)
    (h0 : 0 ≤ progress.offset) (h1 : progress.offset < (text.length : Int)) :
    ∃ b p1, HlCHexRule.doMatchSucceed q text (text.length : Int) progress = some (b, p1) ∧
      (b = true ↔
        charAt text progress.offset = some kZero ∧
        (charAt text (progress.offset + 1) = some kX ∨
          charAt text (progress.offset + 1) = some kUpperX) ∧
        ∃ c, charAt text (progress.offset + 2) = some c ∧ isHexDigit c = true) ∧
      (b = true → p1.offset = runEnd isHexDigit text (progress.offset + 2) ∧
        MaximalRun isHexDigit text (progress.offset + 2) p1.offset) ∧
      (b = false → p1.offset = progress.offset) := by
  rw [HlCHexRule_eq q text progress h0 h1]
  rw [charAt_eq_some_iff text _ _ h0 h1, charAt_eq_some_iff2 text _ _ (by omega),
    charAt_eq_some_iff2 text _ _ (by omega)]
  have hdig : (∃ c, charAt text (progress.offset + 2) = some c ∧ isHexDigit c = true) ↔
      progress.offset + 2 ≠ runEnd isHexDigit text (progress.offset + 2) := by
    rw [runEnd_ne_iff isHexDigit text _ (by omega)]
    constructor
    · rintro ⟨c, hc1, hc2⟩
      have h3 := (charAt_eq_some_iff2 text _ c (by omega)).1 hc1
      exact ⟨h3.1, by rw [h3.2]; exact hc2⟩
    · rintro ⟨h3, h4⟩
      exact ⟨_, charAt_eq_some_codeUnit text _ (by omega) h3, h4⟩
  rw [hdig]
  by_cases hc : codeUnit text progress.offset = kZero
  · by_cases hb : progress.offset + 1 < (text.length : Int)
        ∧ codeUnit text (progress.offset + 1) ≠ kX
        ∧ q.toLower (codeUnit text (progress.offset + 1)) ≠ kX
    · refine ⟨false, progress.saveOffset, by simp [hc, hb], ?_, by simp, by simp⟩
      simp only [hc, true_and]
      constructor
      · intro h; cases h
      · intro h
        exfalso
        rcases h.1 with h2 | h2
        · exact hb.2.1 h2.2
        · exact hb.2.2 ((hx _).2 (Or.inr h2.2))
    · by_cases hr : progress.offset + 2 ≠ runEnd isHexDigit text (progress.offset + 2)
      · refine ⟨true, progress.saveOffset.setOffset
            (runEnd isHexDigit text (progress.offset + 2)), by simp [hc, hb, hr], ?_, ?_,
            by simp⟩
        · simp only [hc, true_and, true_iff]
          refine ⟨?_, hr⟩
          have h2 := ((runEnd_ne_iff isHexDigit text _ (by omega)).1 hr).1
          have h3 : progress.offset + 1 < (text.length : Int) := by omega
          by_cases h4 : codeUnit text (progress.offset + 1) = kX
          · exact Or.inl ⟨h3, h4⟩
          · by_cases h5 : q.toLower (codeUnit text (progress.offset + 1)) = kX
            · rcases (hx _).1 h5 with h6 | h6
              · exact Or.inl ⟨h3, h6⟩
              · exact Or.inr ⟨h3, h6⟩
            · exact absurd ⟨h3, h4, h5⟩ hb
        · intro _
          exact ⟨rfl, maximalRun_runEnd isHexDigit text _ (progress.offset + 2) (by omega)
            (by
              have h2 := ((runEnd_ne_iff isHexDigit text _ (by omega)).1 hr).1
              omega) rfl⟩
      · refine ⟨false, progress.saveOffset, by simp [hc, hb, hr], ?_, by simp, by simp⟩
        simp only [hc, true_and]
        constructor
        · intro h; cases h
        · intro h
          exact absurd h.2 hr
  · refine ⟨false, progress, by simp [hc], ?_, by simp, by simp⟩
    simp [hc]

theorem codeMarker_eq (q : QCharOps) (hE : LowerCaseOf q kE kUpperE) :
    (FloatRule.markerTest q) = isExponentMarker := by
  funext c
  unfold isExponentMarker FloatRule.markerTest
  have h2 : (q.toLower c == kE) = (c == kE || c == kUpperE) := by
    rw [Bool.eq_iff_iff]
    simpa using hE c
  rw [h2]
  cases (c == kE) <;> simp

theorem FloatRule_exponentBlock_eq (q : QCharOps) (text : QString) (a b c : Bool)
    (progress : ProgressData) (h0 : 0 ≤ progress.offset) :
    FloatRule.exponentBlock q text (text.length : Int) a b c progress
      = some (if hasExponentMarker (FloatRule.markerTest q) text
                  progress.offset = true then
                if exponentDigitsStart text progress.offset
                    ≠ runEnd q.isDigit text (exponentDigitsStart text progress.offset) then
                  FloatRule.finish a c b true (progress.setOffset
                    (runEnd q.isDigit text (exponentDigitsStart text progress.offset)))
                else (false, progress.restoreOffset)
              else FloatRule.finish a c b false progress) := by
  unfold FloatRule.exponentBlock
  simp only []
  rw [andAt_eq _ text _ _ (by intro h; exact ⟨h0, by simpa using h⟩)]
  have hm2 : (decide (progress.offset < (text.length : Int))
      && (codeUnit text progress.offset == kE
        || q.toLower (codeUnit text progress.offset) == kE))
      = hasExponentMarker (FloatRule.markerTest q) text progress.offset := rfl
  rw [hm2]
  cases hm : hasExponentMarker (FloatRule.markerTest q) text
      progress.offset with
  | false => simp
  | true =>
    simp only []
    rw [andAt_eq _ text _ _ (by
      intro h
      have h2 : progress.offset + 1 < (text.length : Int) := by simpa using h
      exact ⟨by show 0 ≤ progress.offset + 1; omega, h2⟩)]
    simp only []
    rw [charPredicateMatchSucceed_eq _ _ _ (by split <;> simp <;> omega)]
    have hs : (if (decide (progress.incrementOffset.offset < (text.length : Int))
          && (codeUnit text progress.incrementOffset.offset == kPlus
            || codeUnit text progress.incrementOffset.offset == kMinus)) = true
        then progress.incrementOffset.incrementOffset else progress.incrementOffset)
        = progress.setOffset (exponentDigitsStart text progress.offset) := by
      unfold exponentDigitsStart
      simp only [ProgressData.incrementOffset, ProgressData.incrementOffsetBy,
        ProgressData.setOffset]
      split
      · congr 1
        omega
      · rfl
    rw [hs]
    simp only [ProgressData.setOffset]
    by_cases hd : exponentDigitsStart text progress.offset
        ≠ runEnd q.isDigit text (exponentDigitsStart text progress.offset)
    · simp [hd]
    · simp [hd]

theorem FloatRule_eq (q : QCharOps) (text : QString) (progress : ProgressData)
    (h0 : 0 ≤ progress.offset) :
    FloatRule.doMatchSucceed q text (text.length : Int) progress
      = some (if (floatParse q (FloatRule.markerTest q) text progress.offset).marker = true then
                if (floatParse q (FloatRule.markerTest q) text progress.offset).digitsStart
                    ≠ (floatParse q (FloatRule.markerTest q) text progress.offset).digitsEnd then
                  FloatRule.finish
                    (floatParse q (FloatRule.markerTest q) text progress.offset).integral
                    (floatParse q (FloatRule.markerTest q) text progress.offset).fraction
                    (floatParse q (FloatRule.markerTest q) text progress.offset).decimalPoint true
                    (progress.saveOffset.setOffset
                      (floatParse q (FloatRule.markerTest q) text progress.offset).digitsEnd)
                else (false, progress.saveOffset)
              else
                FloatRule.finish
                  (floatParse q (FloatRule.markerTest q) text progress.offset).integral
                  (floatParse q (FloatRule.markerTest q) text progress.offset).fraction
                  (floatParse q (FloatRule.markerTest q) text progress.offset).decimalPoint false
                  (progress.saveOffset.setOffset
                    (floatParse q (FloatRule.markerTest q) text progress.offset).fractionEnd)) := by
  unfold FloatRule.doMatchSucceed
  simp only []
  rw [charPredicateMatchSucceed_eq _ _ _ (by simpa using h0)]
  simp only []
  have hi1 := le_runEnd q.isDigit text progress.offset
  rw [andAt_eq _ text _ _ (by intro h; exact ⟨by simp; omega, by simpa using h⟩)]
  simp only []
  have hp2 : (if (decide ((progress.saveOffset.setOffset
          (runEnd q.isDigit text progress.saveOffset.offset)).offset < (text.length : Int))
        && codeUnit text (progress.saveOffset.setOffset
          (runEnd q.isDigit text progress.saveOffset.offset)).offset == kDot) = true
      then (progress.saveOffset.setOffset
          (runEnd q.isDigit text progress.saveOffset.offset)).incrementOffset
      else progress.saveOffset.setOffset (runEnd q.isDigit text progress.saveOffset.offset))
      = progress.saveOffset.setOffset
          (floatParse q (FloatRule.markerTest q) text progress.offset).fractionStart := by
    simp only [floatParse, ProgressData.saveOffset, ProgressData.setOffset,
      ProgressData.incrementOffset, ProgressData.incrementOffsetBy]
    split <;> rfl
  rw [hp2]
  have hi2 : 0 ≤ (floatParse q (FloatRule.markerTest q) text progress.offset).fractionStart := by
    simp only [floatParse]
    split <;> omega
  rw [charPredicateMatchSucceed_eq _ _ _ (by simpa using hi2)]
  simp only []
  have hi3 := le_runEnd q.isDigit text
    (floatParse q (FloatRule.markerTest q) text progress.offset).fractionStart
  rw [FloatRule_exponentBlock_eq q text _ _ _ _ (by simp; omega)]
  simp [floatParse, FloatParse.integral, FloatParse.fraction]

theorem exponentDigitsStart_bounds (m : QChar → Bool) (text : QString) (i : Int)
    (hm : hasExponentMarker m text i = true) :
    i < exponentDigitsStart text i ∧ exponentDigitsStart text i ≤ (text.length : Int) := by
  unfold hasExponentMarker at hm
  have h1 : i < (text.length : Int) := by
    rw [Bool.and_eq_true] at hm
    simpa using hm.1
  unfold exponentDigitsStart
  split
  · rename_i h2
    have h3 : i + 1 < (text.length : Int) := by
      rw [Bool.and_eq_true] at h2
      simpa using h2.1
    omega
  · omega

theorem floatParse_bounds (q : QCharOps) (m : QChar → Bool) (text : QString) (offset : Int)
    (h0 : 0 ≤ offset)
    (h1 : offset ≤ (text.length : Int)) :
    offset ≤ (floatParse q m text offset).integralEnd ∧
    (floatParse q m text offset).integralEnd ≤ (floatParse q m text offset).fractionStart ∧
    (floatParse q m text offset).fractionStart ≤ (floatParse q m text offset).fractionEnd ∧
    (floatParse q m text offset).fractionEnd ≤ (text.length : Int) ∧
    ((floatParse q m text offset).marker = true →
      (floatParse q m text offset).fractionEnd < (floatParse q m text offset).digitsStart ∧
      (floatParse q m text offset).digitsStart ≤ (floatParse q m text offset).digitsEnd ∧
      (floatParse q m text offset).digitsEnd ≤ (text.length : Int)) := by
  have a1 := le_runEnd q.isDigit text offset
  have a2 := runEnd_le_length q.isDigit text offset h0 h1
  have b1 : runEnd q.isDigit text offset ≤ (floatParse q m text offset).fractionStart
      ∧ (floatParse q m text offset).fractionStart ≤ (text.length : Int) := by
    simp only [floatParse]
    split
    · rename_i h2
      have h3 : runEnd q.isDigit text offset < (text.length : Int) := by
        rw [Bool.and_eq_true] at h2
        simpa using h2.1
      omega
    · omega
  have c1 := le_runEnd q.isDigit text (floatParse q m text offset).fractionStart
  have c2 := runEnd_le_length q.isDigit text (floatParse q m text offset).fractionStart
    (by omega) b1.2
  refine ⟨a1, b1.1, c1, c2, ?_⟩
  have c3 : 0 ≤ (floatParse q m text offset).fractionEnd := by
    have c4 : (floatParse q m text offset).fractionStart
        ≤ (floatParse q m text offset).fractionEnd := c1
    omega
  intro hm
  have d1 : (floatParse q m text offset).fractionEnd < (floatParse q m text offset).digitsStart
      ∧ (floatParse q m text offset).digitsStart ≤ (text.length : Int) :=
    exponentDigitsStart_bounds m text _ hm
  have e1 : (floatParse q m text offset).digitsStart ≤ (floatParse q m text offset).digitsEnd :=
    le_runEnd q.isDigit text (floatParse q m text offset).digitsStart
  have e2 : (floatParse q m text offset).digitsEnd ≤ (text.length : Int) :=
    runEnd_le_length q.isDigit text (floatParse q m text offset).digitsStart (by omega) d1.2
  exact ⟨d1.1, e1, e2⟩

/-- C7. Float rule (`FloatRule::doMatchSucceed`). With `f` the parse of the line from the
offset on (maximal digit run, optional point, maximal digit run, optional exponent made of
`e`/`E`, an optional sign and a digit run that is not empty), the rule returns; when it
succeeds, the integral or the fractional run is not empty, the point or the exponent is
present, and the offset is the end of everything parsed; when it fails the offset is the
entry offset. It succeeds exactly when, besides, a marker is followed by exponent digits. -/
theorem FloatRule_doMatchSucceed_spec (q : QCharOps) (text : QString)
    (progress : ProgressData) (f : FloatParse) (hE : LowerCaseOf q kE kUpperE)
    (h0 : 0 ≤ progress.offset) (h1 : progress.offset < (text.length : Int))
    (hf : f = floatParse q isExponentMarker text progress.offset) :
    ∃ b p1, FloatRule.doMatchSucceed q text (text.length : Int) progress = some (b, p1) ∧
      (b = true →
        (f.integral = true ∨ f.fraction = true) ∧
        (f.decimalPoint = true ∨ f.exponent = true) ∧
        p1.offset = f.stop ∧ p1.offset ≤ (text.length : Int)) ∧
      (b = false → p1.offset = progress.offset) ∧
      (b = true ↔
        (f.integral = true ∨ f.fraction = true) ∧
        (f.decimalPoint = true ∨ f.exponent = true) ∧
        (f.marker = true → f.exponent = true)) := by
  subst hf
  rw [FloatRule_eq q text progress h0, codeMarker_eq q hE]
  have hb := floatParse_bounds q isExponentMarker text progress.offset h0 (le_of_lt h1)
  generalize floatParse q isExponentMarker text progress.offset = f at hb ⊢
  obtain ⟨b1, b2, b3, b4, b5⟩ := hb
  unfold FloatRule.finish FloatParse.stop FloatParse.exponent
  cases hm : f.marker with
  | false =>
    cases hi : f.integral <;> cases hr : f.fraction <;> cases hd : f.decimalPoint <;> simp
    all_goals omega
  | true =>
    have b6 := b5 hm
    by_cases hx : f.digitsStart = f.digitsEnd
    · cases hi : f.integral <;> cases hr : f.fraction <;> cases hd : f.decimalPoint <;>
        simp [hx]
    · cases hi : f.integral <;> cases hr : f.fraction <;> cases hd : f.decimalPoint <;>
        simp [hx]
      all_goals omega

theorem FloatRule_clean (q : QCharOps) (text : QString) (progress : ProgressData)
    (h0 : 0 ≤ progress.offset) (h1 : progress.offset < (text.length : Int)) :
    CleanAttempt text progress
      (FloatRule.doMatchSucceed q text (text.length : Int) progress) := by
  rw [FloatRule_eq q text progress h0]
  have hb := floatParse_bounds q (FloatRule.markerTest q) text progress.offset h0
    (le_of_lt h1)
  have hi : (floatParse q (FloatRule.markerTest q) text progress.offset).integral = true
      → progress.offset
        < (floatParse q (FloatRule.markerTest q) text progress.offset).integralEnd := by
    intro h
    have h2 : progress.offset
        ≠ (floatParse q (FloatRule.markerTest q) text progress.offset).integralEnd := by
      simpa [FloatParse.integral, floatParse] using h
    omega
  have hr : (floatParse q (FloatRule.markerTest q) text progress.offset).fraction = true
      → (floatParse q (FloatRule.markerTest q) text progress.offset).fractionStart
        < (floatParse q (FloatRule.markerTest q) text progress.offset).fractionEnd := by
    intro h
    have h2 : (floatParse q (FloatRule.markerTest q) text progress.offset).fractionStart
        ≠ (floatParse q (FloatRule.markerTest q) text progress.offset).fractionEnd := by
      simpa [FloatParse.fraction] using h
    omega
  generalize floatParse q (FloatRule.markerTest q) text progress.offset = f at hb hi hr ⊢
  obtain ⟨b1, b2, b3, b4, b5⟩ := hb
  unfold FloatRule.finish
  cases hm : f.marker with
  | false =>
    cases hi2 : f.integral <;> cases hr2 : f.fraction <;> cases hd : f.decimalPoint <;>
      simp
    all_goals first
      | exact cleanAttempt_fail _ _ _ rfl rfl rfl
      | exact cleanAttempt_success _ _ _ rfl rfl (by have := hi hi2; simp; omega)
          (by simp; omega)
      | exact cleanAttempt_success _ _ _ rfl rfl (by have := hr hr2; simp; omega)
          (by simp; omega)
  | true =>
    have b6 := b5 hm
    by_cases hx : f.digitsStart = f.digitsEnd
    · simp [hx]
      exact cleanAttempt_fail _ _ _ rfl rfl rfl
    · cases hi2 : f.integral <;> cases hr2 : f.fraction <;> cases hd : f.decimalPoint <;>
        simp only [hi2, hr2] at hi hr <;> simp [hx]
      all_goals first
        | exact cleanAttempt_fail _ _ _ rfl rfl rfl
        | exact cleanAttempt_success _ _ _ rfl rfl (by simp; omega) (by simp; omega)

theorem scanLoop_eq (p : QChar → Bool) (text : QString) (fuel : Nat) :
    ∀ i : Int, 0 ≤ i → ((text.length : Int) - i).toNat ≤ fuel →
      scanLoop p text (text.length : Int) fuel i = some (runEnd p text i) := by
  induction fuel with
  | zero =>
    intro i h0 hf
    rw [runEnd_of_length_le p text _ (by omega)]
    rfl
  | succ n ih =>
    intro i h0 hf
    unfold scanLoop
    by_cases hlt : i < (text.length : Int)
    · rw [if_pos hlt, charAt_eq_some_codeUnit text _ h0 hlt]
      by_cases hp : p (codeUnit text i) = true
      · simp only [hp, if_true]
        rw [ih (i + 1) (by omega) (by omega), runEnd_step p text _ h0 hlt hp]
      · simp only [hp]
        rw [runEnd_stop p text _ h0 hlt (by simpa using hp)]
        rfl
    · rw [if_neg hlt, runEnd_of_length_le p text _ (by omega)]

theorem take_length_takeWhile (p : QChar → Bool) (l : QString) :
    l.take (l.takeWhile p).length = l.takeWhile p := by
  induction l with
  | nil => rfl
  | cons x xs ih =>
    by_cases hx : p x = true
    · rw [List.takeWhile_cons_of_pos hx]
      simp [ih]
    · rw [List.takeWhile_cons_of_neg hx]
      simp

theorem fromRawData_runEnd (p : QChar → Bool) (text : QString) (i : Int) (h0 : 0 ≤ i)
    (h1 : i ≤ (text.length : Int)) :
    fromRawData text i (runEnd p text i - i) = some (runText p text i) := by
  have h2 := runEnd_le_length p text i h0 h1
  have h3 := le_runEnd p text i
  unfold fromRawData
  rw [if_pos ⟨h0, by omega, by omega⟩]
  congr 1
  have h4 : (runEnd p text i - i).toNat = ((text.drop i.toNat).takeWhile p).length := by
    unfold runEnd
    omega
  rw [h4]
  exact take_length_takeWhile p _

theorem KeywordRule_eq (q : QCharOps) (r : KeywordRule) (text : QString)
    (progress : ProgressData) (h0 : 0 ≤ progress.offset)
    (h1 : progress.offset < (text.length : Int)) :
    KeywordRule.doMatchSucceed q r text (text.length : Int) progress
      = some (if 0 < progress.offset
                  ∧ r.definition.isDelimiter (codeUnit text (progress.offset - 1)) = false then
                (false, progress)
              else if r.definition.isDelimiter (codeUnit text progress.offset) = true then
                (false, progress)
              else if r.keywordTest q
                  (runText (fun c => !r.definition.isDelimiter c) text progress.offset) = true
              then
                (true, progress.setOffset
                  (runEnd (fun c => !r.definition.isDelimiter c) text progress.offset))
              else (false, progress)) := by
  unfold KeywordRule.doMatchSucceed
  simp only [charAt_eq_some_codeUnit text _ h0 h1]
  rw [andAt_eq _ text _ _ (by intro h; simp at h; omega)]
  rw [scanLoop_eq _ text _ _ h0 (le_refl _)]
  simp only [fromRawData_runEnd _ text _ h0 (le_of_lt h1)]
  by_cases hpos : 0 < progress.offset
  · cases hd : r.definition.isDelimiter (codeUnit text (progress.offset - 1)) <;>
      cases hc : r.definition.isDelimiter (codeUnit text progress.offset) <;>
      simp [hpos] <;> split <;> rfl
  · cases hc : r.definition.isDelimiter (codeUnit text progress.offset) <;> simp [hpos] <;>
      split <;> rfl

theorem KeywordRule_clean (q : QCharOps) (r : KeywordRule) (text : QString)
    (progress : ProgressData) (h0 : 0 ≤ progress.offset)
    (h1 : progress.offset < (text.length : Int)) :
    CleanAttempt text progress
      (KeywordRule.doMatchSucceed q r text (text.length : Int) progress) := by
  rw [KeywordRule_eq q r text progress h0 h1]
  split_ifs with ha hb hc
  · exact cleanAttempt_fail _ _ _ rfl rfl rfl
  · exact cleanAttempt_fail _ _ _ rfl rfl rfl
  · have h2 := (runEnd_ne_iff (fun c => !r.definition.isDelimiter c) text progress.offset
      h0).2 ⟨h1, by simpa using hb⟩
    have h3 := le_runEnd (fun c => !r.definition.isDelimiter c) text progress.offset
    have h4 := runEnd_le_length (fun c => !r.definition.isDelimiter c) text progress.offset
      h0 (le_of_lt h1)
    exact cleanAttempt_success _ _ _ rfl rfl (by simp; omega) (by simpa using h4)
  · exact cleanAttempt_fail _ _ _ rfl rfl rfl

theorem KeywordRule_keywordTest_eq (q : QCharOps) (r : KeywordRule) (candidate : QString) :
    r.keywordTest q candidate = r.m_list.isKeyword q candidate r.effectiveSensitivity := by
  unfold KeywordRule.keywordTest KeywordRule.effectiveSensitivity
  cases r.m_overrideGlobal <;> simp

/-- C4. Keyword rule (`KeywordRule::doMatchSucceed`). The candidate is the maximal run of
code units that are not delimiters from the offset on. At an offset inside the line the rule
returns; it succeeds exactly when the offset is `0` or the code unit before it is a
delimiter, the code unit at the offset is not a delimiter, and the candidate is a keyword of
the list under the effective case sensitivity; on success only the offset changes and
becomes the end of the candidate; on failure the cursor is unchanged. -/
theorem KeywordRule_doMatchSucceed_spec (q : QCharOps) (r : KeywordRule) (text : QString)
    (progress : ProgressData) (h0 : 0 ≤ progress.offset)
    (h1 : progress.offset < (text.length : Int)) :
    ∃ b p1, KeywordRule.doMatchSucceed q r text (text.length : Int) progress = some (b, p1) ∧
      (b = true ↔
        (progress.offset = 0 ∨ ∃ c, charAt text (progress.offset - 1) = some c
          ∧ r.definition.isDelimiter c = true) ∧
        (∃ c, charAt text progress.offset = some c ∧ r.definition.isDelimiter c = false) ∧
        r.m_list.isKeyword q
          (runText (fun c => !r.definition.isDelimiter c) text progress.offset)
          r.effectiveSensitivity = true) ∧
      (b = true →
        p1 = progress.setOffset
          (runEnd (fun c => !r.definition.isDelimiter c) text progress.offset) ∧
        MaximalRun (fun c => !r.definition.isDelimiter c) text progress.offset p1.offset) ∧
      (b = false → p1 = progress) := by
  rw [KeywordRule_eq q r text progress h0 h1, KeywordRule_keywordTest_eq]
  have hmax := maximalRun_runEnd (fun c => !r.definition.isDelimiter c) text _
    progress.offset h0 (le_of_lt h1) rfl
  simp only [charAt_eq_some_iff text _ _ h0 h1]
  by_cases hpos : 0 < progress.offset
  · simp only [charAt_eq_some_iff text (progress.offset - 1) _ (by omega) (by omega)]
    cases hd : r.definition.isDelimiter (codeUnit text (progress.offset - 1))
    · refine ⟨false, progress, by simp [hpos, hd], ?_, by simp, by simp⟩
      simp [hd]
      intro h; omega
    · cases hc : r.definition.isDelimiter (codeUnit text progress.offset)
      · cases hk : r.m_list.isKeyword q
            (runText (fun c => !r.definition.isDelimiter c) text progress.offset)
            r.effectiveSensitivity
        · refine ⟨false, progress, by simp [hpos, hd, hc, hk], ?_, by simp, by simp⟩
          simp [hd, hc, hk]
        · refine ⟨true, progress.setOffset
            (runEnd (fun c => !r.definition.isDelimiter c) text progress.offset),
            by simp [hpos, hd, hc, hk], ?_, ?_, by simp⟩
          · simp [hd, hc, hk]
          · intro _; exact ⟨rfl, hmax⟩
      · refine ⟨false, progress, by simp [hpos, hd, hc], ?_, by simp, by simp⟩
        simp [hd, hc]
  · have hz : progress.offset = 0 := by omega
    cases hc : r.definition.isDelimiter (codeUnit text progress.offset)
    · cases hk : r.m_list.isKeyword q
          (runText (fun c => !r.definition.isDelimiter c) text progress.offset)
          r.effectiveSensitivity
      · refine ⟨false, progress, by simp [hpos, hc, hk], ?_, by simp, by simp⟩
        simp [hc, hk]
      · refine ⟨true, progress.setOffset
          (runEnd (fun c => !r.definition.isDelimiter c) text progress.offset),
          by simp [hpos, hc, hk], ?_, ?_, by simp⟩
        · simp [hz, hc, hk]
          rw [← hz]
          exact hc
        · intro _; exact ⟨rfl, hmax⟩
    · refine ⟨false, progress, by simp [hpos, hc], ?_, by simp, by simp⟩
      simp [hc]

theorem KeywordRule_success_iff (q : QCharOps) (r : KeywordRule) (text : QString)
    (progress : ProgressData) (h0 : 0 ≤ progress.offset)
    (h1 : progress.offset < (text.length : Int)) :
    ∃ b p1, KeywordRule.doMatchSucceed q r text (text.length : Int) progress = some (b, p1) ∧
      (b = true ↔
        KeywordRule.candidateStarts r.definition text progress.offset ∧
        r.m_list.isKeyword q
          (runText (fun c => !r.definition.isDelimiter c) text progress.offset)
          r.effectiveSensitivity = true) := by
  rw [KeywordRule_eq q r text progress h0 h1, KeywordRule_keywordTest_eq]
  unfold KeywordRule.candidateStarts
  simp only [charAt_eq_some_iff text _ _ h0 h1]
  by_cases hpos : 0 < progress.offset
  · simp only [charAt_eq_some_iff text (progress.offset - 1) _ (by omega) (by omega)]
    cases hd : r.definition.isDelimiter (codeUnit text (progress.offset - 1))
    · refine ⟨false, progress, by simp [hpos, hd], ?_⟩
      simp [hd]
      intro h; omega
    · cases hc : r.definition.isDelimiter (codeUnit text progress.offset)
      · cases hk : r.m_list.isKeyword q
            (runText (fun c => !r.definition.isDelimiter c) text progress.offset)
            r.effectiveSensitivity
        · refine ⟨false, progress, by simp [hpos, hd, hc, hk], ?_⟩
          simp [hd, hc, hk]
        · refine ⟨true, progress.setOffset
            (runEnd (fun c => !r.definition.isDelimiter c) text progress.offset),
            by simp [hpos, hd, hc, hk], ?_⟩
          simp [hd, hc, hk]
      · refine ⟨false, progress, by simp [hpos, hd, hc], ?_⟩
        simp [hd, hc]
  · have hz : progress.offset = 0 := by omega
    cases hc : r.definition.isDelimiter (codeUnit text progress.offset)
    · cases hk : r.m_list.isKeyword q
          (runText (fun c => !r.definition.isDelimiter c) text progress.offset)
          r.effectiveSensitivity
      · refine ⟨false, progress, by simp [hpos, hc, hk], ?_⟩
        simp [hc, hk]
      · refine ⟨true, progress.setOffset
          (runEnd (fun c => !r.definition.isDelimiter c) text progress.offset),
          by simp [hpos, hc, hk], ?_⟩
        simp [hz, hc, hk]
        rw [← hz]
        exact hc
    · refine ⟨false, progress, by simp [hpos, hc], ?_⟩
      simp [hc]

/-- C5. Effective case sensitivity of the keyword rule (`KeywordRule::doMatchSucceed` after
`KeywordRule::setInsensitive`). At an offset inside the line where a candidate can start,
the candidate being the run of code units that are not delimiters: after `setInsensitive`
with a value that is not empty (`first :: rest`) the rule succeeds exactly when the candidate is a
keyword of the list under the rule-local sensitivity (insensitive when the value reads as
true, sensitive otherwise), whatever the global sensitivity of the definition is; a rule on
which `setInsensitive` was never called, or was called with the empty string, succeeds
exactly when the candidate is a keyword under the global sensitivity of the definition. -/
theorem KeywordRule_setInsensitive_spec (q : QCharOps) (toBool : QString → Bool)
    (r : KeywordRule) (definition : HighlightDefinition) (list : KeywordList)
    (u : CaseSensitivity) (first : QChar) (rest : QString) (text : QString)
    (progress : ProgressData) (h0 : 0 ≤ progress.offset)
    (h1 : progress.offset < (text.length : Int)) :
    (∃ b p1, KeywordRule.doMatchSucceed q (r.setInsensitive toBool (first :: rest)) text
        (text.length : Int) progress = some (b, p1) ∧
      (b = true ↔
        KeywordRule.candidateStarts r.definition text progress.offset ∧
        r.m_list.isKeyword q
          (runText (fun c => !r.definition.isDelimiter c) text progress.offset)
          (if toBool (first :: rest) = true then CaseSensitivity.CaseInsensitive
           else CaseSensitivity.CaseSensitive) = true)) ∧
    (∃ b p1, KeywordRule.doMatchSucceed q (KeywordRule.create definition list u) text
        (text.length : Int) progress = some (b, p1) ∧
      (b = true ↔
        KeywordRule.candidateStarts definition text progress.offset ∧
        list.isKeyword q (runText (fun c => !definition.isDelimiter c) text progress.offset)
          definition.keywordsSensitive = true)) ∧
    (∃ b p1, KeywordRule.doMatchSucceed q
        ((KeywordRule.create definition list u).setInsensitive toBool []) text
        (text.length : Int) progress = some (b, p1) ∧
      (b = true ↔
        KeywordRule.candidateStarts definition text progress.offset ∧
        list.isKeyword q (runText (fun c => !definition.isDelimiter c) text progress.offset)
          definition.keywordsSensitive = true)) := by
  refine ⟨?_, ?_, ?_⟩
  · have h := KeywordRule_success_iff q (r.setInsensitive toBool (first :: rest)) text
      progress h0 h1
    have e1 : (r.setInsensitive toBool (first :: rest)).definition = r.definition := by
      unfold KeywordRule.setInsensitive
      rw [if_pos (List.cons_ne_nil first rest)]
    have e2 : (r.setInsensitive toBool (first :: rest)).m_list = r.m_list := by
      unfold KeywordRule.setInsensitive
      rw [if_pos (List.cons_ne_nil first rest)]
    have e3 : (r.setInsensitive toBool (first :: rest)).effectiveSensitivity
        = (if toBool (first :: rest) = true then CaseSensitivity.CaseInsensitive
           else CaseSensitivity.CaseSensitive) := by
      unfold KeywordRule.setInsensitive KeywordRule.effectiveSensitivity toCaseSensitivity
      rw [if_pos (List.cons_ne_nil first rest)]
      cases toBool (first :: rest) <;> simp
    rw [e1, e2, e3] at h
    exact h
  · exact KeywordRule_success_iff q (KeywordRule.create definition list u) text progress h0 h1
  · exact KeywordRule_success_iff q (KeywordRule.create definition list u) text progress h0 h1

theorem cleanAttempt_after_fail (text : QString) (progress p1 : ProgressData)
    (res : Option (Bool × ProgressData))
    (h1 : CleanAttempt text progress (some (false, p1))) (h2 : CleanAttempt text p1 res) :
    CleanAttempt text progress res := by
  obtain ⟨b, p, e, a1, a2, a3, a4⟩ := h1
  obtain ⟨c, p2, e2, c1, c2, c3, c4⟩ := h2
  simp only [Option.some.injEq, Prod.mk.injEq] at e
  obtain ⟨eb, ep⟩ := e
  subst eb ep
  have a5 := a3 rfl
  refine ⟨c, p2, e2, by rw [c1, a1], by rw [c2, a2], ?_, ?_⟩
  · intro h; rw [c3 h, a5]
  · intro h
    have := c4 h
    omega

theorem matchEscapeSequence_true_eq (text : QString) (progress : ProgressData)
    (h0 : 0 ≤ progress.offset) (h1 : progress.offset < (text.length : Int)) :
    matchEscapeSequence text (text.length : Int) progress true
      = some (if codeUnit text progress.offset = kBackSlash then
                if progress.offset + 1 < (text.length : Int)
                    ∧ isEscapeChar (codeUnit text (progress.offset + 1)) = true then
                  (true, progress.saveOffset.setOffset (progress.offset + 2))
                else (false, progress.saveOffset)
              else (false, progress)) := by
  unfold matchEscapeSequence
  rw [matchCharacter_eq text _ progress kBackSlash true h0 h1]
  by_cases hc : codeUnit text progress.offset = kBackSlash
  · simp only [hc, if_true]
    by_cases hlt : progress.offset + 1 < (text.length : Int)
    · have hlt2 : progress.saveOffset.incrementOffset.offset < (text.length : Int) := by
        simpa using hlt
      rw [if_pos hlt2, charAt_eq_some_codeUnit text _ (by simp; omega) hlt2]
      cases he : isEscapeChar (codeUnit text (progress.offset + 1))
      · simp [he]
      · simp [he, hlt]
        omega
    · have hlt2 : ¬ progress.saveOffset.incrementOffset.offset < (text.length : Int) := by
        simpa using hlt
      rw [if_neg hlt2]
      simp [hlt]
  · simp [hc]

theorem matchEscapeSequence_false_eq (text : QString) (progress : ProgressData)
    (h0 : 0 ≤ progress.offset) (h1 : progress.offset < (text.length : Int)) :
    matchEscapeSequence text (text.length : Int) progress false
      = some (if codeUnit text progress.offset = kBackSlash then
                if progress.offset + 1 < (text.length : Int)
                    ∧ isEscapeChar (codeUnit text (progress.offset + 1)) = true then
                  (true, progress.setOffset (progress.offset + 2))
                else (false, progress.incrementOffset)
              else (false, progress)) := by
  unfold matchEscapeSequence
  rw [matchCharacter_eq text _ progress kBackSlash false h0 h1]
  by_cases hc : codeUnit text progress.offset = kBackSlash
  · simp only [hc, if_true]
    by_cases hlt : progress.offset + 1 < (text.length : Int)
    · have hlt2 : progress.incrementOffset.offset < (text.length : Int) := by
        simpa using hlt
      simp only [Bool.false_eq_true, if_false]
      rw [if_pos hlt2, charAt_eq_some_codeUnit text _ (by simp; omega) hlt2]
      cases he : isEscapeChar (codeUnit text (progress.offset + 1))
      · simp [he]
      · simp [he, hlt]
        omega
    · have hlt2 : ¬ progress.incrementOffset.offset < (text.length : Int) := by
        simpa using hlt
      simp only [Bool.false_eq_true, if_false]
      rw [if_neg hlt2]
      simp [hlt]
  · simp [hc]

theorem matchEscapeSequence_clean (text : QString) (progress : ProgressData)
    (h0 : 0 ≤ progress.offset) (h1 : progress.offset < (text.length : Int)) :
    CleanAttempt text progress (matchEscapeSequence text (text.length : Int) progress true) := by
  rw [matchEscapeSequence_true_eq text progress h0 h1]
  split_ifs with ha hb
  · exact cleanAttempt_success _ _ _ rfl rfl (by simp) (by simp; omega)
  · exact cleanAttempt_fail _ _ _ rfl rfl rfl
  · exact cleanAttempt_fail _ _ _ rfl rfl rfl

theorem octalLoop_summary (text : QString) (n : Nat) :
    ∀ progress : ProgressData, 0 ≤ progress.offset →
      ∃ j, octalLoop text (text.length : Int) n progress = some (progress.setOffset j) ∧
        progress.offset ≤ j ∧ (j ≤ (text.length : Int) ∨ j = progress.offset) := by
  induction n with
  | zero =>
    intro progress _
    exact ⟨progress.offset, rfl, le_refl _, Or.inr rfl⟩
  | succ m ih =>
    intro progress h0
    unfold octalLoop
    by_cases hlt : progress.offset < (text.length : Int)
    · rw [if_pos hlt, charAt_eq_some_codeUnit text _ h0 hlt]
      cases hp : isOctalDigit (codeUnit text progress.offset)
      · exact ⟨progress.offset, by simp [hp], le_refl _, Or.inr rfl⟩
      · obtain ⟨j, e, a1, a2⟩ := ih progress.incrementOffset (by simp; omega)
        refine ⟨j, by simpa [hp] using e, by simp at a1; omega, ?_⟩
        simp at a1 a2
        left
        omega
    · rw [if_neg hlt]
      exact ⟨progress.offset, rfl, le_refl _, Or.inr rfl⟩

theorem matchOctalSequence_clean (text : QString) (progress : ProgressData)
    (h0 : 0 ≤ progress.offset) (h1 : progress.offset < (text.length : Int)) :
    CleanAttempt text progress (matchOctalSequence text (text.length : Int) progress true) := by
  unfold matchOctalSequence
  rw [matchCharacter_eq text _ progress kBackSlash true h0 h1]
  by_cases hc : codeUnit text progress.offset = kBackSlash
  · simp only [hc, if_true]
    obtain ⟨j, e, a1, a2⟩ := octalLoop_summary text 3 progress.saveOffset.incrementOffset
      (by simp; omega)
    rw [e]
    simp at a1 a2
    by_cases hj : progress.offset + 1 = j
    · simp [hj]
      exact cleanAttempt_fail _ _ _ rfl rfl rfl
    · simp [hj]
      exact cleanAttempt_success _ _ _ rfl rfl (by simp; omega) (by simp; omega)
  · simp only [hc, if_false]
    exact cleanAttempt_fail _ _ _ rfl rfl rfl

theorem matchHexSequence_clean (text : QString) (progress : ProgressData)
    (h0 : 0 ≤ progress.offset) (h1 : progress.offset < (text.length : Int)) :
    CleanAttempt text progress (matchHexSequence text (text.length : Int) progress true) := by
  unfold matchHexSequence
  rw [matchCharacter_eq text _ progress kBackSlash true h0 h1]
  by_cases hc : codeUnit text progress.offset = kBackSlash
  · simp only [hc, if_true]
    by_cases hlt : progress.offset + 1 < (text.length : Int)
    · have hlt2 : progress.saveOffset.incrementOffset.offset < (text.length : Int) := by
        simpa using hlt
      rw [if_pos hlt2, matchCharacter_eq text _ _ kX false (by simp; omega) hlt2]
      by_cases hx : codeUnit text progress.saveOffset.incrementOffset.offset = kX
      · simp only [hx, if_true]
        rw [predicateLoop_eq _ text _ _ (by simp; omega) (le_refl _)]
        have a1 := le_runEnd isHexDigit text (progress.offset + 1 + 1)
        have a2 := runEnd_le_length isHexDigit text (progress.offset + 1 + 1) (by omega)
          (by omega)
        by_cases hj : progress.offset + 1 + 1 = runEnd isHexDigit text (progress.offset + 1 + 1)
        · simp [← hj]
          exact cleanAttempt_fail _ _ _ rfl rfl rfl
        · simp [hj]
          exact cleanAttempt_success _ _ _ rfl rfl (by simp; omega) (by simp; omega)
      · simp only [hx, if_false]
        exact cleanAttempt_fail _ _ _ rfl rfl rfl
    · have hlt2 : ¬ progress.saveOffset.incrementOffset.offset < (text.length : Int) := by
        simpa using hlt
      rw [if_neg hlt2]
      exact cleanAttempt_fail _ _ _ rfl rfl rfl
  · simp only [hc, if_false]
    exact cleanAttempt_fail _ _ _ rfl rfl rfl

theorem HlCStringCharRule_clean (text : QString) (progress : ProgressData)
    (h0 : 0 ≤ progress.offset) (h1 : progress.offset < (text.length : Int)) :
    CleanAttempt text progress
      (HlCStringCharRule.doMatchSucceed text (text.length : Int) progress) := by
  unfold HlCStringCharRule.doMatchSucceed
  have c1 := matchEscapeSequence_clean text progress h0 h1
  obtain ⟨b1, p1, e1, -, -, f1, -⟩ := id c1
  rw [e1] at c1 ⊢
  cases b1 with
  | true => exact c1
  | false =>
    have o1 := f1 rfl
    simp only []
    have c2 := matchOctalSequence_clean text p1 (by omega) (by omega)
    obtain ⟨b2, p2, e2, -, -, f2, -⟩ := id c2
    rw [e2] at c2 ⊢
    cases b2 with
    | true => exact cleanAttempt_after_fail text progress p1 _ c1 c2
    | false =>
      have o2 := f2 rfl
      simp only []
      have c3 := matchHexSequence_clean text p2 (by omega) (by omega)
      obtain ⟨b3, p3, e3, -, -, -, -⟩ := id c3
      rw [e3] at c3 ⊢
      have c4 := cleanAttempt_after_fail text progress p1 _ c1
        (cleanAttempt_after_fail text p1 p2 _ c2 c3)
      cases b3 <;> exact c4

theorem HlCCharRule_eq (text : QString) (progress : ProgressData)
    (h0 : 0 ≤ progress.offset) (h1 : progress.offset < (text.length : Int)) :
    HlCCharRule.doMatchSucceed text (text.length : Int) progress
      = some (if codeUnit text progress.offset = kSingleQuote then
                if progress.offset + 1 < (text.length : Int) then
                  if codeUnit text (progress.offset + 1) ≠ kBackSlash
                      ∧ codeUnit text (progress.offset + 1) ≠ kSingleQuote then
                    if progress.offset + 2 < (text.length : Int)
                        ∧ codeUnit text (progress.offset + 2) = kSingleQuote then
                      (true, progress.saveOffset.setOffset (progress.offset + 3))
                    else (false, progress.saveOffset)
                  else if codeUnit text (progress.offset + 1) = kBackSlash
                      ∧ progress.offset + 2 < (text.length : Int)
                      ∧ isEscapeChar (codeUnit text (progress.offset + 2)) = true then
                    if progress.offset + 3 < (text.length : Int)
                        ∧ codeUnit text (progress.offset + 3) = kSingleQuote then
                      (true, progress.saveOffset.setOffset (progress.offset + 4))
                    else (false, progress.saveOffset)
                  else (false, progress.saveOffset)
                else (false, progress.saveOffset)
              else (false, progress)) := by
  unfold HlCCharRule.doMatchSucceed
  rw [matchCharacter_eq text _ progress kSingleQuote true h0 h1]
  by_cases hc : codeUnit text progress.offset = kSingleQuote
  · simp only [hc, if_true]
    by_cases hlt : progress.offset + 1 < (text.length : Int)
    · have hlt2 : progress.saveOffset.incrementOffset.offset < (text.length : Int) := by
        simpa using hlt
      rw [if_pos hlt2, if_pos hlt, charAt_eq_some_codeUnit text _ (by simp; omega) hlt2]
      simp only []
      have e1 : progress.saveOffset.incrementOffset.offset = progress.offset + 1 := rfl
      rw [e1]
      by_cases hord : codeUnit text (progress.offset + 1) ≠ kBackSlash
          ∧ codeUnit text (progress.offset + 1) ≠ kSingleQuote
      · have hord2 : (codeUnit text (progress.offset + 1) != kBackSlash
            && codeUnit text (progress.offset + 1) != kSingleQuote) = true := by
          simpa using hord
        rw [if_pos hord2, if_pos hord]
        simp only []
        by_cases hlt3 : progress.offset + 2 < (text.length : Int)
        · have hlt4 : progress.saveOffset.incrementOffset.incrementOffset.offset
              < (text.length : Int) := by
            simp; omega
          rw [if_pos hlt4, matchCharacter_eq text _ _ kSingleQuote false (by simp; omega) hlt4]
          have e2 : progress.saveOffset.incrementOffset.incrementOffset.offset
              = progress.offset + 2 := by simp; omega
          rw [e2]
          by_cases hq : codeUnit text (progress.offset + 2) = kSingleQuote
          · simp [hq, hlt3]
            omega
          · simp [hq]
        · have hlt4 : ¬ progress.saveOffset.incrementOffset.incrementOffset.offset
              < (text.length : Int) := by
            simp; omega
          rw [if_neg hlt4]
          simp [hlt3]
      · have hord2 : ¬ (codeUnit text (progress.offset + 1) != kBackSlash
            && codeUnit text (progress.offset + 1) != kSingleQuote) = true := by
          simpa using hord
        rw [if_neg hord2, if_neg hord, matchEscapeSequence_false_eq text _ (by simp; omega) hlt2]
        rw [e1]
        have e3 : progress.offset + 1 + 1 = progress.offset + 2 := by omega
        rw [e3]
        by_cases hesc : codeUnit text (progress.offset + 1) = kBackSlash
            ∧ progress.offset + 2 < (text.length : Int)
            ∧ isEscapeChar (codeUnit text (progress.offset + 2)) = true
        · rw [if_pos hesc, if_pos hesc.1, if_pos hesc.2]
          simp only []
          have e4 : progress.offset + 1 + 2 = progress.offset + 3 := by omega
          rw [e4]
          by_cases hlt5 : progress.offset + 3 < (text.length : Int)
          · have hlt6 : (progress.saveOffset.incrementOffset.setOffset
                (progress.offset + 3)).offset < (text.length : Int) := by
              simpa using hlt5
            rw [if_pos hlt6, matchCharacter_eq text _ _ kSingleQuote false (by simp; omega) hlt6]
            have e5 : (progress.saveOffset.incrementOffset.setOffset
                (progress.offset + 3)).offset = progress.offset + 3 := rfl
            rw [e5]
            by_cases hq : codeUnit text (progress.offset + 3) = kSingleQuote
            · simp [hq, hlt5]
              omega
            · simp [hq]
          · have hlt6 : ¬ (progress.saveOffset.incrementOffset.setOffset
                (progress.offset + 3)).offset < (text.length : Int) := by
              simpa using hlt5
            rw [if_neg hlt6]
            simp [hlt5]
        · rw [if_neg hesc]
          by_cases hb : codeUnit text (progress.offset + 1) = kBackSlash
          · rw [if_pos hb, if_neg (fun h => hesc ⟨hb, h⟩)]
            rfl
          · rw [if_neg hb]
            rfl
    · have hlt2 : ¬ progress.saveOffset.incrementOffset.offset < (text.length : Int) := by
        simpa using hlt
      rw [if_neg hlt2, if_neg hlt]
      rfl
  · simp [hc]

theorem HlCCharRule_clean (text : QString) (progress : ProgressData)
    (h0 : 0 ≤ progress.offset) (h1 : progress.offset < (text.length : Int)) :
    CleanAttempt text progress
      (HlCCharRule.doMatchSucceed text (text.length : Int) progress) := by
  rw [HlCCharRule_eq text progress h0 h1]
  split_ifs
  all_goals first
    | exact cleanAttempt_fail _ _ _ rfl rfl rfl
    | exact cleanAttempt_success _ _ _ rfl rfl (by simp) (by simp; omega)

theorem rangeLoop_eq (c1 : QChar) (text : QString) (fuel : Nat) :
    ∀ progress : ProgressData, 0 ≤ progress.offset →
      ((text.length : Int) - progress.offset).toNat ≤ fuel →
      rangeLoop c1 text (text.length : Int) fuel progress
        = some (if runEnd (fun c => c != c1) text progress.offset < (text.length : Int) then
                  (true, progress.setOffset
                    (runEnd (fun c => c != c1) text progress.offset + 1))
                else (false, progress.setOffset
                    (runEnd (fun c => c != c1) text progress.offset))) := by
  induction fuel with
  | zero =>
    intro progress h0 hf
    rw [runEnd_of_length_le _ text _ (by omega), if_neg (by omega)]
    rfl
  | succ n ih =>
    intro progress h0 hf
    unfold rangeLoop
    by_cases hlt : progress.offset < (text.length : Int)
    · rw [if_pos hlt, matchCharacter_eq text _ progress c1 false h0 hlt]
      by_cases hp : codeUnit text progress.offset = c1
      · rw [runEnd_stop _ text _ h0 hlt (by simp [hp])]
        simp [hp, hlt]
      · rw [runEnd_step _ text _ h0 hlt (by simp [hp])]
        simp only [hp, if_false]
        rw [ih progress.incrementOffset (by simp; omega) (by simp; omega)]
        rfl
    · rw [if_neg hlt, runEnd_of_length_le _ text _ (by omega), if_neg hlt]
      rfl

theorem RangeDetectRule_eq (c c1 : QChar) (text : QString) (progress : ProgressData)
    (h0 : 0 ≤ progress.offset) (h1 : progress.offset < (text.length : Int)) :
    RangeDetectRule.doMatchSucceed c c1 text (text.length : Int) progress
      = some (if codeUnit text progress.offset = c then
                if runEnd (fun x => x != c1) text (progress.offset + 1)
                    < (text.length : Int) then
                  (true, progress.saveOffset.setOffset
                    (runEnd (fun x => x != c1) text (progress.offset + 1) + 1))
                else (false, progress.saveOffset)
              else (false, progress)) := by
  unfold RangeDetectRule.doMatchSucceed
  rw [matchCharacter_eq text _ progress c true h0 h1]
  by_cases hc : codeUnit text progress.offset = c
  · simp only [hc, if_true]
    rw [rangeLoop_eq c1 text _ _ (by simp; omega) (le_refl _)]
    have e1 : progress.saveOffset.incrementOffset.offset = progress.offset + 1 := rfl
    rw [e1]
    by_cases hr : runEnd (fun x => x != c1) text (progress.offset + 1) < (text.length : Int)
    · simp [hr]
    · simp [hr]
  · simp [hc]

theorem RangeDetectRule_clean (c c1 : QChar) (text : QString) (progress : ProgressData)
    (h0 : 0 ≤ progress.offset) (h1 : progress.offset < (text.length : Int)) :
    CleanAttempt text progress
      (RangeDetectRule.doMatchSucceed c c1 text (text.length : Int) progress) := by
  rw [RangeDetectRule_eq c c1 text progress h0 h1]
  have a1 := le_runEnd (fun x => x != c1) text (progress.offset + 1)
  split_ifs with ha hb
  · exact cleanAttempt_success _ _ _ rfl rfl (by simp; omega) (by simp; omega)
  · exact cleanAttempt_fail _ _ _ rfl rfl rfl
  · exact cleanAttempt_fail _ _ _ rfl rfl rfl

theorem StringDetectRule_eq (q : QCharOps) (r : StringDetectRule) (text : QString)
    (progress : ProgressData) (h0 : 0 ≤ progress.offset) (hl : 0 ≤ r.m_length) :
    StringDetectRule.doMatchSucceed q r text (text.length : Int) progress
      = some (if (text.length : Int) - progress.offset ≥ r.m_length
                  ∧ compareEq q ((text.drop progress.offset.toNat).take r.m_length.toNat)
                      r.m_string r.m_caseSensitivity = true then
                (true, progress.incrementOffsetBy r.m_length)
              else (false, progress)) := by
  unfold StringDetectRule.doMatchSucceed
  by_cases hge : (text.length : Int) - progress.offset ≥ r.m_length
  · rw [if_pos hge]
    unfold fromRawData
    rw [if_pos ⟨h0, hl, by omega⟩]
    simp only []
    cases hcmp : compareEq q ((text.drop progress.offset.toNat).take r.m_length.toNat)
        r.m_string r.m_caseSensitivity
    · simp
    · simp [hge]
  · rw [if_neg hge]
    simp [hge]

theorem StringDetectRule_result (q : QCharOps) (r : StringDetectRule) (text : QString)
    (length : Int) (progress : ProgressData) (b : Bool) (p1 : ProgressData)
    (h : StringDetectRule.doMatchSucceed q r text length progress = some (b, p1)) :
    (b = false → p1 = progress) ∧
    (b = true → p1 = progress.incrementOffsetBy r.m_length) := by
  unfold StringDetectRule.doMatchSucceed at h
  split at h
  · split at h
    · cases h
    · split at h
      · simp only [Option.some.injEq, Prod.mk.injEq] at h
        obtain ⟨hb, hp⟩ := h
        subst hb hp
        simp
      · simp only [Option.some.injEq, Prod.mk.injEq] at h
        obtain ⟨hb, hp⟩ := h
        subst hb hp
        simp
  · simp only [Option.some.injEq, Prod.mk.injEq] at h
    obtain ⟨hb, hp⟩ := h
    subst hb hp
    simp

theorem RegExprRule_eq (e : QRegExp) (text : QString) (length : Int)
    (progress : ProgressData) :
    RegExprRule.doMatchSucceed e text length progress
      = some (if (e.indexIn text progress.offset).index = progress.offset
                  ∧ (e.indexIn text progress.offset).matchedLength ≠ 0 then
                (true, (progress.incrementOffsetBy
                  (e.indexIn text progress.offset).matchedLength).setCaptures
                    (e.indexIn text progress.offset).capturedTexts)
              else (false, progress)) := by
  unfold RegExprRule.doMatchSucceed
  simp only []
  by_cases h1 : (e.indexIn text progress.offset).index = progress.offset
  · by_cases h2 : (e.indexIn text progress.offset).matchedLength = 0
    · simp [h1, h2]
    · simp [h1, h2]
  · simp [h1]

theorem cleanAttempt_failure (text : QString) (progress p1 : ProgressData)
    (res : Option (Bool × ProgressData)) (hc : CleanAttempt text progress res)
    (h : res = some (false, p1)) :
    p1.offset = progress.offset ∧ p1.captures = progress.captures
      ∧ p1.willContinueLine = progress.willContinueLine := by
  obtain ⟨b, p, e, a1, a2, a3, -⟩ := hc
  rw [h] at e
  simp only [Option.some.injEq, Prod.mk.injEq] at e
  obtain ⟨eb, ep⟩ := e
  subst eb ep
  exact ⟨a3 rfl, a1, a2⟩

theorem cleanAttempt_returns (text : QString) (progress : ProgressData)
    (res : Option (Bool × ProgressData)) (hc : CleanAttempt text progress res) :
    ∃ b p1, res = some (b, p1) := by
  obtain ⟨b, p, e, -⟩ := hc
  exact ⟨b, p, e⟩

/-- C1. A failed match leaves the offset and the captures as they were: for every rule
variant, every line and every cursor with an offset inside the line, when the attempt
returns failure the offset and the captures of the cursor are those before the attempt.
Every attempt of a configured rule (the cached length of a literal-string rule being the
length of its string) does return. -/
theorem Rule_doMatchSucceed_failure_restores (q : QCharOps) (rule : Rule) (text : QString)
    (progress : ProgressData) (h0 : 0 ≤ progress.offset)
    (h1 : progress.offset < (text.length : Int)) :
    (∀ p1, Rule.doMatchSucceed q rule text (text.length : Int) progress = some (false, p1) →
      p1.offset = progress.offset ∧ p1.captures = progress.captures) ∧
    (rule.WellFormed →
      ∃ b p1, Rule.doMatchSucceed q rule text (text.length : Int) progress = some (b, p1)) := by
  have key : ∀ res : Option (Bool × ProgressData), CleanAttempt text progress res →
      (∀ p1, res = some (false, p1) →
        p1.offset = progress.offset ∧ p1.captures = progress.captures) ∧
      (∃ b p1, res = some (b, p1)) := by
    intro res hc
    refine ⟨?_, cleanAttempt_returns text progress res hc⟩
    intro p1 h
    have := cleanAttempt_failure text progress p1 res hc h
    exact ⟨this.1, this.2.1⟩
  cases rule with
  | detectChar c =>
    have k := key _ (DetectCharRule_clean c text progress h0 h1)
    exact ⟨k.1, fun _ => k.2⟩
  | detect2Chars c c1 =>
    have k := key _ (Detect2CharsRule_clean c c1 text progress h0 h1)
    exact ⟨k.1, fun _ => k.2⟩
  | anyChar cs =>
    have k := key _ (AnyCharRule_clean cs text progress h0 h1)
    exact ⟨k.1, fun _ => k.2⟩
  | stringDetect r =>
    constructor
    · intro p1 h
      have := (StringDetectRule_result q r text _ progress false p1 h).1 rfl
      subst this
      exact ⟨rfl, rfl⟩
    · intro hw
      have hl : 0 ≤ r.m_length := by
        have h2 : r.m_length = (r.m_string.length : Int) := hw
        omega
      exact ⟨_, _, StringDetectRule_eq q r text progress h0 hl⟩
  | regExpr e =>
    constructor
    · intro p1 h
      have h2 : RegExprRule.doMatchSucceed e text (text.length : Int) progress
          = some (false, p1) := h
      rw [RegExprRule_eq] at h2
      split at h2
      · simp at h2
      · simp only [Option.some.injEq, Prod.mk.injEq, true_and] at h2
        subst h2
        exact ⟨rfl, rfl⟩
    · intro _
      exact ⟨_, _, RegExprRule_eq e text (text.length : Int) progress⟩
  | keyword r =>
    have k := key _ (KeywordRule_clean q r text progress h0 h1)
    exact ⟨k.1, fun _ => k.2⟩
  | int =>
    have k := key _ (IntRule_clean q text progress h0 h1)
    exact ⟨k.1, fun _ => k.2⟩
  | float =>
    have k := key _ (FloatRule_clean q text progress h0 h1)
    exact ⟨k.1, fun _ => k.2⟩
  | hlCOct =>
    have k := key _ (HlCOctRule_clean q text progress h0 h1)
    exact ⟨k.1, fun _ => k.2⟩
  | hlCHex =>
    have k := key _ (HlCHexRule_clean q text progress h0 h1)
    exact ⟨k.1, fun _ => k.2⟩
  | hlCStringChar =>
    have k := key _ (HlCStringCharRule_clean text progress h0 h1)
    exact ⟨k.1, fun _ => k.2⟩
  | hlCChar =>
    have k := key _ (HlCCharRule_clean text progress h0 h1)
    exact ⟨k.1, fun _ => k.2⟩
  | rangeDetect c c1 =>
    have k := key _ (RangeDetectRule_clean c c1 text progress h0 h1)
    exact ⟨k.1, fun _ => k.2⟩
  | lineContinue =>
    constructor
    · intro p1 h
      have h2 : LineContinueRule.doMatchSucceed text (text.length : Int) progress
          = some (false, p1) := h
      rw [LineContinueRule_eq text progress h0 h1] at h2
      split at h2
      · simp at h2
      · simp only [Option.some.injEq, Prod.mk.injEq, true_and] at h2
        subst h2
        exact ⟨rfl, rfl⟩
    · intro _
      exact ⟨_, _, LineContinueRule_eq text progress h0 h1⟩
  | detectSpaces =>
    have k := key _ (DetectSpacesRule_clean q text progress h0 h1)
    exact ⟨k.1, fun _ => k.2⟩
  | detectIdentifier =>
    have k := key _ (DetectIdentifierRule_clean q text progress h0 h1)
    exact ⟨k.1, fun _ => k.2⟩

theorem RegExprRule_frame (e : QRegExp) (text : QString) (progress : ProgressData) :
    ∃ b p1, RegExprRule.doMatchSucceed e text (text.length : Int) progress = some (b, p1) ∧
      p1.willContinueLine = progress.willContinueLine ∧
      (b = false → p1 = progress) := by
  rw [RegExprRule_eq]
  split
  · exact ⟨true, _, rfl, rfl, fun h => by cases h⟩
  · exact ⟨false, _, rfl, rfl, fun _ => rfl⟩

/-- C2. A successful match of the literal-string rule can leave the offset where it was:
the rule `"%1"`, rewritten by `doReplaceExpressions` with an empty first capture, has the
empty string and the cached length `0`, and its attempt on the line `abc` at offset `0`
succeeds with the offset still `0`; so does a rule whose string was set empty. -/
theorem StringDetectRule_empty_string_succeeds_in_place :
    StringDetectRule.doReplaceExpressions asciiOps 2
        (StringDetectRule.setString ⟨[], 0, CaseSensitivity.CaseSensitive⟩ (ofString "%1"))
        [ofString "x", []]
      = Except.ok ⟨[], 0, CaseSensitivity.CaseSensitive⟩ ∧
    Rule.doMatchSucceed asciiOps (Rule.stringDetect ⟨[], 0, CaseSensitivity.CaseSensitive⟩)
        (ofString "abc") 3 (cursorAt 0) = some (true, cursorAt 0) ∧
    Rule.doMatchSucceed asciiOps
        (Rule.stringDetect
          (StringDetectRule.setString ⟨ofString "a", 1, CaseSensitivity.CaseSensitive⟩ []))
        (ofString "abc") 3 (cursorAt 1) = some (true, cursorAt 1) :=
  ⟨rfl, by decide, by decide⟩

/-- C3. String-valued capture substitution misses a placeholder: for the parameter `%1%2`
and the captures `a` (index 1) and `b` (index 2) the loop of `replaceByCaptures` ends with
`a%2`, while replacing every placeholder gives `ab`; for `%1_%2` with `foo` and `bar` both
give `foo_bar`. -/
theorem replaceByCaptures_skips_placeholder :
    replaceByCaptures asciiOps 2 (ofString "%1%2") [ofString "ab", ofString "a", ofString "b"]
      = Except.ok (ofString "a%2") ∧
    substituteAll asciiOps [ofString "ab", ofString "a", ofString "b"] 4 (ofString "%1%2")
      = some (ofString "ab") ∧
    replaceByCaptures asciiOps 2 (ofString "%1_%2")
        [ofString "foo_bar", ofString "foo", ofString "bar"]
      = Except.ok (ofString "foo_bar") ∧
    substituteAll asciiOps [ofString "foo_bar", ofString "foo", ofString "bar"] 5
        (ofString "%1_%2")
      = some (ofString "foo_bar") :=
  ⟨rfl, by decide, rfl, by decide⟩

/-- C10. Regular-expression rule (`RegExprRule::doMatchSucceed`), the engine being a black
box that returns a match position, a matched length and the captured texts: the rule
returns; it succeeds exactly when the position found from the offset is the offset and the
matched length is not zero; on success the offset advances by the matched length, the
captures become the captured texts and nothing else changes; on failure, in particular for
a match of length zero at the offset or a match that starts later, the cursor is unchanged. -/
theorem RegExprRule_doMatchSucceed_spec (e : QRegExp) (text : QString) (length : Int)
    (progress : ProgressData) :
    ∃ b p1, RegExprRule.doMatchSucceed e text length progress = some (b, p1) ∧
      (b = true ↔ (e.indexIn text progress.offset).index = progress.offset
        ∧ (e.indexIn text progress.offset).matchedLength ≠ 0) ∧
      (b = true →
        p1.offset = progress.offset + (e.indexIn text progress.offset).matchedLength ∧
        p1.captures = (e.indexIn text progress.offset).capturedTexts ∧
        p1.savedOffset = progress.savedOffset ∧
        p1.willContinueLine = progress.willContinueLine) ∧
      (b = false → p1 = progress) ∧
      ((e.indexIn text progress.offset).index = progress.offset
        ∧ (e.indexIn text progress.offset).matchedLength = 0 → b = false) ∧
      (progress.offset < (e.indexIn text progress.offset).index → b = false) := by
  rw [RegExprRule_eq]
  by_cases h : (e.indexIn text progress.offset).index = progress.offset
      ∧ (e.indexIn text progress.offset).matchedLength ≠ 0
  · refine ⟨true, _, by rw [if_pos h], by simp [h], ?_, by simp, ?_, ?_⟩
    · intro _; exact ⟨rfl, rfl, rfl, rfl⟩
    · intro h2; exact absurd h2.2 h.2
    · intro h2; rw [h.1] at h2; exact absurd h2 (lt_irrefl _)
  · refine ⟨false, _, by rw [if_neg h], by simp [h], by simp, by simp, by simp, by simp⟩

theorem asciiOps_lowerCaseOf_e : LowerCaseOf asciiOps kE kUpperE := by
  have key : ∀ c : Nat,
      (if 65 ≤ c ∧ c ≤ 90 then c + 32 else c) = 101 ↔ (c = 101 ∨ c = 69) := by
    intro c
    split <;> omega
  exact key

/-- Witness of C1: the float rule on the line `3e` at offset `0` fails after reading two code
units, and the offset and the captures are those of the entry cursor. -/
theorem Rule_doMatchSucceed_failure_restores_witness :
    (0 : Int) ≤ lineStart.offset ∧ lineStart.offset < (line3e.length : Int) ∧
    Rule.doMatchSucceed asciiOps Rule.float line3e 2 lineStart
      = some (false, lineStart.saveOffset) ∧
    (
        (∀ p1, Rule.doMatchSucceed asciiOps Rule.float line3e (line3e.length : Int) lineStart =
            some (false, p1) →
          p1.offset = lineStart.offset ∧ p1.captures = lineStart.captures) ∧
        (Rule.float.WellFormed →
          ∃ b p1, Rule.doMatchSucceed asciiOps Rule.float line3e (line3e.length : Int) lineStart
              = some (b, p1))) :=
  ⟨by decide, by decide, by decide,
    Rule_doMatchSucceed_failure_restores asciiOps Rule.float line3e lineStart
      (by decide) (by decide)⟩

/-- Witness of C4: with the list `if`, `else` (case-sensitive) the line `ifx` does not match
at offset `0`, `if ` matches with length `2`, and `if` at the end of the line matches. -/
theorem KeywordRule_doMatchSucceed_spec_witness :
    KeywordRule.doMatchSucceed asciiOps ifElseRule (ofString "ifx") 3 (cursorAt 0)
      = some (false, cursorAt 0) ∧
    KeywordRule.doMatchSucceed asciiOps ifElseRule (ofString "if ") 3 (cursorAt 0)
      = some (true, cursorAt 2) ∧
    KeywordRule.doMatchSucceed asciiOps ifElseRule (ofString "if") 2 (cursorAt 0)
      = some (true, cursorAt 2) ∧
    (
        ∃ b p1, KeywordRule.doMatchSucceed asciiOps ifElseRule lineIf (lineIf.length : Int)
            lineStart = some (b, p1) ∧
          (b = true ↔
            (lineStart.offset = 0 ∨ ∃ c, charAt lineIf (lineStart.offset - 1) = some c
              ∧ ifElseRule.definition.isDelimiter c = true) ∧
            (∃ c, charAt lineIf lineStart.offset = some c
                ∧ ifElseRule.definition.isDelimiter c = false) ∧
            ifElseRule.m_list.isKeyword asciiOps
              (runText (fun c => !ifElseRule.definition.isDelimiter c) lineIf lineStart.offset)
              ifElseRule.effectiveSensitivity = true) ∧
          (b = true →
            p1 = lineStart.setOffset
              (runEnd (fun c => !ifElseRule.definition.isDelimiter c) lineIf lineStart.offset) ∧
            MaximalRun (fun c => !ifElseRule.definition.isDelimiter c) lineIf lineStart.offset
                p1.offset) ∧
          (b = false → p1 = lineStart)) :=
  ⟨by decide, by decide, by decide,
    KeywordRule_doMatchSucceed_spec asciiOps ifElseRule lineIf lineStart
      (by decide) (by decide)⟩

/-- Witness of C6: `09` does not match at offset `0`, `9` matches with length `1` and `123`
with length `3`. -/
theorem IntRule_doMatchSucceed_spec_witness :
    IntRule.doMatchSucceed asciiOps (ofString "09") 2 (cursorAt 0) = some (false, cursorAt 0) ∧
    IntRule.doMatchSucceed asciiOps (ofString "9") 1 (cursorAt 0) = some (true, cursorAt 1) ∧
    IntRule.doMatchSucceed asciiOps (ofString "123") 3 (cursorAt 0) = some (true, cursorAt 3) ∧
    (
        ∃ b p1, IntRule.doMatchSucceed asciiOps line123 (line123.length : Int) lineStart
            = some (b, p1) ∧
          (b = true ↔
            (∃ c, charAt line123 lineStart.offset = some c ∧ asciiOps.isDigit c = true
                ∧ c ≠ kZero) ∧
            (lineStart.offset = 0 ∨
              ∃ c, charAt line123 (lineStart.offset - 1) = some c ∧
                asciiOps.isDigit c = false)) ∧
          (b = true →
            p1 = lineStart.setOffset (runEnd asciiOps.isDigit line123 lineStart.offset) ∧
            MaximalRun asciiOps.isDigit line123 lineStart.offset p1.offset) ∧
          (b = false → p1 = lineStart)) :=
  ⟨by decide, by decide, by decide,
    IntRule_doMatchSucceed_spec asciiOps line123 lineStart (by decide) (by decide)⟩

/-- Witness of C7: `3.` and `.5` match with length `2`, `3` does not match, and `3e` does not
match and leaves the offset `0`. -/
theorem FloatRule_doMatchSucceed_spec_witness :
    (FloatRule.doMatchSucceed asciiOps (ofString "3.") 2 (cursorAt 0)).map
      (fun r => (r.1, r.2.offset)) = some (true, 2) ∧
    (FloatRule.doMatchSucceed asciiOps (ofString ".5") 2 (cursorAt 0)).map
      (fun r => (r.1, r.2.offset)) = some (true, 2) ∧
    (FloatRule.doMatchSucceed asciiOps (ofString "3") 1 (cursorAt 0)).map
      (fun r => (r.1, r.2.offset)) = some (false, 0) ∧
    (FloatRule.doMatchSucceed asciiOps (ofString "3e") 2 (cursorAt 0)).map
      (fun r => (r.1, r.2.offset)) = some (false, 0) ∧
    (
        ∃ b p1, FloatRule.doMatchSucceed asciiOps line3dot (line3dot.length : Int) lineStart =
            some (b, p1) ∧
          (b = true →
            (parse3dot.integral = true ∨ parse3dot.fraction = true) ∧
            (parse3dot.decimalPoint = true ∨ parse3dot.exponent = true) ∧
            p1.offset = parse3dot.stop ∧ p1.offset ≤ (line3dot.length : Int)) ∧
          (b = false → p1.offset = lineStart.offset) ∧
          (b = true ↔
            (parse3dot.integral = true ∨ parse3dot.fraction = true) ∧
            (parse3dot.decimalPoint = true ∨ parse3dot.exponent = true) ∧
            (parse3dot.marker = true → parse3dot.exponent = true))) :=
  ⟨by decide, by decide, by decide, by decide,
    FloatRule_doMatchSucceed_spec asciiOps line3dot lineStart parse3dot
      asciiOps_lowerCaseOf_e (by decide) (by decide) rfl⟩

/-- Witness of C8: `017` matches with length `3`, `0x1F` does not match, and `0` alone
matches with length `1`. -/
theorem HlCOctRule_doMatchSucceed_spec_witness :
    (HlCOctRule.doMatchSucceed asciiOps (ofString "017") 3 (cursorAt 0)).map
      (fun r => (r.1, r.2.offset)) = some (true, 3) ∧
    (HlCOctRule.doMatchSucceed asciiOps (ofString "0x1F") 4 (cursorAt 0)).map
      (fun r => (r.1, r.2.offset)) = some (false, 0) ∧
    (HlCOctRule.doMatchSucceed asciiOps (ofString "0") 1 (cursorAt 0)).map
      (fun r => (r.1, r.2.offset)) = some (true, 1) ∧
    (
        ∃ b p1, HlCOctRule.doMatchSucceed asciiOps line017 (line017.length : Int) lineStart =
            some (b, p1) ∧
          (b = true ↔
            charAt line017 lineStart.offset = some kZero ∧
            charAt line017 (lineStart.offset + 1) ≠ some kX ∧
            charAt line017 (lineStart.offset + 1) ≠ some kUpperX) ∧
          (b = true → p1.offset = runEnd isOctalDigit line017 (lineStart.offset + 1) ∧
            MaximalRun isOctalDigit line017 (lineStart.offset + 1) p1.offset) ∧
          (b = false → p1.offset = lineStart.offset)) :=
  ⟨by decide, by decide, by decide,
    HlCOctRule_doMatchSucceed_spec asciiOps line017 lineStart
      asciiOps_lowerCaseOf_x (by decide) (by decide)⟩

/-- Witness of C9: `0x1F` matches with length `4`; `0` as the last code unit and `0x` without
a hexadecimal digit fail with the offset `0`. -/
theorem HlCHexRule_doMatchSucceed_spec_witness :
    (HlCHexRule.doMatchSucceed asciiOps (ofString "0x1F") 4 (cursorAt 0)).map
      (fun r => (r.1, r.2.offset)) = some (true, 4) ∧
    (HlCHexRule.doMatchSucceed asciiOps (ofString "0") 1 (cursorAt 0)).map
      (fun r => (r.1, r.2.offset)) = some (false, 0) ∧
    (HlCHexRule.doMatchSucceed asciiOps (ofString "0x") 2 (cursorAt 0)).map
      (fun r => (r.1, r.2.offset)) = some (false, 0) ∧
    (
        ∃ b p1, HlCHexRule.doMatchSucceed asciiOps line0x1F (line0x1F.length : Int) lineStart =
            some (b, p1) ∧
          (b = true ↔
            charAt line0x1F lineStart.offset = some kZero ∧
            (charAt line0x1F (lineStart.offset + 1) = some kX ∨
              charAt line0x1F (lineStart.offset + 1) = some kUpperX) ∧
            ∃ c, charAt line0x1F (lineStart.offset + 2) = some c ∧ isHexDigit c = true) ∧
          (b = true → p1.offset = runEnd isHexDigit line0x1F (lineStart.offset + 2) ∧
            MaximalRun isHexDigit line0x1F (lineStart.offset + 2) p1.offset) ∧
          (b = false → p1.offset = lineStart.offset)) :=
  ⟨by decide, by decide, by decide,
    HlCHexRule_doMatchSucceed_spec asciiOps line0x1F lineStart
      asciiOps_lowerCaseOf_x (by decide) (by decide)⟩

/-- C11. Range-detect rule (`RangeDetectRule::doMatchSucceed`) with the opening character
`a` and the closing character `b`: at an offset inside the line the rule returns; it
succeeds exactly when the code unit at the offset is `a` and `b` occurs at some later index
of the line; on success the offset is one past the first such index; on failure the offset
is the entry offset. -/
theorem RangeDetectRule_doMatchSucceed_spec (a b : QChar) (text : QString)
    (progress : ProgressData) (h0 : 0 ≤ progress.offset)
    (h1 : progress.offset < (text.length : Int)) :
    ∃ r p1, RangeDetectRule.doMatchSucceed a b text (text.length : Int) progress
        = some (r, p1) ∧
      (r = true ↔ charAt text progress.offset = some a ∧
        ∃ k, progress.offset < k ∧ charAt text k = some b) ∧
      (r = true → ∃ k0, progress.offset < k0 ∧ charAt text k0 = some b ∧
        (∀ k, progress.offset < k → k < k0 → charAt text k ≠ some b) ∧
        p1.offset = k0 + 1) ∧
      (r = false → p1.offset = progress.offset) := by
  rw [RangeDetectRule_eq a b text progress h0 h1]
  obtain ⟨m1, m2, m3, m4⟩ := maximalRun_runEnd (fun x => x != b) text _
    (progress.offset + 1) (by omega) (by omega) rfl
  rw [charAt_eq_some_iff text _ _ h0 h1]
  have hnone : ∀ k, progress.offset < k →
      k < runEnd (fun x => x != b) text (progress.offset + 1) → charAt text k ≠ some b := by
    intro k hk1 hk2 hk3
    obtain ⟨c, hc1, hc2⟩ := m3 k (by omega) hk2
    rw [hk3] at hc1
    simp only [Option.some.injEq] at hc1
    subst hc1
    simp at hc2
  by_cases hc : codeUnit text progress.offset = a
  · by_cases hr : runEnd (fun x => x != b) text (progress.offset + 1) < (text.length : Int)
    · have hat : charAt text (runEnd (fun x => x != b) text (progress.offset + 1))
          = some b := by
        have h2 := charAt_eq_some_codeUnit text _ (by omega) hr
        have h3 := m4 _ h2
        rw [h2]
        congr 1
        simpa using h3
      refine ⟨true, progress.saveOffset.setOffset
        (runEnd (fun x => x != b) text (progress.offset + 1) + 1), by simp [hc, hr], ?_, ?_,
        by simp⟩
      · simp only [hc, true_and, true_iff]
        exact ⟨_, by omega, hat⟩
      · intro _
        exact ⟨_, by omega, hat, hnone, rfl⟩
    · refine ⟨false, progress.saveOffset, by simp [hc, hr], ?_, by simp, by simp⟩
      simp only [hc, true_and]
      constructor
      · intro h; cases h
      · rintro ⟨k, hk1, hk2⟩
        exfalso
        have hb := charAt_some_bounds text k b hk2
        exact hnone k hk1 (by omega) hk2
  · refine ⟨false, progress, by simp [hc], ?_, by simp, by simp⟩
    simp [hc]

/-- C12. Line-continuation rule (`LineContinueRule::doMatchSucceed`): on a line whose last
code unit is a backslash the rule applied at the last index succeeds, sets
`willContinueLine` and leaves the offset at the length of the line, changing nothing else;
applied at any other offset, or at the last index of a line that does not end in a
backslash, it fails and leaves the cursor unchanged. On the line `abc` followed by a
backslash, at offset `3`, the offset becomes `4`. -/
theorem LineContinueRule_doMatchSucceed_spec (text : QString) (progress : ProgressData) :
    (charAt text ((text.length : Int) - 1) = some kBackSlash →
      progress.offset = (text.length : Int) - 1 →
      LineContinueRule.doMatchSucceed text (text.length : Int) progress
        = some (true, { progress with offset := (text.length : Int),
                                      willContinueLine := true })) ∧
    (progress.offset ≠ (text.length : Int) - 1 →
      LineContinueRule.doMatchSucceed text (text.length : Int) progress
        = some (false, progress)) ∧
    (∀ c, charAt text ((text.length : Int) - 1) = some c → c ≠ kBackSlash →
      LineContinueRule.doMatchSucceed text (text.length : Int) progress
        = some (false, progress)) ∧
    LineContinueRule.doMatchSucceed lineAbcBackslash 4 (cursorAt 3)
      = some (true, { cursorAt 4 with willContinueLine := true }) := by
  refine ⟨?_, ?_, ?_, by decide⟩
  · intro hlast hoff
    unfold LineContinueRule.doMatchSucceed
    rw [if_neg (by simp [hoff]), hoff, hlast]
    simp
    omega
  · intro hne
    unfold LineContinueRule.doMatchSucceed
    rw [if_pos hne]
  · intro c hlast hc
    unfold LineContinueRule.doMatchSucceed
    by_cases hoff : progress.offset = (text.length : Int) - 1
    · rw [if_neg (by simp [hoff]), hoff, hlast]
      simp [hc]
    · rw [if_pos hoff]

/-- C13, as stated, fails: the line-continuation rule matches on the line `abc` followed by
a backslash at offset `3`, which is `length - 1` and not `length - 2`. -/
theorem LineContinueRule_not_second_to_last :
    ¬ (∀ (text : QString) (progress p1 : ProgressData),
        LineContinueRule.doMatchSucceed text (text.length : Int) progress = some (true, p1) →
        progress.offset = (text.length : Int) - 2 ∧
        charAt text progress.offset = some kBackSlash) := by
  intro h
  have h2 := (h lineAbcBackslash (cursorAt 3) { cursorAt 4 with willContinueLine := true }
    (by decide)).1
  exact absurd h2 (by decide)

/-- C13, amended. Line-continuation rule: the rule matches only if the offset is exactly the
last index of the line (`offset = length - 1`) and the code unit at the offset is a
backslash. -/
theorem LineContinueRule_matches_only_at_last (text : QString) (progress p1 : ProgressData)
    (h : LineContinueRule.doMatchSucceed text (text.length : Int) progress
      = some (true, p1)) :
    progress.offset = (text.length : Int) - 1 ∧
    charAt text progress.offset = some kBackSlash := by
  unfold LineContinueRule.doMatchSucceed at h
  split at h
  · simp at h
  · rename_i hoff
    refine ⟨by simpa using hoff, ?_⟩
    split at h
    · cases h
    · rename_i c hc
      split at h
      · rename_i hb
        rw [hc, hb]
      · simp at h

/-- Witness of C13, amended: the match on the line `abc` followed by a backslash at
offset `3`. -/
theorem LineContinueRule_matches_only_at_last_witness :
    LineContinueRule.doMatchSucceed lineAbcBackslash (lineAbcBackslash.length : Int)
        (cursorAt 3) = some (true, { cursorAt 4 with willContinueLine := true }) ∧
    (cursorAt 3).offset = (lineAbcBackslash.length : Int) - 1 ∧
    charAt lineAbcBackslash (cursorAt 3).offset = some kBackSlash :=
  ⟨by decide,
    LineContinueRule_matches_only_at_last lineAbcBackslash (cursorAt 3)
      { cursorAt 4 with willContinueLine := true } (by decide)⟩

/-- C15. Two-character rule (`Detect2CharsRule::doMatchSucceed`) with the characters `c0`
and `c1`: at an offset inside the line the rule returns; it succeeds exactly when the code
unit at the offset is `c0`, the next index is inside the line and holds `c1`; on success
the offset advances by `2`; on failure, also after `c0` matched, the offset is the entry
offset. Captures and continuation flag are kept. -/
theorem Detect2CharsRule_doMatchSucceed_spec (c0 c1 : QChar) (text : QString)
    (progress : ProgressData) (h0 : 0 ≤ progress.offset)
    (h1 : progress.offset < (text.length : Int)) :
    ∃ r p1, Detect2CharsRule.doMatchSucceed c0 c1 text (text.length : Int) progress
        = some (r, p1) ∧
      (r = true ↔ charAt text progress.offset = some c0 ∧
        progress.offset + 1 < (text.length : Int) ∧
        charAt text (progress.offset + 1) = some c1) ∧
      (r = true → p1.offset = progress.offset + 2) ∧
      (r = false → p1.offset = progress.offset) ∧
      p1.captures = progress.captures ∧ p1.willContinueLine = progress.willContinueLine := by
  rw [Detect2CharsRule_eq c0 c1 text progress h0 h1, charAt_eq_some_iff text _ _ h0 h1,
    charAt_eq_some_iff2 text _ _ (by omega)]
  by_cases hc : codeUnit text progress.offset = c0
  · by_cases hn : progress.offset + 1 < (text.length : Int)
        ∧ codeUnit text (progress.offset + 1) = c1
    · exact ⟨true, progress.saveOffset.setOffset (progress.offset + 2), by simp [hc, hn],
        by simp [hc, hn], by simp, by simp, rfl, rfl⟩
    · refine ⟨false, progress.saveOffset, by simp [hc, hn], ?_, by simp, by simp, rfl, rfl⟩
      simp only [hc, true_and]
      constructor
      · intro h; cases h
      · intro h; exact absurd ⟨h.1, h.2.2⟩ hn
  · exact ⟨false, progress, by simp [hc], by simp [hc], by simp, by simp, rfl, rfl⟩

theorem cleanAttempt_frame (text : QString) (progress p1 : ProgressData) (b : Bool)
    (res : Option (Bool × ProgressData)) (hc : CleanAttempt text progress res)
    (h : res = some (b, p1)) :
    Frame progress p1 ∧ progress.offset ≤ p1.offset ∧
      (progress.offset < (text.length : Int) → p1.offset ≤ (text.length : Int)) := by
  obtain ⟨b2, p, e, a1, a2, a3, a4⟩ := hc
  rw [h] at e
  simp only [Option.some.injEq, Prod.mk.injEq] at e
  obtain ⟨eb, ep⟩ := e
  subst eb ep
  refine ⟨⟨a1, a2⟩, ?_, ?_⟩
  · cases b
    · have := a3 rfl; omega
    · have := a4 rfl; omega
  · intro hlt
    cases b
    · have := a3 rfl; omega
    · have := a4 rfl; omega

theorem matchCharacter_abort (text : QString) (length : Int) (progress : ProgressData)
    (c : QChar) (s : Bool)
    (hout : ¬ (0 ≤ progress.offset ∧ progress.offset < (text.length : Int))) :
    matchCharacter text length progress c s = none := by
  unfold matchCharacter
  rw [charAt_eq_none text _ (by omega)]

theorem predicateLoop_abort (p : QChar → Bool) (text : QString) (progress : ProgressData)
    (hneg : progress.offset < 0) :
    predicateLoop p text (text.length : Int)
      ((text.length : Int) - progress.offset).toNat progress = none := by
  obtain ⟨n, hn⟩ : ∃ n, ((text.length : Int) - progress.offset).toNat = n + 1 :=
    ⟨((text.length : Int) - progress.offset).toNat - 1, by omega⟩
  rw [hn]
  unfold predicateLoop
  rw [if_pos (by omega), charAt_eq_none text _ (Or.inl hneg)]

theorem Frame_refl (p : ProgressData) : Frame p p := ⟨rfl, rfl⟩

theorem DetectCharRule_frame (c : QChar) (text : QString) (progress p1 : ProgressData)
    (b : Bool)
    (h : DetectCharRule.doMatchSucceed c text (text.length : Int) progress = some (b, p1)) :
    Frame progress p1 := by
  by_cases hin : 0 ≤ progress.offset ∧ progress.offset < (text.length : Int)
  · exact (cleanAttempt_frame text progress p1 b _
      (DetectCharRule_clean c text progress hin.1 hin.2) h).1
  · unfold DetectCharRule.doMatchSucceed at h
    rw [matchCharacter_abort text _ progress c true hin] at h
    cases h

theorem Detect2CharsRule_frame (c c1 : QChar) (text : QString) (progress p1 : ProgressData)
    (b : Bool)
    (h : Detect2CharsRule.doMatchSucceed c c1 text (text.length : Int) progress
      = some (b, p1)) :
    Frame progress p1 := by
  by_cases hin : 0 ≤ progress.offset ∧ progress.offset < (text.length : Int)
  · exact (cleanAttempt_frame text progress p1 b _
      (Detect2CharsRule_clean c c1 text progress hin.1 hin.2) h).1
  · unfold Detect2CharsRule.doMatchSucceed at h
    rw [matchCharacter_abort text _ progress c true hin] at h
    cases h

theorem AnyCharRule_frame (cs : QString) (text : QString) (progress p1 : ProgressData)
    (b : Bool)
    (h : AnyCharRule.doMatchSucceed cs text (text.length : Int) progress = some (b, p1)) :
    Frame progress p1 := by
  by_cases hin : 0 ≤ progress.offset ∧ progress.offset < (text.length : Int)
  · exact (cleanAttempt_frame text progress p1 b _
      (AnyCharRule_clean cs text progress hin.1 hin.2) h).1
  · unfold AnyCharRule.doMatchSucceed at h
    rw [charAt_eq_none text _ (by omega)] at h
    cases h

theorem HlCOctRule_frame (q : QCharOps) (text : QString) (progress p1 : ProgressData)
    (b : Bool)
    (h : HlCOctRule.doMatchSucceed q text (text.length : Int) progress = some (b, p1)) :
    Frame progress p1 := by
  by_cases hin : 0 ≤ progress.offset ∧ progress.offset < (text.length : Int)
  · exact (cleanAttempt_frame text progress p1 b _
      (HlCOctRule_clean q text progress hin.1 hin.2) h).1
  · unfold HlCOctRule.doMatchSucceed at h
    rw [matchCharacter_abort text _ progress kZero true hin] at h
    cases h

theorem HlCHexRule_frame (q : QCharOps) (text : QString) (progress p1 : ProgressData)
    (b : Bool)
    (h : HlCHexRule.doMatchSucceed q text (text.length : Int) progress = some (b, p1)) :
    Frame progress p1 := by
  by_cases hin : 0 ≤ progress.offset ∧ progress.offset < (text.length : Int)
  · exact (cleanAttempt_frame text progress p1 b _
      (HlCHexRule_clean q text progress hin.1 hin.2) h).1
  · unfold HlCHexRule.doMatchSucceed at h
    rw [matchCharacter_abort text _ progress kZero true hin] at h
    cases h

theorem HlCStringCharRule_frame (text : QString) (progress p1 : ProgressData) (b : Bool)
    (h : HlCStringCharRule.doMatchSucceed text (text.length : Int) progress = some (b, p1)) :
    Frame progress p1 := by
  by_cases hin : 0 ≤ progress.offset ∧ progress.offset < (text.length : Int)
  · exact (cleanAttempt_frame text progress p1 b _
      (HlCStringCharRule_clean text progress hin.1 hin.2) h).1
  · unfold HlCStringCharRule.doMatchSucceed matchEscapeSequence at h
    rw [matchCharacter_abort text _ progress kBackSlash true hin] at h
    cases h

theorem HlCCharRule_frame (text : QString) (progress p1 : ProgressData) (b : Bool)
    (h : HlCCharRule.doMatchSucceed text (text.length : Int) progress = some (b, p1)) :
    Frame progress p1 := by
  by_cases hin : 0 ≤ progress.offset ∧ progress.offset < (text.length : Int)
  · exact (cleanAttempt_frame text progress p1 b _
      (HlCCharRule_clean text progress hin.1 hin.2) h).1
  · unfold HlCCharRule.doMatchSucceed at h
    rw [matchCharacter_abort text _ progress kSingleQuote true hin] at h
    cases h

theorem RangeDetectRule_frame (c c1 : QChar) (text : QString) (progress p1 : ProgressData)
    (b : Bool)
    (h : RangeDetectRule.doMatchSucceed c c1 text (text.length : Int) progress
      = some (b, p1)) :
    Frame progress p1 := by
  by_cases hin : 0 ≤ progress.offset ∧ progress.offset < (text.length : Int)
  · exact (cleanAttempt_frame text progress p1 b _
      (RangeDetectRule_clean c c1 text progress hin.1 hin.2) h).1
  · unfold RangeDetectRule.doMatchSucceed at h
    rw [matchCharacter_abort text _ progress c true hin] at h
    cases h

theorem DetectIdentifierRule_frame (q : QCharOps) (text : QString)
    (progress p1 : ProgressData) (b : Bool)
    (h : DetectIdentifierRule.doMatchSucceed q text (text.length : Int) progress
      = some (b, p1)) :
    Frame progress p1 := by
  by_cases hin : 0 ≤ progress.offset ∧ progress.offset < (text.length : Int)
  · exact (cleanAttempt_frame text progress p1 b _
      (DetectIdentifierRule_clean q text progress hin.1 hin.2) h).1
  · unfold DetectIdentifierRule.doMatchSucceed at h
    rw [charAt_eq_none text _ (by omega)] at h
    cases h

theorem DetectSpacesRule_frame (q : QCharOps) (text : QString) (progress p1 : ProgressData)
    (b : Bool)
    (h : DetectSpacesRule.doMatchSucceed q text (text.length : Int) progress
      = some (b, p1)) :
    Frame progress p1 := by
  unfold DetectSpacesRule.doMatchSucceed at h
  by_cases h0 : 0 ≤ progress.offset
  · rw [charPredicateMatchSucceed_eq _ _ _ h0] at h
    simp only [Option.some.injEq, Prod.mk.injEq] at h
    rw [← h.2]
    exact ⟨rfl, rfl⟩
  · unfold charPredicateMatchSucceed at h
    rw [predicateLoop_abort _ text progress (by omega)] at h
    cases h

theorem FloatRule_frame (q : QCharOps) (text : QString) (progress p1 : ProgressData)
    (b : Bool)
    (h : FloatRule.doMatchSucceed q text (text.length : Int) progress = some (b, p1)) :
    Frame progress p1 := by
  by_cases h0 : 0 ≤ progress.offset
  · rw [FloatRule_eq q text progress h0] at h
    unfold FloatRule.finish at h
    simp only [Option.some.injEq] at h
    split at h
    · split at h
      · split at h <;>
          (simp only [Prod.mk.injEq] at h; rw [← h.2]; exact ⟨rfl, rfl⟩)
      · simp only [Prod.mk.injEq] at h; rw [← h.2]; exact ⟨rfl, rfl⟩
    · split at h <;>
        (simp only [Prod.mk.injEq] at h; rw [← h.2]; exact ⟨rfl, rfl⟩)
  · unfold FloatRule.doMatchSucceed charPredicateMatchSucceed at h
    have h2 := predicateLoop_abort q.isDigit text progress.saveOffset (by simpa using h0)
    simp only [ProgressData.saveOffset] at h h2
    rw [h2] at h
    cases h

theorem KeywordRule_frame (q : QCharOps) (r : KeywordRule) (text : QString)
    (progress p1 : ProgressData) (b : Bool)
    (h : KeywordRule.doMatchSucceed q r text (text.length : Int) progress = some (b, p1)) :
    Frame progress p1 := by
  by_cases hin : 0 ≤ progress.offset ∧ progress.offset < (text.length : Int)
  · exact (cleanAttempt_frame text progress p1 b _
      (KeywordRule_clean q r text progress hin.1 hin.2) h).1
  · unfold KeywordRule.doMatchSucceed at h
    simp only [charAt_eq_none text progress.offset (by omega)] at h
    split at h
    · cases h
    · simp only [Option.some.injEq, Prod.mk.injEq] at h
      rw [← h.2]
      exact Frame_refl _
    · cases h

theorem IntRule_frame (q : QCharOps) (text : QString) (progress p1 : ProgressData)
    (b : Bool)
    (h : IntRule.doMatchSucceed q text (text.length : Int) progress = some (b, p1)) :
    Frame progress p1 := by
  by_cases hin : 0 ≤ progress.offset ∧ progress.offset < (text.length : Int)
  · exact (cleanAttempt_frame text progress p1 b _
      (IntRule_clean q text progress hin.1 hin.2) h).1
  · unfold IntRule.doMatchSucceed at h
    simp only [charAt_eq_none text progress.offset (by omega)] at h
    split at h
    · cases h
    · simp only [Option.some.injEq, Prod.mk.injEq] at h
      rw [← h.2]
      exact Frame_refl _
    · cases h

theorem StringDetectRule_success_bounds (q : QCharOps) (r : StringDetectRule)
    (text : QString) (progress p1 : ProgressData)
    (h : StringDetectRule.doMatchSucceed q r text (text.length : Int) progress
      = some (true, p1)) :
    0 ≤ r.m_length ∧ progress.offset + r.m_length ≤ (text.length : Int) := by
  unfold StringDetectRule.doMatchSucceed at h
  by_cases hge : (text.length : Int) - progress.offset ≥ r.m_length
  · rw [if_pos hge] at h
    unfold fromRawData at h
    by_cases hb : 0 ≤ progress.offset ∧ 0 ≤ r.m_length
        ∧ progress.offset + r.m_length ≤ (text.length : Int)
    · exact ⟨hb.2.1, hb.2.2⟩
    · rw [if_neg hb] at h
      simp at h
  · rw [if_neg hge] at h
    simp at h

theorem Rule_doMatchSucceed_frame (q : QCharOps) (rule : Rule) (text : QString)
    (progress p1 : ProgressData) (b : Bool)
    (h : Rule.doMatchSucceed q rule text (text.length : Int) progress = some (b, p1)) :
    (rule.isRegExpr = false → p1.captures = progress.captures) ∧
    (rule.isLineContinue = false → p1.willContinueLine = progress.willContinueLine) ∧
    (b = false → p1 = progress ∨ Frame progress p1) ∧
    (rule.isRegExpr = true → b = true → ∀ e, rule = Rule.regExpr e →
      p1.captures = (e.indexIn text progress.offset).capturedTexts
      ∧ p1.willContinueLine = progress.willContinueLine) ∧
    (rule.isLineContinue = true → b = true →
      p1.willContinueLine = true ∧ p1.captures = progress.captures) := by
  have key : Frame progress p1 → rule.isRegExpr = false → rule.isLineContinue = false →
      ((rule.isRegExpr = false → p1.captures = progress.captures) ∧
      (rule.isLineContinue = false → p1.willContinueLine = progress.willContinueLine) ∧
      (b = false → p1 = progress ∨ Frame progress p1) ∧
      (rule.isRegExpr = true → b = true → ∀ e, rule = Rule.regExpr e →
        p1.captures = (e.indexIn text progress.offset).capturedTexts
        ∧ p1.willContinueLine = progress.willContinueLine) ∧
      (rule.isLineContinue = true → b = true →
        p1.willContinueLine = true ∧ p1.captures = progress.captures)) := by
    intro hf h1 h2
    refine ⟨fun _ => hf.1, fun _ => hf.2, fun _ => Or.inr hf, ?_, ?_⟩
    · intro h3; rw [h1] at h3; cases h3
    · intro h3; rw [h2] at h3; cases h3
  cases rule with
  | detectChar c => exact key (DetectCharRule_frame c text progress p1 b h) rfl rfl
  | detect2Chars c c1 => exact key (Detect2CharsRule_frame c c1 text progress p1 b h) rfl rfl
  | anyChar cs => exact key (AnyCharRule_frame cs text progress p1 b h) rfl rfl
  | stringDetect r =>
    have h2 := StringDetectRule_result q r text _ progress b p1 h
    refine key ?_ rfl rfl
    cases b
    · rw [h2.1 rfl]; exact Frame_refl _
    · rw [h2.2 rfl]; exact ⟨rfl, rfl⟩
  | regExpr e =>
    have h2 : RegExprRule.doMatchSucceed e text (text.length : Int) progress
        = some (b, p1) := h
    rw [RegExprRule_eq] at h2
    split at h2
    · simp only [Option.some.injEq, Prod.mk.injEq] at h2
      obtain ⟨hb, hp⟩ := h2
      subst hb hp
      refine ⟨fun h3 => (by cases h3), fun _ => rfl, fun h3 => (by cases h3), ?_, ?_⟩
      · intro _ _ e2 he2
        cases he2
        exact ⟨rfl, rfl⟩
      · intro h3; cases h3
    · simp only [Option.some.injEq, Prod.mk.injEq] at h2
      obtain ⟨hb, hp⟩ := h2
      subst hb hp
      refine ⟨fun _ => rfl, fun _ => rfl, fun _ => Or.inl rfl, ?_, ?_⟩
      · intro _ h3; cases h3
      · intro h3; cases h3
  | keyword r => exact key (KeywordRule_frame q r text progress p1 b h) rfl rfl
  | int => exact key (IntRule_frame q text progress p1 b h) rfl rfl
  | float => exact key (FloatRule_frame q text progress p1 b h) rfl rfl
  | hlCOct => exact key (HlCOctRule_frame q text progress p1 b h) rfl rfl
  | hlCHex => exact key (HlCHexRule_frame q text progress p1 b h) rfl rfl
  | hlCStringChar => exact key (HlCStringCharRule_frame text progress p1 b h) rfl rfl
  | hlCChar => exact key (HlCCharRule_frame text progress p1 b h) rfl rfl
  | rangeDetect c c1 => exact key (RangeDetectRule_frame c c1 text progress p1 b h) rfl rfl
  | lineContinue =>
    have h2 : LineContinueRule.doMatchSucceed text (text.length : Int) progress
        = some (b, p1) := h
    unfold LineContinueRule.doMatchSucceed at h2
    have hfail : some (false, progress) = some (b, p1) →
        ((Rule.lineContinue.isRegExpr = false → p1.captures = progress.captures) ∧
        (Rule.lineContinue.isLineContinue = false →
          p1.willContinueLine = progress.willContinueLine) ∧
        (b = false → p1 = progress ∨ Frame progress p1) ∧
        (Rule.lineContinue.isRegExpr = true → b = true → ∀ e,
          Rule.lineContinue = Rule.regExpr e →
          p1.captures = (e.indexIn text progress.offset).capturedTexts
          ∧ p1.willContinueLine = progress.willContinueLine) ∧
        (Rule.lineContinue.isLineContinue = true → b = true →
          p1.willContinueLine = true ∧ p1.captures = progress.captures)) := by
      intro h3
      simp only [Option.some.injEq, Prod.mk.injEq] at h3
      obtain ⟨hb, hp⟩ := h3
      subst hb hp
      refine ⟨fun _ => rfl, fun _ => rfl, fun _ => Or.inl rfl, ?_, ?_⟩
      · intro h4; cases h4
      · intro _ h4; cases h4
    split at h2
    · exact hfail h2
    · split at h2
      · cases h2
      · split at h2
        · simp only [Option.some.injEq, Prod.mk.injEq] at h2
          obtain ⟨hb, hp⟩ := h2
          subst hb hp
          refine ⟨fun _ => rfl, fun h3 => (by cases h3), fun h3 => (by cases h3), ?_, ?_⟩
          · intro h4; cases h4
          · intro _ _; exact ⟨rfl, rfl⟩
        · exact hfail h2
  | detectSpaces => exact key (DetectSpacesRule_frame q text progress p1 b h) rfl rfl
  | detectIdentifier => exact key (DetectIdentifierRule_frame q text progress p1 b h) rfl rfl

/-- C18. Captures persist across the rules other than the regular-expression rule: for
every rule variant, line and cursor, after an attempt that returns, the captures are those
before the attempt when the rule is not the regular-expression rule, and also when the
attempt failed; captures that differ come from a successful regular-expression match and
are the captured texts of the engine. -/
theorem Rule_doMatchSucceed_captures_persist (q : QCharOps) (rule : Rule) (text : QString)
    (progress p1 : ProgressData) (b : Bool)
    (h : Rule.doMatchSucceed q rule text (text.length : Int) progress = some (b, p1)) :
    (rule.isRegExpr = false → p1.captures = progress.captures) ∧
    (b = false → p1.captures = progress.captures) ∧
    (p1.captures ≠ progress.captures →
      ∃ e, rule = Rule.regExpr e ∧ b = true ∧
        p1.captures = (e.indexIn text progress.offset).capturedTexts) := by
  obtain ⟨f1, -, f3, f4, -⟩ := Rule_doMatchSucceed_frame q rule text progress p1 b h
  have hfalse : b = false → p1.captures = progress.captures := by
    intro hb
    rcases f3 hb with h2 | h2
    · rw [h2]
    · exact h2.1
  refine ⟨f1, hfalse, ?_⟩
  intro hne
  cases b with
  | false => exact absurd (hfalse rfl) hne
  | true =>
    cases rule with
    | regExpr e => exact ⟨e, rfl, rfl, (f4 rfl rfl e rfl).1⟩
    | _ => exact absurd (f1 rfl) hne

/-- C19. The continuation flag is written only by the line-continuation rule: for every
rule variant, line and cursor, after an attempt that returns, `willContinueLine` has its
value from before the attempt when the rule is not the line-continuation rule, and also
when the attempt failed; no rule sets it to false (a flag that is false afterwards was
false before). -/
theorem Rule_doMatchSucceed_willContinueLine (q : QCharOps) (rule : Rule) (text : QString)
    (progress p1 : ProgressData) (b : Bool)
    (h : Rule.doMatchSucceed q rule text (text.length : Int) progress = some (b, p1)) :
    (rule.isLineContinue = false → p1.willContinueLine = progress.willContinueLine) ∧
    (b = false → p1.willContinueLine = progress.willContinueLine) ∧
    (p1.willContinueLine = false → progress.willContinueLine = false) ∧
    (p1.willContinueLine ≠ progress.willContinueLine →
      rule = Rule.lineContinue ∧ b = true ∧ p1.willContinueLine = true) := by
  obtain ⟨-, f2, f3, -, f5⟩ := Rule_doMatchSucceed_frame q rule text progress p1 b h
  have hfalse : b = false → p1.willContinueLine = progress.willContinueLine := by
    intro hb
    rcases f3 hb with h2 | h2
    · rw [h2]
    · exact h2.2
  have hdiff : p1.willContinueLine ≠ progress.willContinueLine →
      rule = Rule.lineContinue ∧ b = true ∧ p1.willContinueLine = true := by
    intro hne
    cases b with
    | false => exact absurd (hfalse rfl) hne
    | true =>
      cases rule with
      | lineContinue => exact ⟨rfl, rfl, (f5 rfl rfl).1⟩
      | _ => exact absurd (f2 rfl) hne
  refine ⟨f2, hfalse, ?_, hdiff⟩
  intro hf
  by_cases hne : p1.willContinueLine = progress.willContinueLine
  · rw [← hne]; exact hf
  · have := (hdiff hne).2.2
    rw [hf] at this
    cases this

theorem Rule_offset_bounds (q : QCharOps) (rule : Rule) (text : QString)
    (progress p1 : ProgressData) (b : Bool) (hs : rule.EngineSound text)
    (h0 : 0 ≤ progress.offset) (h1 : progress.offset < (text.length : Int))
    (h : Rule.doMatchSucceed q rule text (text.length : Int) progress = some (b, p1)) :
    progress.offset ≤ p1.offset ∧ p1.offset ≤ (text.length : Int) := by
  have key : ∀ res : Option (Bool × ProgressData), CleanAttempt text progress res →
      res = some (b, p1) →
      progress.offset ≤ p1.offset ∧ p1.offset ≤ (text.length : Int) := by
    intro res hc hr
    have := cleanAttempt_frame text progress p1 b res hc hr
    exact ⟨this.2.1, this.2.2 h1⟩
  cases rule with
  | detectChar c => exact key _ (DetectCharRule_clean c text progress h0 h1) h
  | detect2Chars c c1 => exact key _ (Detect2CharsRule_clean c c1 text progress h0 h1) h
  | anyChar cs => exact key _ (AnyCharRule_clean cs text progress h0 h1) h
  | stringDetect r =>
    have h2 := StringDetectRule_result q r text _ progress b p1 h
    cases b with
    | false =>
      rw [h2.1 rfl]
      omega
    | true =>
      have h3 := StringDetectRule_success_bounds q r text progress p1 h
      rw [h2.2 rfl]
      simp only [ProgressData.incrementOffsetBy]
      omega
  | regExpr e =>
    have h2 : RegExprRule.doMatchSucceed e text (text.length : Int) progress
        = some (b, p1) := h
    rw [RegExprRule_eq] at h2
    split at h2
    · rename_i hm
      have h3 := hs progress.offset hm.1
      simp only [Option.some.injEq, Prod.mk.injEq] at h2
      rw [← h2.2]
      simp only [ProgressData.incrementOffsetBy, ProgressData.setCaptures]
      omega
    · simp only [Option.some.injEq, Prod.mk.injEq] at h2
      rw [← h2.2]
      omega
  | keyword r => exact key _ (KeywordRule_clean q r text progress h0 h1) h
  | int => exact key _ (IntRule_clean q text progress h0 h1) h
  | float => exact key _ (FloatRule_clean q text progress h0 h1) h
  | hlCOct => exact key _ (HlCOctRule_clean q text progress h0 h1) h
  | hlCHex => exact key _ (HlCHexRule_clean q text progress h0 h1) h
  | hlCStringChar => exact key _ (HlCStringCharRule_clean text progress h0 h1) h
  | hlCChar => exact key _ (HlCCharRule_clean text progress h0 h1) h
  | rangeDetect c c1 => exact key _ (RangeDetectRule_clean c c1 text progress h0 h1) h
  | lineContinue =>
    have h2 : LineContinueRule.doMatchSucceed text (text.length : Int) progress
        = some (b, p1) := h
    rw [LineContinueRule_eq text progress h0 h1] at h2
    split at h2
    · simp only [Option.some.injEq, Prod.mk.injEq] at h2
      rw [← h2.2]
      simp
      omega
    · simp only [Option.some.injEq, Prod.mk.injEq] at h2
      rw [← h2.2]
      omega
  | detectSpaces => exact key _ (DetectSpacesRule_clean q text progress h0 h1) h
  | detectIdentifier => exact key _ (DetectIdentifierRule_clean q text progress h0 h1) h

theorem Rule_returns (q : QCharOps) (rule : Rule) (text : QString)
    (progress : ProgressData) (hw : rule.WellFormed)
    (h0 : 0 ≤ progress.offset) (h1 : progress.offset < (text.length : Int)) :
    ∃ b p1, Rule.doMatchSucceed q rule text (text.length : Int) progress = some (b, p1) := by
  cases rule with
  | detectChar c =>
    exact cleanAttempt_returns text progress _ (DetectCharRule_clean c text progress h0 h1)
  | detect2Chars c c1 =>
    exact cleanAttempt_returns text progress _ (Detect2CharsRule_clean c c1 text progress h0 h1)
  | anyChar cs =>
    exact cleanAttempt_returns text progress _ (AnyCharRule_clean cs text progress h0 h1)
  | stringDetect r =>
    have hl : 0 ≤ r.m_length := by
      have h2 : r.m_length = (r.m_string.length : Int) := hw
      omega
    exact ⟨_, _, StringDetectRule_eq q r text progress h0 hl⟩
  | regExpr e => exact ⟨_, _, RegExprRule_eq e text (text.length : Int) progress⟩
  | keyword r =>
    exact cleanAttempt_returns text progress _ (KeywordRule_clean q r text progress h0 h1)
  | int => exact cleanAttempt_returns text progress _ (IntRule_clean q text progress h0 h1)
  | float =>
    exact cleanAttempt_returns text progress _ (FloatRule_clean q text progress h0 h1)
  | hlCOct =>
    exact cleanAttempt_returns text progress _ (HlCOctRule_clean q text progress h0 h1)
  | hlCHex =>
    exact cleanAttempt_returns text progress _ (HlCHexRule_clean q text progress h0 h1)
  | hlCStringChar =>
    exact cleanAttempt_returns text progress _ (HlCStringCharRule_clean text progress h0 h1)
  | hlCChar =>
    exact cleanAttempt_returns text progress _ (HlCCharRule_clean text progress h0 h1)
  | rangeDetect c c1 =>
    exact cleanAttempt_returns text progress _ (RangeDetectRule_clean c c1 text progress h0 h1)
  | lineContinue => exact ⟨_, _, LineContinueRule_eq text progress h0 h1⟩
  | detectSpaces =>
    exact cleanAttempt_returns text progress _ (DetectSpacesRule_clean q text progress h0 h1)
  | detectIdentifier =>
    exact cleanAttempt_returns text progress _ (DetectIdentifierRule_clean q text progress h0 h1)

/-- C20. Offset bound as the caller sees it: for every rule variant (the engine of a
regular-expression rule reporting matches inside the text), every line and every cursor
with an offset inside the line, the offset after an attempt, successful or not, is at least
the entry offset and at most the length of the line. Every attempt of a configured rule
does return. -/
theorem Rule_doMatchSucceed_offset_bound (q : QCharOps) (rule : Rule) (text : QString)
    (progress : ProgressData) (hs : rule.EngineSound text)
    (h0 : 0 ≤ progress.offset) (h1 : progress.offset < (text.length : Int)) :
    (∀ b p1, Rule.doMatchSucceed q rule text (text.length : Int) progress = some (b, p1) →
      progress.offset ≤ p1.offset ∧ p1.offset ≤ (text.length : Int)) ∧
    (rule.WellFormed →
      ∃ b p1, Rule.doMatchSucceed q rule text (text.length : Int) progress = some (b, p1)) :=
  ⟨fun b p1 h => Rule_offset_bounds q rule text progress p1 b hs h0 h1 h,
    fun hw => Rule_returns q rule text progress hw h0 h1⟩

/-- C14. Literal-string rule (`StringDetectRule::doMatchSucceed`) configured with a string
of `n` code units (the cached length being `n`) and a case sensitivity: at an offset from
`0` on the rule returns; it succeeds exactly when at least `n` code units are left from the
offset on and the first `n` of them equal the string, as they are when the rule is
case-sensitive and after case folding when it is not; on success only the offset changes
and advances by `n`; on failure the cursor is unchanged. `setString` caches the length and
`setInsensitive` sets the case sensitivity. -/
theorem StringDetectRule_doMatchSucceed_spec (q : QCharOps) (r : StringDetectRule)
    (text : QString) (progress : ProgressData) (toBool : QString → Bool) (s v : QString)
    (hw : r.m_length = (r.m_string.length : Int)) (h0 : 0 ≤ progress.offset) :
    (∃ b p1, StringDetectRule.doMatchSucceed q r text (text.length : Int) progress
        = some (b, p1) ∧
      (r.m_caseSensitivity = CaseSensitivity.CaseSensitive →
        (b = true ↔ (text.length : Int) - progress.offset ≥ (r.m_string.length : Int) ∧
          (text.drop progress.offset.toNat).take r.m_string.length = r.m_string)) ∧
      (r.m_caseSensitivity = CaseSensitivity.CaseInsensitive →
        (b = true ↔ (text.length : Int) - progress.offset ≥ (r.m_string.length : Int) ∧
          ((text.drop progress.offset.toNat).take r.m_string.length).map q.foldCase
            = r.m_string.map q.foldCase)) ∧
      (b = true → p1 = progress.incrementOffsetBy (r.m_string.length : Int)) ∧
      (b = false → p1 = progress)) ∧
    (r.setString s).m_string = s ∧ (r.setString s).m_length = (s.length : Int) ∧
    (r.setInsensitive toBool v).m_caseSensitivity
      = (if toBool v = true then CaseSensitivity.CaseInsensitive
         else CaseSensitivity.CaseSensitive) := by
  refine ⟨?_, rfl, rfl, ?_⟩
  · rw [StringDetectRule_eq q r text progress h0 (by omega), hw]
    simp only [Int.toNat_ofNat]
    by_cases hc : (text.length : Int) - progress.offset ≥ (r.m_string.length : Int)
        ∧ compareEq q ((text.drop progress.offset.toNat).take r.m_string.length)
            r.m_string r.m_caseSensitivity = true
    · refine ⟨true, progress.incrementOffsetBy (r.m_string.length : Int), by rw [if_pos hc],
        ?_, ?_, fun _ => rfl, fun h => (by cases h)⟩
      · intro hcs
        rw [hcs] at hc
        simp only [true_iff]
        exact ⟨hc.1, by simpa [compareEq] using hc.2⟩
      · intro hcs
        rw [hcs] at hc
        simp only [true_iff]
        exact ⟨hc.1, by simpa [compareEq] using hc.2⟩
    · refine ⟨false, progress, by rw [if_neg hc], ?_, ?_, fun h => (by cases h), fun _ => rfl⟩
      · intro hcs
        rw [hcs] at hc
        constructor
        · intro h; cases h
        · intro h
          exact absurd ⟨h.1, by simpa [compareEq] using h.2⟩ hc
      · intro hcs
        rw [hcs] at hc
        constructor
        · intro h; cases h
        · intro h
          exact absurd ⟨h.1, by simpa [compareEq] using h.2⟩ hc
  · unfold StringDetectRule.setInsensitive toCaseSensitivity
    cases toBool v <;> simp

/-- C16. Character-valued capture substitution (`replaceByCaptures` on a `QChar`), the
referenced index being inside the capture list: the call returns; when the character has a
digit value `d > 0` and the capture `d` is not empty, the character becomes the first code
unit of that capture; when the digit value is not positive (not a digit, or `0`) or the
capture `d` is empty, the character is unchanged. -/
theorem replaceByCapturesChar_spec (q : QCharOps) (c : QChar) (captures : List QString)
    (hb : 0 < q.digitValue c → ∃ cap, capturesAt captures (q.digitValue c) = some cap) :
    ∃ c1, replaceByCapturesChar q c captures = some c1 ∧
      (∀ first rest, 0 < q.digitValue c →
        capturesAt captures (q.digitValue c) = some (first :: rest) → c1 = first) ∧
      (q.digitValue c ≤ 0 → c1 = c) ∧
      (capturesAt captures (q.digitValue c) = some [] → c1 = c) := by
  unfold replaceByCapturesChar
  simp only []
  by_cases hd : 0 < q.digitValue c
  · obtain ⟨cap, hcap⟩ := hb hd
    rw [if_pos hd, hcap]
    cases cap with
    | nil =>
      refine ⟨c, rfl, ?_, fun _ => rfl, fun _ => rfl⟩
      intro first rest _ h
      cases h
    | cons x xs =>
      refine ⟨x, rfl, ?_, fun h => (by omega), fun h => (by cases h)⟩
      intro first rest _ h
      simp only [Option.some.injEq, List.cons.injEq] at h
      exact h.1
  · rw [if_neg hd]
    exact ⟨c, rfl, fun _ _ h => absurd h hd, fun _ => rfl, fun _ => rfl⟩

theorem indexOfFrom_not_mem (c : QChar) (l : QString) (i : Nat) (h : c ∉ l) :
    indexOfFrom c l i = -1 := by
  induction l generalizing i with
  | nil => rfl
  | cons x xs ih =>
    unfold indexOfFrom
    have hx : x ≠ c := fun e => h (by rw [e]; exact List.mem_cons_self _ _)
    rw [if_neg hx]
    exact ih (i + 1) (fun hm => h (List.mem_cons_of_mem _ hm))

theorem indexOfFrom_first (c : QChar) (pre rest : QString) (i : Nat) (h : c ∉ pre) :
    indexOfFrom c (pre ++ c :: rest) i = ((i + pre.length : Nat) : Int) := by
  induction pre generalizing i with
  | nil =>
    simp [indexOfFrom]
  | cons x xs ih =>
    have hx : x ≠ c := fun e => h (by rw [e]; exact List.mem_cons_self _ _)
    show indexOfFrom c (x :: (xs ++ c :: rest)) i = _
    unfold indexOfFrom
    rw [if_neg hx, ih (i + 1) (fun hm => h (List.mem_cons_of_mem _ hm))]
    simp
    omega

theorem indexOf_not_mem (c : QChar) (l : QString) (start : Int) (h : c ∉ l) :
    indexOf l c start = -1 := by
  unfold indexOf
  exact indexOfFrom_not_mem c _ _ (fun hm => h (List.mem_of_mem_drop hm))

theorem charAt_append_cons (a rest : QString) (x : QChar) :
    charAt (a ++ x :: rest) (a.length : Int) = some x := by
  unfold charAt
  rw [if_neg (by omega)]
  simp only [Int.toNat_ofNat]
  rw [List.getElem?_append_right (le_refl _)]
  simp

theorem digitsFrom_eq (q : QCharOps) (post : QString)
    (hpost : ∀ c, post.head? = some c → q.isDigit c = false) (rest : QString) :
    ∀ (a acc : QString) (fuel : Nat), rest.length ≤ fuel →
      (∀ d ∈ rest, q.isDigit d = true) →
      digitsFrom q (a ++ rest ++ post) fuel (a.length : Int) acc
        = (acc ++ rest, ((a.length + rest.length : Nat) : Int)) := by
  induction rest with
  | nil =>
    intro a acc fuel _ _
    simp only [List.append_nil, List.length_nil, Nat.add_zero]
    cases fuel with
    | zero => rfl
    | succ n =>
      unfold digitsFrom
      cases post with
      | nil =>
        rw [if_neg (by simp)]
      | cons x xs =>
        rw [if_pos (by simp), charAt_append_cons]
        simp [hpost x rfl]
  | cons d ds ih =>
    intro a acc fuel hf hd
    cases fuel with
    | zero => simp at hf
    | succ n =>
      unfold digitsFrom
      have e1 : a ++ d :: ds ++ post = a ++ d :: (ds ++ post) := by simp
      rw [e1, if_pos (by simp; omega), charAt_append_cons]
      simp only [hd d (List.mem_cons_self _ _), if_true]
      have e2 : a ++ d :: (ds ++ post) = (a ++ [d]) ++ ds ++ post := by simp
      have e3 : ((a.length : Int) + 1) = ((a ++ [d]).length : Int) := by simp
      rw [e2, e3, ih (a ++ [d]) (acc ++ [d]) n (by simpa using hf)
        (fun x hx => hd x (List.mem_cons_of_mem _ hx))]
      simp
      omega

theorem replaceLoop_done (q : QCharOps) (captures : List QString) (fuel : Nat) (s : QString)
    (start : Int) (h : indexOf s kPercent start = -1) :
    replaceLoop q captures fuel s start = Except.ok s := by
  cases fuel with
  | zero =>
    unfold replaceLoop
    rw [if_pos h]
  | succ n =>
    unfold replaceLoop
    simp only [h, if_true]

theorem replaceAt_placeholder (pre digits post capture : QString) :
    replaceAt (pre ++ kPercent :: (digits ++ post)) (pre.length : Int)
        ((digits.length : Int) + 1) capture
      = pre ++ capture ++ post := by
  unfold replaceAt
  have e1 : ((digits.length : Int) + 1).toNat = digits.length + 1 := by omega
  rw [e1]
  simp only [Int.toNat_ofNat]
  have e2 : pre ++ kPercent :: (digits ++ post) = pre ++ ((kPercent :: digits) ++ post) := by
    simp
  rw [List.take_left, e2, ← List.append_assoc pre, List.drop_left']
  simp

theorem replaceByCaptures_single (q : QCharOps) (fuel : Nat)
    (pre digits post capture : QString) (captures : List QString) (number : Int)
    (hpre : kPercent ∉ pre) (hpost : kPercent ∉ post) (hcap : kPercent ∉ capture)
    (hdig : ∀ d ∈ digits, q.isDigit d = true)
    (hstop : ∀ c, post.head? = some c → q.isDigit c = false)
    (hnum : toInt digits = some number)
    (hat : capturesAt captures number = some capture) :
    replaceByCaptures q (fuel + 1) (pre ++ kPercent :: (digits ++ post)) captures
      = Except.ok (pre ++ capture ++ post) := by
  unfold replaceByCaptures replaceLoop
  have hidx : indexOf (pre ++ kPercent :: (digits ++ post)) kPercent 0
      = (pre.length : Int) := by
    unfold indexOf
    simp only [Int.toNat_zero, List.drop_zero]
    rw [indexOfFrom_first kPercent pre _ 0 hpre]
    simp
  simp only [hidx]
  rw [if_neg (by omega)]
  have hs : pre ++ kPercent :: (digits ++ post) = (pre ++ [kPercent]) ++ digits ++ post := by
    simp
  have hfrom : ((pre.length : Int) + 1) = ((pre ++ [kPercent]).length : Int) := by simp
  have hd := digitsFrom_eq q post hstop digits (pre ++ [kPercent]) []
    (((pre ++ kPercent :: (digits ++ post)).length : Int) - ((pre.length : Int) + 1)).toNat
    (by simp; omega) hdig
  rw [← hs, ← hfrom] at hd
  rw [hd]
  simp only [List.nil_append, hnum, hat]
  rw [replaceAt_placeholder]
  apply replaceLoop_done
  apply indexOf_not_mem
  simp [hpre, hpost, hcap]

/-- C17, as stated, fails: the placeholder `%0` is replaced by the string stored at index
`0` of the capture list, here `ab`, and not by nothing. -/
theorem replaceByCaptures_index_zero_substituted :
    replaceByCaptures asciiOps 1 (ofString "%0") [ofString "ab"] = Except.ok (ofString "ab") ∧
    replaceByCaptures asciiOps 1 (ofString "x%0y") [ofString "ab"]
      = Except.ok (ofString "xaby") ∧
    ofString "ab" ≠ [] :=
  ⟨rfl, rfl, by decide⟩

/-- C17, amended. String-valued capture substitution in a parameter string with a single
placeholder (`pre`, the percent sign, `digits`, `post`, with no other percent sign and a
capture without percent sign): the loop ends and the placeholder is replaced by the capture
at its index; so `%0` is replaced by the string stored at index `0` of the capture list,
and a placeholder whose capture is the empty string is replaced by nothing. -/
theorem replaceByCaptures_single_placeholder (q : QCharOps) (fuel : Nat)
    (pre digits post capture : QString) (captures : List QString) (number : Int)
    (hpre : kPercent ∉ pre) (hpost : kPercent ∉ post) (hcap : kPercent ∉ capture)
    (hdig : ∀ d ∈ digits, q.isDigit d = true)
    (hstop : post.head?.map q.isDigit ≠ some true)
    (hnum : toInt digits = some number)
    (hat : capturesAt captures number = some capture) :
    replaceByCaptures q (fuel + 1) (pre ++ kPercent :: (digits ++ post)) captures
      = Except.ok (pre ++ capture ++ post) ∧
    (number = 0 → captures.head? = some capture) ∧
    (capture = [] →
      replaceByCaptures q (fuel + 1) (pre ++ kPercent :: (digits ++ post)) captures
        = Except.ok (pre ++ post)) := by
  have hstop2 : ∀ c, post.head? = some c → q.isDigit c = false := by
    intro c hc
    rw [hc] at hstop
    cases hq : q.isDigit c
    · rfl
    · exact absurd (by simp [hq]) hstop
  have main := replaceByCaptures_single q fuel pre digits post capture captures number
    hpre hpost hcap hdig hstop2 hnum hat
  refine ⟨main, ?_, ?_⟩
  · intro h0
    rw [h0] at hat
    cases captures with
    | nil => simp [capturesAt] at hat
    | cons c0 rest => simpa [capturesAt] using hat
  · intro he
    rw [main, he]
    simp

/-- Witness of C17, amended: `x%0y` with `ab` at index `0` becomes `xaby`. -/
theorem replaceByCaptures_single_placeholder_witness :
    replaceByCaptures asciiOps (0 + 1)
        (ofString "x" ++ kPercent :: (ofString "0" ++ ofString "y")) [ofString "ab"]
      = Except.ok (ofString "x" ++ ofString "ab" ++ ofString "y") ∧
    ((0 : Int) = 0 → [ofString "ab"].head? = some (ofString "ab")) ∧
    (ofString "ab" = [] →
      replaceByCaptures asciiOps (0 + 1)
          (ofString "x" ++ kPercent :: (ofString "0" ++ ofString "y")) [ofString "ab"]
        = Except.ok (ofString "x" ++ ofString "y")) :=
  replaceByCaptures_single_placeholder asciiOps 0 (ofString "x") (ofString "0")
    (ofString "y") (ofString "ab") [ofString "ab"] 0 (by decide) (by decide) (by decide)
    (by decide) (by decide) (by decide) (by decide)

/-- Witness of C11: `<tag>` with `<` and `>` matches with length `5`; `<tag` fails and the
offset stays `0`. -/
theorem RangeDetectRule_doMatchSucceed_spec_witness :
    (RangeDetectRule.doMatchSucceed kLess kGreater (ofString "<tag>") 5 (cursorAt 0)).map
      (fun r => (r.1, r.2.offset)) = some (true, 5) ∧
    (RangeDetectRule.doMatchSucceed kLess kGreater (ofString "<tag") 4 (cursorAt 0)).map
      (fun r => (r.1, r.2.offset)) = some (false, 0) ∧
    (
        ∃ r p1, RangeDetectRule.doMatchSucceed kLess kGreater lineTag (lineTag.length : Int)
            lineStart
            = some (r, p1) ∧
          (r = true ↔ charAt lineTag lineStart.offset = some kLess ∧
            ∃ k, lineStart.offset < k ∧ charAt lineTag k = some kGreater) ∧
          (r = true → ∃ k0, lineStart.offset < k0 ∧ charAt lineTag k0 = some kGreater ∧
            (∀ k, lineStart.offset < k → k < k0 → charAt lineTag k ≠ some kGreater) ∧
            p1.offset = k0 + 1) ∧
          (r = false → p1.offset = lineStart.offset)) :=
  ⟨by decide, by decide,
    RangeDetectRule_doMatchSucceed_spec kLess kGreater lineTag lineStart
      (by decide) (by decide)⟩

/-- Witness of C14: the rule `ab`, not case-sensitive, matches `AB` in the line `xAB` at
offset `1` and advances by `2`; at offset `2` too few code units are left. -/
theorem StringDetectRule_doMatchSucceed_spec_witness :
    StringDetectRule.doMatchSucceed asciiOps abRule lineXAB 3 (cursorAt 1)
      = some (true, cursorAt 3) ∧
    StringDetectRule.doMatchSucceed asciiOps abRule lineXAB 3 (cursorAt 2)
      = some (false, cursorAt 2) ∧
    (
        (∃ b p1, StringDetectRule.doMatchSucceed asciiOps abRule lineXAB (lineXAB.length : Int)
            (cursorAt 1)
            = some (b, p1) ∧
          (abRule.m_caseSensitivity = CaseSensitivity.CaseSensitive →
            (b = true ↔ (lineXAB.length : Int) - (cursorAt 1).offset ≥ (abRule.m_string.length :
                Int) ∧
              (lineXAB.drop (cursorAt 1).offset.toNat).take abRule.m_string.length =
                  abRule.m_string)) ∧
          (abRule.m_caseSensitivity = CaseSensitivity.CaseInsensitive →
            (b = true ↔ (lineXAB.length : Int) - (cursorAt 1).offset ≥ (abRule.m_string.length :
                Int) ∧
              ((lineXAB.drop (cursorAt 1).offset.toNat).take abRule.m_string.length).map
                  asciiOps.foldCase
                = abRule.m_string.map asciiOps.foldCase)) ∧
          (b = true → p1 = (cursorAt 1).incrementOffsetBy (abRule.m_string.length : Int)) ∧
          (b = false → p1 = (cursorAt 1))) ∧
        (abRule.setString lineAb).m_string = lineAb
            ∧ (abRule.setString lineAb).m_length = (lineAb.length : Int) ∧
        (abRule.setInsensitive (fun _ => true) lineAb).m_caseSensitivity
          = (if (fun _ => true) lineAb = true then CaseSensitivity.CaseInsensitive
             else CaseSensitivity.CaseSensitive)) :=
  ⟨by decide, by decide,
    StringDetectRule_doMatchSucceed_spec asciiOps abRule lineXAB (cursorAt 1)
      (fun _ => true) lineAb lineAb (by decide) (by decide)⟩

/-- Witness of C15: `ab` matches in the line `ab` at offset `0`; at offset `1` of the line
`xa` the first character matches and the line ends, so the rule fails at offset `1`. -/
theorem Detect2CharsRule_doMatchSucceed_spec_witness :
    (Detect2CharsRule.doMatchSucceed kLowerA kLowerB (ofString "ab") 2 (cursorAt 0)).map
      (fun r => (r.1, r.2.offset)) = some (true, 2) ∧
    (Detect2CharsRule.doMatchSucceed kLowerA kLowerB (ofString "xa") 2 (cursorAt 1)).map
      (fun r => (r.1, r.2.offset)) = some (false, 1) ∧
    (Detect2CharsRule.doMatchSucceed kLowerA kLowerB (ofString "ax") 2 (cursorAt 0)).map
      (fun r => (r.1, r.2.offset)) = some (false, 0) ∧
    (
        ∃ r p1, Detect2CharsRule.doMatchSucceed kLowerA kLowerB lineAb (lineAb.length : Int)
            lineStart
            = some (r, p1) ∧
          (r = true ↔ charAt lineAb lineStart.offset = some kLowerA ∧
            lineStart.offset + 1 < (lineAb.length : Int) ∧
            charAt lineAb (lineStart.offset + 1) = some kLowerB) ∧
          (r = true → p1.offset = lineStart.offset + 2) ∧
          (r = false → p1.offset = lineStart.offset) ∧
          p1.captures = lineStart.captures ∧ p1.willContinueLine = lineStart.willContinueLine) :=
  ⟨by decide, by decide, by decide,
    Detect2CharsRule_doMatchSucceed_spec kLowerA kLowerB lineAb lineStart
      (by decide) (by decide)⟩

/-- Witness of C16: the character `1` becomes `f`, the first code unit of the capture `foo`;
the characters `0` and `x` are left as they are. -/
theorem replaceByCapturesChar_spec_witness :
    replaceByCapturesChar asciiOps kOne fooBarCaptures = some 102 ∧
    replaceByCapturesChar asciiOps kZero fooBarCaptures = some kZero ∧
    replaceByCapturesChar asciiOps kX fooBarCaptures = some kX ∧
    replaceByCapturesChar asciiOps kOne [ofString "a", []] = some kOne ∧
    (
        ∃ c1, replaceByCapturesChar asciiOps kOne fooBarCaptures = some c1 ∧
          (∀ first rest, 0 < asciiOps.digitValue kOne →
            capturesAt fooBarCaptures (asciiOps.digitValue kOne) = some (first :: rest)
                → c1 = first) ∧
          (asciiOps.digitValue kOne ≤ 0 → c1 = kOne) ∧
          (capturesAt fooBarCaptures (asciiOps.digitValue kOne) = some [] → c1 = kOne)) :=
  ⟨by decide, by decide, by decide, by decide,
    replaceByCapturesChar_spec asciiOps kOne fooBarCaptures (fun _ => ⟨_, rfl⟩)⟩

/-- Witness of C18: a successful keyword match on the line `if ` keeps the captures of the
cursor. -/
theorem Rule_doMatchSucceed_captures_persist_witness :
    Rule.doMatchSucceed asciiOps (Rule.keyword ifElseRule) lineIf (lineIf.length : Int)
        captureStart = some (true, captureStart.setOffset 2) ∧
    (
        ((Rule.keyword ifElseRule).isRegExpr = false
            → (captureStart.setOffset 2).captures = captureStart.captures) ∧
        (true = false → (captureStart.setOffset 2).captures = captureStart.captures) ∧
        ((captureStart.setOffset 2).captures ≠ captureStart.captures →
          ∃ e, (Rule.keyword ifElseRule) = Rule.regExpr e ∧ true = true ∧
            (captureStart.setOffset 2).captures = (e.indexIn lineIf
                captureStart.offset).capturedTexts)) :=
  ⟨by decide,
    Rule_doMatchSucceed_captures_persist asciiOps (Rule.keyword ifElseRule) lineIf
      captureStart (captureStart.setOffset 2) true (by decide)⟩

/-- Witness of C19: the line-continuation rule on the line `abc` followed by a backslash,
at offset `3`, sets the flag. -/
theorem Rule_doMatchSucceed_willContinueLine_witness :
    Rule.doMatchSucceed asciiOps Rule.lineContinue lineAbcBackslash
        (lineAbcBackslash.length : Int) cursor3 = some (true, cursor4Continued) ∧
    (
        (Rule.lineContinue.isLineContinue = false
            → cursor4Continued.willContinueLine = cursor3.willContinueLine) ∧
        (true = false → cursor4Continued.willContinueLine = cursor3.willContinueLine) ∧
        (cursor4Continued.willContinueLine = false → cursor3.willContinueLine = false) ∧
        (cursor4Continued.willContinueLine ≠ cursor3.willContinueLine →
          Rule.lineContinue = Rule.lineContinue ∧ true = true
              ∧ cursor4Continued.willContinueLine = true)) :=
  ⟨by decide,
    Rule_doMatchSucceed_willContinueLine asciiOps Rule.lineContinue lineAbcBackslash
      cursor3 cursor4Continued true (by decide)⟩

/-- Witness of C20: the hex rule on the line `0` fails and the offset is `0` again. -/
theorem Rule_doMatchSucceed_offset_bound_witness :
    (Rule.doMatchSucceed asciiOps Rule.hlCHex lineZero 1 lineStart).map
      (fun r => (r.1, r.2.offset)) = some (false, 0) ∧
    (
        (∀ b p1, Rule.doMatchSucceed asciiOps Rule.hlCHex lineZero (lineZero.length : Int)
            lineStart = some (b, p1) →
          lineStart.offset ≤ p1.offset ∧ p1.offset ≤ (lineZero.length : Int)) ∧
        (Rule.hlCHex.WellFormed →
          ∃ b p1, Rule.doMatchSucceed asciiOps Rule.hlCHex lineZero (lineZero.length : Int)
              lineStart = some (b, p1))) :=
  ⟨by decide,
    Rule_doMatchSucceed_offset_bound asciiOps Rule.hlCHex lineZero lineStart trivial
      (by decide) (by decide)⟩

/-- C21. No rule aborts on the input text: for every configured rule variant (the cached
length of a literal-string rule being the length of its string), every line and every cursor
with an offset inside the line, the attempt returns success or failure; in the embedding a
read of the text outside `[0, length)`, by `QString::at` or by the raw substring, is the
only way not to return. -/
theorem Rule_doMatchSucceed_no_abort (q : QCharOps) (rule : Rule) (text : QString)
    (progress : ProgressData) (hw : rule.WellFormed) (h0 : 0 ≤ progress.offset)
    (h1 : progress.offset < (text.length : Int)) :
    Rule.doMatchSucceed q rule text (text.length : Int) progress ≠ none ∧
    ∃ b p1, Rule.doMatchSucceed q rule text (text.length : Int) progress = some (b, p1) := by
  obtain ⟨b, p1, h⟩ := Rule_returns q rule text progress hw h0 h1
  refine ⟨?_, b, p1, h⟩
  rw [h]
  exact fun h2 => by cases h2

/-- C22. Octal and hex rules exclude each other: for every line and cursor the C-style
octal rule and the C-style hex rule do not both succeed. On `0x1F` only the hex rule
succeeds and on `017` only the octal rule. -/
theorem HlCOct_HlCHex_exclusive (q : QCharOps) (text : QString) (progress : ProgressData) :
    (¬ ∃ p1 p2, HlCOctRule.doMatchSucceed q text (text.length : Int) progress = some (true, p1)
      ∧ HlCHexRule.doMatchSucceed q text (text.length : Int) progress = some (true, p2)) ∧
    (HlCOctRule.doMatchSucceed asciiOps line0x1F 4 lineStart).map Prod.fst = some false ∧
    (HlCHexRule.doMatchSucceed asciiOps line0x1F 4 lineStart).map Prod.fst = some true ∧
    (HlCOctRule.doMatchSucceed asciiOps line017 3 lineStart).map Prod.fst = some true ∧
    (HlCHexRule.doMatchSucceed asciiOps line017 3 lineStart).map Prod.fst = some false := by
  refine ⟨?_, by decide, by decide, by decide, by decide⟩
  rintro ⟨p1, p2, ho, hh⟩
  by_cases hin : 0 ≤ progress.offset ∧ progress.offset < (text.length : Int)
  · rw [HlCOctRule_eq q text progress hin.1 hin.2] at ho
    rw [HlCHexRule_eq q text progress hin.1 hin.2] at hh
    by_cases hc : codeUnit text progress.offset = kZero
    · rw [if_pos hc] at ho hh
      by_cases hx : progress.offset + 1 < (text.length : Int)
          ∧ (codeUnit text (progress.offset + 1) = kX
            ∨ q.toLower (codeUnit text (progress.offset + 1)) = kX)
      · rw [if_pos hx] at ho
        simp at ho
      · by_cases hlt : progress.offset + 1 < (text.length : Int)
        · have hx2 : progress.offset + 1 < (text.length : Int)
              ∧ codeUnit text (progress.offset + 1) ≠ kX
              ∧ q.toLower (codeUnit text (progress.offset + 1)) ≠ kX :=
            ⟨hlt, fun h => hx ⟨hlt, Or.inl h⟩, fun h => hx ⟨hlt, Or.inr h⟩⟩
          rw [if_pos hx2] at hh
          simp at hh
        · rw [if_neg (fun h => hlt h.1)] at hh
          have hr := runEnd_of_length_le isHexDigit text (progress.offset + 2) (by omega)
          rw [if_neg (by rw [hr]; simp)] at hh
          simp at hh
    · rw [if_neg hc] at ho
      simp at ho
  · unfold HlCOctRule.doMatchSucceed at ho
    rw [matchCharacter_abort text _ progress kZero true hin] at ho
    cases ho

/-- C24. C-style char-literal rule (`HlCCharRule::doMatchSucceed`) with an ordinary
character: at an offset inside the line that holds a single quote the rule returns; when
the next code unit exists and is neither a backslash nor a single quote, the rule succeeds
exactly when the code unit after it exists and is a single quote, and then the offset
advances by `3`; an empty literal (the next code unit is a single quote) and a literal cut
by the end of the line fail; on failure the offset is the entry offset. -/
theorem HlCCharRule_ordinary_spec (text : QString) (progress : ProgressData)
    (h0 : 0 ≤ progress.offset)
    (hq : charAt text progress.offset = some kSingleQuote) :
    ∃ b p1, HlCCharRule.doMatchSucceed text (text.length : Int) progress = some (b, p1) ∧
      (∀ c, charAt text (progress.offset + 1) = some c → c ≠ kBackSlash →
        c ≠ kSingleQuote →
        (b = true ↔ charAt text (progress.offset + 2) = some kSingleQuote) ∧
        (b = true → p1.offset = progress.offset + 3)) ∧
      (charAt text (progress.offset + 1) = some kSingleQuote → b = false) ∧
      (charAt text (progress.offset + 1) = none → b = false) ∧
      (b = false → p1.offset = progress.offset) := by
  have h1 := (charAt_some_bounds text _ _ hq).2
  have hc0 := (charAt_eq_some_iff text _ _ h0 h1).1 hq
  rw [HlCCharRule_eq text progress h0 h1, if_pos hc0]
  by_cases hlt : progress.offset + 1 < (text.length : Int)
  · rw [if_pos hlt]
    simp only [charAt_eq_some_iff text (progress.offset + 1) _ (by omega) hlt,
      charAt_eq_some_iff2 text (progress.offset + 2) _ (by omega)]
    have hnone : charAt text (progress.offset + 1) ≠ none := by
      rw [charAt_eq_some_codeUnit text _ (by omega) hlt]
      simp
    by_cases hord : codeUnit text (progress.offset + 1) ≠ kBackSlash
        ∧ codeUnit text (progress.offset + 1) ≠ kSingleQuote
    · rw [if_pos hord]
      by_cases hend : progress.offset + 2 < (text.length : Int)
          ∧ codeUnit text (progress.offset + 2) = kSingleQuote
      · refine ⟨true, progress.saveOffset.setOffset (progress.offset + 3), by rw [if_pos hend],
          ?_, ?_, fun h => absurd h hnone, fun h => (by cases h)⟩
        · intro c _ _ _
          exact ⟨by simp [hend], fun _ => rfl⟩
        · intro h
          exact absurd h hord.2
      · refine ⟨false, progress.saveOffset, by rw [if_neg hend], ?_, fun _ => rfl,
          fun _ => rfl, fun _ => rfl⟩
        intro c _ _ _
        refine ⟨?_, fun h => (by cases h)⟩
        constructor
        · intro h; cases h
        · intro h; exact absurd h hend
    · rw [if_neg hord]
      by_cases hesc : codeUnit text (progress.offset + 1) = kBackSlash
          ∧ progress.offset + 2 < (text.length : Int)
          ∧ isEscapeChar (codeUnit text (progress.offset + 2)) = true
      · rw [if_pos hesc]
        have hq2 : ¬ codeUnit text (progress.offset + 1) = kSingleQuote := by
          rw [hesc.1]; decide
        by_cases hend : progress.offset + 3 < (text.length : Int)
            ∧ codeUnit text (progress.offset + 3) = kSingleQuote
        · refine ⟨true, progress.saveOffset.setOffset (progress.offset + 4),
            by rw [if_pos hend], ?_, fun h => absurd h hq2, fun h => absurd h hnone,
            fun h => (by cases h)⟩
          intro c hc hb _
          rw [← hc] at hb
          exact absurd hesc.1 hb
        · refine ⟨false, progress.saveOffset, by rw [if_neg hend], ?_, fun _ => rfl,
            fun _ => rfl, fun _ => rfl⟩
          intro c hc hb _
          rw [← hc] at hb
          exact absurd hesc.1 hb
      · rw [if_neg hesc]
        refine ⟨false, progress.saveOffset, rfl, ?_, fun _ => rfl, fun _ => rfl,
          fun _ => rfl⟩
        intro c hc hb hs
        rw [← hc] at hb hs
        exact absurd ⟨hb, hs⟩ hord
  · rw [if_neg hlt]
    refine ⟨false, progress.saveOffset, rfl, ?_, fun _ => rfl, fun _ => rfl, fun _ => rfl⟩
    intro c hc _ _
    have := (charAt_some_bounds text _ _ hc).2
    exact absurd this hlt

/-- C26, amended. Identifier-run rule (`DetectIdentifierRule::doMatchSucceed`): at an offset
inside the line the rule returns; it succeeds exactly when the code unit at the offset is a
letter or an underscore; on success only the offset changes and becomes the end of the
maximal run, after the first code unit, of code units that are letters or numbers
(`QChar::isLetterOrNumber`, which also holds for numbers that are not decimal digits),
combining marks or underscores, so the code unit at the new offset, if any, is none of
these; on failure the cursor is unchanged. -/
theorem DetectIdentifierRule_doMatchSucceed_spec (q : QCharOps) (text : QString)
    (progress : ProgressData) (h0 : 0 ≤ progress.offset)
    (h1 : progress.offset < (text.length : Int)) :
    ∃ b p1, DetectIdentifierRule.doMatchSucceed q text (text.length : Int) progress
        = some (b, p1) ∧
      (b = true ↔ ∃ c, charAt text progress.offset = some c
        ∧ (q.isLetter c = true ∨ c = kUnderscore)) ∧
      (b = true →
        p1 = progress.setOffset
          (runEnd (DetectIdentifierRule.continues q) text (progress.offset + 1)) ∧
        MaximalRun (DetectIdentifierRule.continues q) text (progress.offset + 1) p1.offset ∧
        ∀ c, charAt text p1.offset = some c →
          q.isLetterOrNumber c = false ∧ q.isMark c = false ∧ c ≠ kUnderscore) ∧
      (b = false → p1 = progress) := by
  rw [DetectIdentifierRule_eq q text progress h0 h1]
  have hmax := maximalRun_runEnd (DetectIdentifierRule.continues q) text _
    (progress.offset + 1) (by omega) (by omega) rfl
  simp only [charAt_eq_some_iff text _ _ h0 h1]
  by_cases hc : q.isLetter (codeUnit text progress.offset) = true
      ∨ codeUnit text progress.offset = kUnderscore
  · refine ⟨true, progress.setOffset
      (runEnd (DetectIdentifierRule.continues q) text (progress.offset + 1)), ?_, ?_, ?_,
      fun h => (by cases h)⟩
    · rw [if_pos hc]
      rfl
    · simp only [true_iff]
      exact ⟨_, rfl, hc⟩
    · intro _
      refine ⟨rfl, hmax, ?_⟩
      intro c hcu
      have h2 := hmax.2.2.2 c hcu
      simp only [DetectIdentifierRule.continues, Bool.or_eq_false_iff] at h2
      exact ⟨h2.1.1, h2.1.2, by simpa using h2.2⟩
  · refine ⟨false, progress, by rw [if_neg hc], ?_, fun h => (by cases h), fun _ => rfl⟩
    constructor
    · intro h; cases h
    · rintro ⟨c, hc1, hc2⟩
      rw [hc1] at hc
      exact absurd hc2 hc

/-- C27. Whitespace-run rule (`DetectSpacesRule::doMatchSucceed`): at an offset inside the
line the rule returns; it succeeds exactly when the code unit at the offset is whitespace;
only the offset changes and becomes the end of the maximal run of whitespace code units
that starts at the offset, which is the length of the line or the index of a code unit that
is not whitespace; on failure the offset is the entry offset. -/
theorem DetectSpacesRule_doMatchSucceed_spec (q : QCharOps) (text : QString)
    (progress : ProgressData) (h0 : 0 ≤ progress.offset)
    (h1 : progress.offset < (text.length : Int)) :
    ∃ b p1, DetectSpacesRule.doMatchSucceed q text (text.length : Int) progress
        = some (b, p1) ∧
      (b = true ↔ ∃ c, charAt text progress.offset = some c ∧ q.isSpace c = true) ∧
      p1 = progress.setOffset (runEnd q.isSpace text progress.offset) ∧
      MaximalRun q.isSpace text progress.offset p1.offset ∧
      (p1.offset = (text.length : Int) ∨
        ∃ c, charAt text p1.offset = some c ∧ q.isSpace c = false) ∧
      (b = false → p1.offset = progress.offset) := by
  unfold DetectSpacesRule.doMatchSucceed
  rw [charPredicateMatchSucceed_eq _ _ _ h0]
  have hmax := maximalRun_runEnd q.isSpace text _ progress.offset h0 (le_of_lt h1) rfl
  have hne := runEnd_ne_iff q.isSpace text progress.offset h0
  refine ⟨_, _, rfl, ?_, rfl, hmax, ?_, ?_⟩
  · rw [decide_eq_true_iff, hne]
    constructor
    · intro h
      exact ⟨_, charAt_eq_some_codeUnit text _ h0 h1, h.2⟩
    · rintro ⟨c, hc1, hc2⟩
      rw [(charAt_eq_some_iff text _ _ h0 h1).1 hc1]
      exact ⟨h1, hc2⟩
  · by_cases hlt : runEnd q.isSpace text progress.offset < (text.length : Int)
    · right
      have hge := le_runEnd q.isSpace text progress.offset
      have hat := charAt_eq_some_codeUnit text _ (by omega) hlt
      exact ⟨_, hat, hmax.2.2.2 _ hat⟩
    · left
      have := hmax.2.1
      show runEnd q.isSpace text progress.offset = (text.length : Int)
      omega
  · intro hb
    have h2 : ¬ progress.offset ≠ runEnd q.isSpace text progress.offset := by
      simpa using hb
    show runEnd q.isSpace text progress.offset = progress.offset
    omega

/-- C28. Character-set rule (`AnyCharRule::doMatchSucceed`) configured with the set `S`: at
an offset inside the line the rule returns; it succeeds exactly when the code unit at the
offset is a member of `S`; on success only the offset changes and advances by `1`; on
failure the cursor is unchanged; with an empty `S` the rule fails. -/
theorem AnyCharRule_doMatchSucceed_spec (S : QString) (text : QString)
    (progress : ProgressData) (h0 : 0 ≤ progress.offset)
    (h1 : progress.offset < (text.length : Int)) :
    (∃ b p1, AnyCharRule.doMatchSucceed S text (text.length : Int) progress = some (b, p1) ∧
      (b = true ↔ ∃ c, charAt text progress.offset = some c ∧ c ∈ S) ∧
      (b = true → p1 = progress.setOffset (progress.offset + 1)) ∧
      (b = false → p1 = progress)) ∧
    AnyCharRule.doMatchSucceed [] text (text.length : Int) progress = some (false, progress) := by
  constructor
  · rw [AnyCharRule_eq S text progress h0 h1]
    simp only [charAt_eq_some_iff text _ _ h0 h1]
    by_cases hc : codeUnit text progress.offset ∈ S
    · exact ⟨true, progress.incrementOffset, by rw [if_pos hc], by simp [hc], fun _ => rfl,
        fun h => (by cases h)⟩
    · exact ⟨false, progress, by rw [if_neg hc], by simp [hc], fun h => (by cases h),
        fun _ => rfl⟩
  · rw [AnyCharRule_eq [] text progress h0 h1]
    simp

/-- C30. Float exponent rollback discards a valid mantissa: when, in the parse of the line
from the offset on, the fractional digit run is followed by an exponent marker `e` or `E`
and, after the optional sign, by no digit, the float rule fails and the offset is the entry
offset, whatever the mantissa is; the captures and the continuation flag are kept. -/
theorem FloatRule_exponent_rollback (q : QCharOps) (text : QString)
    (progress : ProgressData) (f : FloatParse) (hE : LowerCaseOf q kE kUpperE)
    (h0 : 0 ≤ progress.offset)
    (hf : f = floatParse q isExponentMarker text progress.offset)
    (hm : f.marker = true) (hd : f.digitsStart = f.digitsEnd) :
    ∃ p1, FloatRule.doMatchSucceed q text (text.length : Int) progress = some (false, p1) ∧
      p1.offset = progress.offset ∧ p1.captures = progress.captures ∧
      p1.willContinueLine = progress.willContinueLine := by
  subst hf
  rw [FloatRule_eq q text progress h0, codeMarker_eq q hE, if_pos hm, if_neg (by simp [hd])]
  exact ⟨progress.saveOffset, rfl, rfl, rfl, rfl⟩

theorem matchCharacter_savedOffset (text : QString) (length : Int) (p : ProgressData)
    (c : QChar) (x : Int) :
    matchCharacter text length { p with savedOffset := x } c true
        = matchCharacter text length p c true ∨
      (matchCharacter text length { p with savedOffset := x } c true
          = some (false, { p with savedOffset := x }) ∧
        matchCharacter text length p c true = some (false, p)) := by
  unfold matchCharacter
  cases charAt text p.offset with
  | none => exact Or.inl rfl
  | some ch =>
    by_cases h : ch = c
    · left
      simp [h]
    · right
      simp [h]

theorem matchEscapeSequence_savedOffset (text : QString) (length : Int) (p : ProgressData)
    (x : Int) :
    matchEscapeSequence text length { p with savedOffset := x } true
        = matchEscapeSequence text length p true ∨
      (matchEscapeSequence text length { p with savedOffset := x } true
          = some (false, { p with savedOffset := x }) ∧
        matchEscapeSequence text length p true = some (false, p)) := by
  unfold matchEscapeSequence
  rcases matchCharacter_savedOffset text length p kBackSlash x with e | ⟨e1, e2⟩
  · rw [e]
    exact Or.inl rfl
  · rw [e1, e2]
    exact Or.inr ⟨rfl, rfl⟩

theorem matchOctalSequence_savedOffset (text : QString) (length : Int) (p : ProgressData)
    (x : Int) :
    matchOctalSequence text length { p with savedOffset := x } true
        = matchOctalSequence text length p true ∨
      (matchOctalSequence text length { p with savedOffset := x } true
          = some (false, { p with savedOffset := x }) ∧
        matchOctalSequence text length p true = some (false, p)) := by
  unfold matchOctalSequence
  rcases matchCharacter_savedOffset text length p kBackSlash x with e | ⟨e1, e2⟩
  · rw [e]
    exact Or.inl rfl
  · rw [e1, e2]
    exact Or.inr ⟨rfl, rfl⟩

theorem matchHexSequence_savedOffset (text : QString) (length : Int) (p : ProgressData)
    (x : Int) :
    matchHexSequence text length { p with savedOffset := x } true
        = matchHexSequence text length p true ∨
      (matchHexSequence text length { p with savedOffset := x } true
          = some (false, { p with savedOffset := x }) ∧
        matchHexSequence text length p true = some (false, p)) := by
  unfold matchHexSequence
  rcases matchCharacter_savedOffset text length p kBackSlash x with e | ⟨e1, e2⟩
  · rw [e]
    exact Or.inl rfl
  · rw [e1, e2]
    exact Or.inr ⟨rfl, rfl⟩

theorem matchEscapeSequence_failed (text : QString) (progress r : ProgressData)
    (h0 : 0 ≤ progress.offset) (h1 : progress.offset < (text.length : Int))
    (h : matchEscapeSequence text (text.length : Int) progress true = some (false, r)) :
    r = progress ∨ r = progress.saveOffset := by
  rw [matchEscapeSequence_true_eq text progress h0 h1] at h
  split_ifs at h <;> simp only [Option.some.injEq, Prod.mk.injEq] at h
  · cases h.1
  · exact Or.inr h.2.symm
  · exact Or.inl h.2.symm

theorem matchOctalSequence_failed (text : QString) (progress r : ProgressData)
    (h0 : 0 ≤ progress.offset) (h1 : progress.offset < (text.length : Int))
    (h : matchOctalSequence text (text.length : Int) progress true = some (false, r)) :
    r = progress ∨ r = progress.saveOffset := by
  unfold matchOctalSequence at h
  rw [matchCharacter_eq text _ progress kBackSlash true h0 h1] at h
  by_cases hc : codeUnit text progress.offset = kBackSlash
  · simp only [hc, if_true] at h
    obtain ⟨j, e, a1, a2⟩ := octalLoop_summary text 3 progress.saveOffset.incrementOffset
      (by simp; omega)
    rw [e] at h
    by_cases hj : progress.offset + 1 = j
    · simp [hj] at h
      right
      rw [← h]
      rfl
    · simp [hj] at h
  · simp only [hc, if_false] at h
    simp only [Option.some.injEq, Prod.mk.injEq, true_and] at h
    exact Or.inl h.symm

theorem matchHexSequence_failed (text : QString) (progress r : ProgressData)
    (h0 : 0 ≤ progress.offset) (h1 : progress.offset < (text.length : Int))
    (h : matchHexSequence text (text.length : Int) progress true = some (false, r)) :
    r = progress ∨ r = progress.saveOffset := by
  unfold matchHexSequence at h
  rw [matchCharacter_eq text _ progress kBackSlash true h0 h1] at h
  by_cases hc : codeUnit text progress.offset = kBackSlash
  · simp only [hc, if_true] at h
    by_cases hlt : progress.offset + 1 < (text.length : Int)
    · have hlt2 : progress.saveOffset.incrementOffset.offset < (text.length : Int) := by
        simpa using hlt
      rw [if_pos hlt2, matchCharacter_eq text _ _ kX false (by simp; omega) hlt2] at h
      by_cases hx : codeUnit text progress.saveOffset.incrementOffset.offset = kX
      · simp only [hx, if_true] at h
        rw [predicateLoop_eq _ text _ _ (by simp; omega) (le_refl _)] at h
        by_cases hj : progress.offset + 1 + 1 = runEnd isHexDigit text (progress.offset + 1 + 1)
        · simp [← hj] at h
          right
          rw [← h]
          rfl
        · simp [hj] at h
      · simp only [hx, if_false] at h
        simp at h
        right
        rw [← h]
        rfl
    · have hlt2 : ¬ progress.saveOffset.incrementOffset.offset < (text.length : Int) := by
        simpa using hlt
      rw [if_neg hlt2] at h
      simp at h
      right
      rw [← h]
      rfl
  · simp only [hc, if_false] at h
    simp only [Option.some.injEq, Prod.mk.injEq, true_and] at h
    exact Or.inl h.symm

theorem subMatcher_step (M : ProgressData → Option (Bool × ProgressData))
    (p cur : ProgressData)
    (hind : ∀ x, M { p with savedOffset := x } = M p ∨
      (M { p with savedOffset := x } = some (false, { p with savedOffset := x })
        ∧ M p = some (false, p)))
    (hfail : ∀ r, M p = some (false, r) → r = p ∨ r = p.saveOffset)
    (hcur : cur = p ∨ cur = p.saveOffset) :
    (∀ r, M p = some (true, r) → M cur = some (true, r)) ∧
    (∀ r, M p = some (false, r) →
      ∃ r2, M cur = some (false, r2) ∧ (r2 = p ∨ r2 = p.saveOffset)) := by
  have hform : ∃ x, cur = { p with savedOffset := x } := by
    rcases hcur with e | e
    · exact ⟨p.savedOffset, e⟩
    · exact ⟨p.offset, e⟩
  obtain ⟨x, hx⟩ := hform
  constructor
  · intro r hr
    rcases hind x with e | ⟨_, e2⟩
    · rw [hx, e, hr]
    · rw [hr] at e2
      simp at e2
  · intro r hr
    rcases hind x with e | ⟨e1, _⟩
    · exact ⟨r, by rw [hx, e, hr], hfail r hr⟩
    · exact ⟨cur, by rw [hx, e1], hcur⟩

/-- C25. C-style string-escape body rule (`HlCStringCharRule::doMatchSucceed`) at an offset
inside the line. The rule and its three sub-matchers (backslash escape, octal escape, hex
escape), each run from the entry cursor, return; a sub-matcher that fails leaves the offset,
the captures and the continuation flag unchanged; the rule succeeds exactly when at least
one sub-matcher succeeds from the entry cursor, and its resulting cursor is the result of
the first one that succeeds in the order backslash escape, octal escape, hex escape; when
all three fail the rule fails with the cursor unchanged (only the saved offset may have
been set, to the entry offset). -/
theorem HlCStringCharRule_first_success (text : QString) (progress : ProgressData)
    (h0 : 0 ≤ progress.offset) (h1 : progress.offset < (text.length : Int)) :
    ∃ b p1 be pe bo po bh ph,
      HlCStringCharRule.doMatchSucceed text (text.length : Int) progress = some (b, p1) ∧
      matchEscapeSequence text (text.length : Int) progress true = some (be, pe) ∧
      matchOctalSequence text (text.length : Int) progress true = some (bo, po) ∧
      matchHexSequence text (text.length : Int) progress true = some (bh, ph) ∧
      (be = false → pe.offset = progress.offset ∧ Frame progress pe) ∧
      (bo = false → po.offset = progress.offset ∧ Frame progress po) ∧
      (bh = false → ph.offset = progress.offset ∧ Frame progress ph) ∧
      (b = true ↔ be = true ∨ bo = true ∨ bh = true) ∧
      (be = true → p1 = pe) ∧
      (be = false → bo = true → p1 = po) ∧
      (be = false → bo = false → bh = true → p1 = ph) ∧
      (be = false → bo = false → bh = false →
        p1.offset = progress.offset ∧ Frame progress p1 ∧
        (p1 = progress ∨ p1 = progress.saveOffset)) := by
  obtain ⟨be, pe, hE, ec, ew, ef, _⟩ := matchEscapeSequence_clean text progress h0 h1
  obtain ⟨bo, po, hO, oc, ow, of, _⟩ := matchOctalSequence_clean text progress h0 h1
  obtain ⟨bh, ph, hH, hc, hw, hf, _⟩ := matchHexSequence_clean text progress h0 h1
  have hfe : be = false → pe.offset = progress.offset ∧ Frame progress pe :=
    fun h => ⟨ef h, ec, ew⟩
  have hfo : bo = false → po.offset = progress.offset ∧ Frame progress po :=
    fun h => ⟨of h, oc, ow⟩
  have hfh : bh = false → ph.offset = progress.offset ∧ Frame progress ph :=
    fun h => ⟨hf h, hc, hw⟩
  cases be with
  | true =>
    refine ⟨true, pe, true, pe, bo, po, bh, ph, ?_, hE, hO, hH, hfe, hfo, hfh, by simp,
      fun _ => rfl, fun h => (by cases h), fun h => (by cases h), fun h => (by cases h)⟩
    unfold HlCStringCharRule.doMatchSucceed
    rw [hE]
  | false =>
    have hpe := matchEscapeSequence_failed text progress pe h0 h1 hE
    have hrule1 : HlCStringCharRule.doMatchSucceed text (text.length : Int) progress
        = match matchOctalSequence text (text.length : Int) pe true with
          | none => none
          | some (true, p2) => some (true, p2)
          | some (false, p2) =>
            match matchHexSequence text (text.length : Int) p2 true with
            | none => none
            | some (true, p3) => some (true, p3)
            | some (false, p3) => some (false, p3) := by
      unfold HlCStringCharRule.doMatchSucceed
      rw [hE]
    have hso := subMatcher_step
      (fun p => matchOctalSequence text (text.length : Int) p true) progress pe
      (matchOctalSequence_savedOffset text (text.length : Int) progress)
      (fun r h => matchOctalSequence_failed text progress r h0 h1 h) hpe
    cases bo with
    | true =>
      refine ⟨true, po, false, pe, true, po, bh, ph, ?_, hE, hO, hH, hfe, hfo, hfh, by simp,
        fun h => (by cases h), fun _ _ => rfl, fun _ h => (by cases h),
        fun _ h => (by cases h)⟩
      rw [hrule1, show matchOctalSequence text (text.length : Int) pe true = some (true, po)
        from hso.1 po hO]
    | false =>
      obtain ⟨p2, hp2, hp2s⟩ := hso.2 po hO
      have hp2' : matchOctalSequence text (text.length : Int) pe true = some (false, p2) := hp2
      have hsh := subMatcher_step
        (fun p => matchHexSequence text (text.length : Int) p true) progress p2
        (matchHexSequence_savedOffset text (text.length : Int) progress)
        (fun r h => matchHexSequence_failed text progress r h0 h1 h) hp2s
      cases bh with
      | true =>
        refine ⟨true, ph, false, pe, false, po, true, ph, ?_, hE, hO, hH, hfe, hfo, hfh,
          by simp, fun h => (by cases h), fun _ h => (by cases h), fun _ _ _ => rfl,
          fun _ _ h => (by cases h)⟩
        rw [hrule1, hp2']
        dsimp only
        rw [show matchHexSequence text (text.length : Int) p2 true
          = some (true, ph) from hsh.1 ph hH]
      | false =>
        obtain ⟨p3, hp3, hp3s⟩ := hsh.2 ph hH
        have hp3' : matchHexSequence text (text.length : Int) p2 true = some (false, p3) := hp3
        refine ⟨false, p3, false, pe, false, po, false, ph, ?_, hE, hO, hH, hfe, hfo, hfh,
          by simp, fun h => (by cases h), fun _ h => (by cases h), fun _ _ h => (by cases h),
          fun _ _ _ => ?_⟩
        · rw [hrule1, hp2']
          dsimp only
          rw [hp3']
        · rcases hp3s with e | e
          · rw [e]
            exact ⟨rfl, ⟨rfl, rfl⟩, Or.inl rfl⟩
          · rw [e]
            exact ⟨rfl, ⟨rfl, rfl⟩, Or.inr rfl⟩

/-- C23, the failing input: in the lines `'\\101'` and `'\\x41'` the string-escape body rule
accepts the escape from offset `1` up to offset `5`, where the closing single quote is, and
the char-literal rule at offset `0` fails with the offset `0`; with the backslash escape
`'\\n'` it succeeds. -/
theorem HlCCharRule_rejects_octal_and_hex_escapes :
    charAt lineOctalChar 0 = some kSingleQuote ∧
    (HlCStringCharRule.doMatchSucceed lineOctalChar 6 (cursorAt 1)).map
      (fun r => (r.1, r.2.offset)) = some (true, 5) ∧
    charAt lineOctalChar 5 = some kSingleQuote ∧
    (HlCCharRule.doMatchSucceed lineOctalChar 6 (cursorAt 0)).map
      (fun r => (r.1, r.2.offset)) = some (false, 0) ∧
    charAt lineHexChar 0 = some kSingleQuote ∧
    (HlCStringCharRule.doMatchSucceed lineHexChar 6 (cursorAt 1)).map
      (fun r => (r.1, r.2.offset)) = some (true, 5) ∧
    charAt lineHexChar 5 = some kSingleQuote ∧
    (HlCCharRule.doMatchSucceed lineHexChar 6 (cursorAt 0)).map
      (fun r => (r.1, r.2.offset)) = some (false, 0) ∧
    (HlCCharRule.doMatchSucceed lineNewlineChar 4 (cursorAt 0)).map
      (fun r => (r.1, r.2.offset)) = some (true, 4) := by
  decide

/-- C29, the failing input: with the captures `a` and `b` the parameter `%1%2` becomes
`a%2`, and the substitution applied to `a%2` gives `ab`, not `a%2` again. -/
theorem replaceByCaptures_not_idempotent :
    replaceByCaptures asciiOps 2 (ofString "%1%2") [ofString "ab", ofString "a", ofString "b"]
      = Except.ok (ofString "a%2") ∧
    replaceByCaptures asciiOps 2 (ofString "a%2") [ofString "ab", ofString "a", ofString "b"]
      = Except.ok (ofString "ab") ∧
    ofString "ab" ≠ ofString "a%2" :=
  ⟨rfl, rfl, by decide⟩

/-- Witness of C21: the hex rule on the line `0`, where the offset passes the end of the
line before it is restored, returns failure. -/
theorem Rule_doMatchSucceed_no_abort_witness :
    Rule.doMatchSucceed asciiOps Rule.hlCHex lineZero 1 lineStart
      = some (false, lineStart.saveOffset) ∧
    (
    Rule.doMatchSucceed asciiOps Rule.hlCHex lineZero (lineZero.length : Int) lineStart
      ≠ none ∧
        ∃ b p1, Rule.doMatchSucceed asciiOps Rule.hlCHex lineZero (lineZero.length : Int)
            lineStart = some (b, p1)) :=
  ⟨by decide,
    Rule_doMatchSucceed_no_abort asciiOps Rule.hlCHex lineZero lineStart trivial
      (by decide) (by decide)⟩

/-- Witness of C24: `'a'` matches with length `3`; the empty literal `''`, the literal `'a`
cut by the end of the line and the two-character body `'ab'` fail with the offset `0`. -/
theorem HlCCharRule_ordinary_spec_witness :
    (HlCCharRule.doMatchSucceed (ofString "'a'") 3 (cursorAt 0)).map
      (fun r => (r.1, r.2.offset)) = some (true, 3) ∧
    (HlCCharRule.doMatchSucceed (ofString "''") 2 (cursorAt 0)).map
      (fun r => (r.1, r.2.offset)) = some (false, 0) ∧
    (HlCCharRule.doMatchSucceed (ofString "'a") 2 (cursorAt 0)).map
      (fun r => (r.1, r.2.offset)) = some (false, 0) ∧
    (HlCCharRule.doMatchSucceed (ofString "'ab'") 4 (cursorAt 0)).map
      (fun r => (r.1, r.2.offset)) = some (false, 0) ∧
    (
        ∃ b p1, HlCCharRule.doMatchSucceed lineCharA (lineCharA.length : Int) lineStart
            = some (b, p1) ∧
          (∀ c, charAt lineCharA (lineStart.offset + 1) = some c → c ≠ kBackSlash →
            c ≠ kSingleQuote →
            (b = true ↔ charAt lineCharA (lineStart.offset + 2) = some kSingleQuote) ∧
            (b = true → p1.offset = lineStart.offset + 3)) ∧
          (charAt lineCharA (lineStart.offset + 1) = some kSingleQuote → b = false) ∧
          (charAt lineCharA (lineStart.offset + 1) = none → b = false) ∧
          (b = false → p1.offset = lineStart.offset)) :=
  ⟨by decide, by decide, by decide, by decide,
    HlCCharRule_ordinary_spec lineCharA lineStart (by decide) (by decide)⟩

/-- Witness of C25: on the line `\\x41` at offset `0` the backslash escape and the octal
escape fail, setting only the saved offset, and the hex escape succeeds with the offset `4`,
which is the result of the rule; in `'\\101'` from offset `1` the octal escape gives the
result, the offset `5`. -/
theorem HlCStringCharRule_first_success_witness :
    matchEscapeSequence lineHexEscape 4 (cursorAt 0) true
      = some (false, (cursorAt 0).saveOffset) ∧
    matchOctalSequence lineHexEscape 4 (cursorAt 0) true
      = some (false, (cursorAt 0).saveOffset) ∧
    matchHexSequence lineHexEscape 4 (cursorAt 0) true
      = some (true, (cursorAt 0).saveOffset.setOffset 4) ∧
    HlCStringCharRule.doMatchSucceed lineHexEscape 4 (cursorAt 0)
      = some (true, (cursorAt 0).saveOffset.setOffset 4) ∧
    HlCStringCharRule.doMatchSucceed lineOctalChar 6 (cursorAt 1)
      = some (true, (cursorAt 1).saveOffset.setOffset 5) ∧
    (
        ∃ b p1 be pe bo po bh ph,
          HlCStringCharRule.doMatchSucceed lineHexEscape (lineHexEscape.length : Int) lineStart =
              some (b, p1) ∧
          matchEscapeSequence lineHexEscape (lineHexEscape.length : Int) lineStart true
              = some (be, pe) ∧
          matchOctalSequence lineHexEscape (lineHexEscape.length : Int) lineStart true
              = some (bo, po) ∧
          matchHexSequence lineHexEscape (lineHexEscape.length : Int) lineStart true
              = some (bh, ph) ∧
          (be = false → pe.offset = lineStart.offset ∧ Frame lineStart pe) ∧
          (bo = false → po.offset = lineStart.offset ∧ Frame lineStart po) ∧
          (bh = false → ph.offset = lineStart.offset ∧ Frame lineStart ph) ∧
          (b = true ↔ be = true ∨ bo = true ∨ bh = true) ∧
          (be = true → p1 = pe) ∧
          (be = false → bo = true → p1 = po) ∧
          (be = false → bo = false → bh = true → p1 = ph) ∧
          (be = false → bo = false → bh = false →
            p1.offset = lineStart.offset ∧ Frame lineStart p1 ∧
            (p1 = lineStart ∨ p1 = lineStart.saveOffset))) :=
  ⟨by decide, by decide, by decide, by decide, by decide,
    HlCStringCharRule_first_success lineHexEscape lineStart (by decide) (by decide)⟩

/-- Witness of C26: on the line `ab_1 c` the identifier `ab_1` matches with length `4`; at
offset `3`, a digit, the rule fails. -/
theorem DetectIdentifierRule_doMatchSucceed_spec_witness :
    DetectIdentifierRule.doMatchSucceed asciiOps lineIdent 6 (cursorAt 0)
      = some (true, cursorAt 4) ∧
    DetectIdentifierRule.doMatchSucceed asciiOps lineIdent 6 (cursorAt 3)
      = some (false, cursorAt 3) ∧
    (
        ∃ b p1, DetectIdentifierRule.doMatchSucceed asciiOps lineIdent (lineIdent.length : Int)
            lineStart
            = some (b, p1) ∧
          (b = true ↔ ∃ c, charAt lineIdent lineStart.offset = some c
            ∧ (asciiOps.isLetter c = true ∨ c = kUnderscore)) ∧
          (b = true →
            p1 = lineStart.setOffset
          (runEnd (DetectIdentifierRule.continues asciiOps) lineIdent
            (lineStart.offset + 1)) ∧
            MaximalRun (DetectIdentifierRule.continues asciiOps) lineIdent (lineStart.offset + 1)
                p1.offset ∧
            ∀ c, charAt lineIdent p1.offset = some c →
          asciiOps.isLetterOrNumber c = false ∧ asciiOps.isMark c = false ∧
            c ≠ kUnderscore) ∧
          (b = false → p1 = lineStart)) :=
  ⟨by decide, by decide,
    DetectIdentifierRule_doMatchSucceed_spec asciiOps lineIdent lineStart
      (by decide) (by decide)⟩

/-- Witness of C27: on the line of two spaces and `x` the run of spaces matches with length
`2`; at offset `2` the rule fails. -/
theorem DetectSpacesRule_doMatchSucceed_spec_witness :
    DetectSpacesRule.doMatchSucceed asciiOps lineSpaces 3 (cursorAt 0)
      = some (true, cursorAt 2) ∧
    DetectSpacesRule.doMatchSucceed asciiOps lineSpaces 3 (cursorAt 2)
      = some (false, cursorAt 2) ∧
    (
        ∃ b p1, DetectSpacesRule.doMatchSucceed asciiOps lineSpaces (lineSpaces.length : Int)
            lineStart
            = some (b, p1) ∧
          (b = true ↔ ∃ c, charAt lineSpaces lineStart.offset = some c
              ∧ asciiOps.isSpace c = true) ∧
          p1 = lineStart.setOffset (runEnd asciiOps.isSpace lineSpaces lineStart.offset) ∧
          MaximalRun asciiOps.isSpace lineSpaces lineStart.offset p1.offset ∧
          (p1.offset = (lineSpaces.length : Int) ∨
            ∃ c, charAt lineSpaces p1.offset = some c ∧ asciiOps.isSpace c = false) ∧
          (b = false → p1.offset = lineStart.offset)) :=
  ⟨by decide, by decide,
    DetectSpacesRule_doMatchSucceed_spec asciiOps lineSpaces lineStart
      (by decide) (by decide)⟩

/-- Witness of C28: with the set `ab` the line `ab` matches at offset `0` with length `1`,
and the line `xAB` does not. -/
theorem AnyCharRule_doMatchSucceed_spec_witness :
    AnyCharRule.doMatchSucceed lineAb lineAb 2 (cursorAt 0) = some (true, cursorAt 1) ∧
    AnyCharRule.doMatchSucceed lineAb lineXAB 3 (cursorAt 0) = some (false, cursorAt 0) ∧
    (
        (∃ b p1, AnyCharRule.doMatchSucceed lineAb lineXAB (lineXAB.length : Int) lineStart =
            some (b, p1) ∧
          (b = true ↔ ∃ c, charAt lineXAB lineStart.offset = some c ∧ c ∈ lineAb) ∧
          (b = true → p1 = lineStart.setOffset (lineStart.offset + 1)) ∧
          (b = false → p1 = lineStart)) ∧
        AnyCharRule.doMatchSucceed [] lineXAB (lineXAB.length : Int) lineStart
            = some (false, lineStart)) :=
  ⟨by decide, by decide,
    AnyCharRule_doMatchSucceed_spec lineAb lineXAB lineStart (by decide) (by decide)⟩

/-- Witness of C30: `3.5` alone matches with length `3`, while `3.5e`, `3.5e+` and `1.5em`
fail with the offset `0`. -/
theorem FloatRule_exponent_rollback_witness :
    (FloatRule.doMatchSucceed asciiOps (ofString "3.5") 3 (cursorAt 0)).map
      (fun r => (r.1, r.2.offset)) = some (true, 3) ∧
    (FloatRule.doMatchSucceed asciiOps (ofString "3.5e") 4 (cursorAt 0)).map
      (fun r => (r.1, r.2.offset)) = some (false, 0) ∧
    (FloatRule.doMatchSucceed asciiOps (ofString "3.5e+") 5 (cursorAt 0)).map
      (fun r => (r.1, r.2.offset)) = some (false, 0) ∧
    (FloatRule.doMatchSucceed asciiOps (ofString "1.5em") 5 (cursorAt 0)).map
      (fun r => (r.1, r.2.offset)) = some (false, 0) ∧
    parse35ePlus.integral = true ∧ parse35ePlus.decimalPoint = true ∧
    parse35ePlus.marker = true ∧ parse35ePlus.digitsStart = parse35ePlus.digitsEnd ∧
    (
        ∃ p1, FloatRule.doMatchSucceed asciiOps line35ePlus (line35ePlus.length : Int) lineStart
            = some (false, p1) ∧
          p1.offset = lineStart.offset ∧ p1.captures = lineStart.captures ∧
          p1.willContinueLine = lineStart.willContinueLine) :=
  ⟨by decide, by decide, by decide, by decide, by decide, by decide, by decide, by decide,
    FloatRule_exponent_rollback asciiOps line35ePlus lineStart parse35ePlus
      asciiOps_lowerCaseOf_e (by decide) rfl (by decide) (by decide)⟩

/-- C34. A `0` followed by `x` or `X` and then no hex digit: when the code unit at the offset
is `0`, the next one is `x` or `X` and the one after it is missing or not a hex digit, the
C-style octal rule and the C-style hex rule both return failure and leave the offset, the
captures and the continuation flag as they were (only the saved offset is set, to the entry
offset). -/
theorem HlCOct_HlCHex_reject_bare_marker (q : QCharOps) (text : QString)
    (progress : ProgressData) (hX : LowerCaseOf q kX kUpperX)
    (hz : charAt text progress.offset = some kZero)
    (hx : charAt text (progress.offset + 1) = some kX
      ∨ charAt text (progress.offset + 1) = some kUpperX)
    (hd : ∀ c, charAt text (progress.offset + 2) = some c → isHexDigit c = false) :
    HlCOctRule.doMatchSucceed q text (text.length : Int) progress
      = some (false, progress.saveOffset) ∧
    HlCHexRule.doMatchSucceed q text (text.length : Int) progress
      = some (false, progress.saveOffset) ∧
    progress.saveOffset.offset = progress.offset ∧
    progress.saveOffset.captures = progress.captures ∧
    progress.saveOffset.willContinueLine = progress.willContinueLine := by
  obtain ⟨h0, h1⟩ := charAt_some_bounds text _ _ hz
  have hcz : codeUnit text progress.offset = kZero :=
    (charAt_eq_some_iff text _ _ h0 h1).1 hz
  have hx1 : progress.offset + 1 < (text.length : Int)
      ∧ q.toLower (codeUnit text (progress.offset + 1)) = kX := by
    rcases hx with hx | hx
    · have hb := charAt_some_bounds text _ _ hx
      have hc := (charAt_eq_some_iff text _ _ hb.1 hb.2).1 hx
      exact ⟨hb.2, by rw [hc]; exact (hX kX).2 (Or.inl rfl)⟩
    · have hb := charAt_some_bounds text _ _ hx
      have hc := (charAt_eq_some_iff text _ _ hb.1 hb.2).1 hx
      exact ⟨hb.2, by rw [hc]; exact (hX kUpperX).2 (Or.inr rfl)⟩
  refine ⟨?_, ?_, rfl, rfl, rfl⟩
  · rw [HlCOctRule_eq q text progress h0 h1, if_pos hcz, if_pos ⟨hx1.1, Or.inr hx1.2⟩]
  · rw [HlCHexRule_eq q text progress h0 h1, if_pos hcz,
      if_neg (fun h => h.2.2 hx1.2)]
    have hrun : ¬ (progress.offset + 2 ≠ runEnd isHexDigit text (progress.offset + 2)) := by
      rw [runEnd_ne_iff isHexDigit text _ (by omega)]
      rintro ⟨hlt, hp⟩
      have hc := charAt_eq_some_codeUnit text (progress.offset + 2) (by omega) hlt
      rw [hd _ hc] at hp
      cases hp
    rw [if_neg hrun]

/-- C35. Integer and C-style octal rules are disjoint: for every line and cursor the two
rules do not both succeed. On the line `09` the octal rule at offset `0` succeeds with the
new offset `1`, and at offset `1` the integer, octal and hex rules all fail with the offset
`1`. -/
theorem IntRule_HlCOctRule_disjoint (q : QCharOps) (text : QString)
    (progress : ProgressData) :
    (¬ ∃ p1 p2, IntRule.doMatchSucceed q text (text.length : Int) progress = some (true, p1)
      ∧ HlCOctRule.doMatchSucceed q text (text.length : Int) progress = some (true, p2)) ∧
    (HlCOctRule.doMatchSucceed asciiOps line09 2 (cursorAt 0)).map
      (fun r => (r.1, r.2.offset)) = some (true, 1) ∧
    (IntRule.doMatchSucceed asciiOps line09 2 (cursorAt 1)).map
      (fun r => (r.1, r.2.offset)) = some (false, 1) ∧
    (HlCOctRule.doMatchSucceed asciiOps line09 2 (cursorAt 1)).map
      (fun r => (r.1, r.2.offset)) = some (false, 1) ∧
    (HlCHexRule.doMatchSucceed asciiOps line09 2 (cursorAt 1)).map
      (fun r => (r.1, r.2.offset)) = some (false, 1) := by
  refine ⟨?_, by decide, by decide, by decide, by decide⟩
  rintro ⟨p1, p2, hi, ho⟩
  by_cases hin : 0 ≤ progress.offset ∧ progress.offset < (text.length : Int)
  · rw [IntRule_eq q text progress hin.1 hin.2] at hi
    rw [HlCOctRule_eq q text progress hin.1 hin.2] at ho
    by_cases hc : codeUnit text progress.offset = kZero
    · by_cases hp : 0 < progress.offset
          ∧ q.isDigit (codeUnit text (progress.offset - 1)) = true
      · rw [if_pos hp] at hi
        simp at hi
      · rw [if_neg hp, if_neg (fun h => h.2 hc)] at hi
        simp at hi
    · rw [if_neg hc] at ho
      simp at ho
  · unfold HlCOctRule.doMatchSucceed at ho
    rw [matchCharacter_abort text _ progress kZero true hin] at ho
    cases ho

/-- Witness of C34: on the lines `0x` and `0Xg` both rules fail with the offset `0`. -/
theorem HlCOct_HlCHex_reject_bare_marker_witness :
    (HlCOctRule.doMatchSucceed asciiOps line0x 2 (cursorAt 0)).map
      (fun r => (r.1, r.2.offset)) = some (false, 0) ∧
    (HlCHexRule.doMatchSucceed asciiOps line0x 2 (cursorAt 0)).map
      (fun r => (r.1, r.2.offset)) = some (false, 0) ∧
    (HlCOctRule.doMatchSucceed asciiOps line0Xg (line0Xg.length : Int) lineStart
      = some (false, lineStart.saveOffset) ∧
    HlCHexRule.doMatchSucceed asciiOps line0Xg (line0Xg.length : Int) lineStart
      = some (false, lineStart.saveOffset) ∧
    lineStart.saveOffset.offset = lineStart.offset ∧
    lineStart.saveOffset.captures = lineStart.captures ∧
    lineStart.saveOffset.willContinueLine = lineStart.willContinueLine) :=
  ⟨by decide, by decide,
    HlCOct_HlCHex_reject_bare_marker asciiOps line0Xg lineStart asciiOps_lowerCaseOf_x
      (by decide) (Or.inr (by decide)) (by decide)⟩

theorem placeholdersValid_append_right (q : QCharOps) (size : Nat) (xs ys : QString)
    (h : placeholdersValid q size (xs ++ ys) = true) : placeholdersValid q size ys = true := by
  induction xs with
  | nil => simpa using h
  | cons x xs ih =>
    rw [List.cons_append] at h
    unfold placeholdersValid at h
    rw [Bool.and_eq_true] at h
    exact ih h.2

theorem placeholdersValid_drop (q : QCharOps) (size : Nat) (l : QString) (k : Nat)
    (h : placeholdersValid q size l = true) : placeholdersValid q size (l.drop k) = true := by
  apply placeholdersValid_append_right q size (l.take k)
  rw [List.take_append_drop]
  exact h

theorem placeholdersValid_append_left (q : QCharOps) (size : Nat) (xs ys : QString)
    (hx : kPercent ∉ xs) (h : placeholdersValid q size ys = true) :
    placeholdersValid q size (xs ++ ys) = true := by
  induction xs with
  | nil => simpa using h
  | cons x xs ih =>
    rw [List.cons_append]
    unfold placeholdersValid
    have hne : x ≠ kPercent := fun e => hx (by rw [e]; exact List.mem_cons_self _ _)
    rw [Bool.and_eq_true]
    refine ⟨?_, ih (fun hm => hx (List.mem_cons_of_mem _ hm))⟩
    simp [hne]

theorem placeholdersValid_head (q : QCharOps) (size : Nat) (rest : QString)
    (h : placeholdersValid q size (kPercent :: rest) = true) :
    ∃ number : Int, toInt (rest.takeWhile q.isDigit) = some number ∧ 0 ≤ number
      ∧ number < (size : Int) := by
  unfold placeholdersValid at h
  rw [Bool.and_eq_true] at h
  have h1 := h.1
  cases ht : toInt (rest.takeWhile q.isDigit) with
  | none => simp [ht] at h1
  | some number =>
    simp [ht] at h1
    refine ⟨number, rfl, ?_, h1⟩
    unfold toInt at ht
    split at ht
    · simp only [Option.some.injEq] at ht
      rw [← ht]
      exact Int.natCast_nonneg _
    · cases ht

theorem exists_first_occurrence (c : QChar) (l : QString) (h : c ∈ l) :
    ∃ pre rest, l = pre ++ c :: rest ∧ c ∉ pre := by
  induction l with
  | nil => cases h
  | cons x xs ih =>
    by_cases hx : x = c
    · exact ⟨[], xs, by rw [hx]; rfl, by simp⟩
    · have hm : c ∈ xs := by
        rcases List.mem_cons.1 h with e | e
        · exact absurd e.symm hx
        · exact e
      obtain ⟨pre, rest, he, hn⟩ := ih hm
      refine ⟨x :: pre, rest, by rw [he]; rfl, ?_⟩
      intro hc
      rcases List.mem_cons.1 hc with e | e
      · exact hx e.symm
      · exact hn e

theorem head_dropWhile_not (p : QChar → Bool) (l : QString) :
    ∀ c, (l.dropWhile p).head? = some c → p c = false := by
  induction l with
  | nil => intro c h; simp at h
  | cons x xs ih =>
    intro c h
    by_cases hp : p x = true
    · rw [List.dropWhile_cons_of_pos hp] at h
      exact ih c h
    · rw [List.dropWhile_cons_of_neg hp] at h
      simp only [List.head?_cons, Option.some.injEq] at h
      rw [← h]
      simpa using hp

theorem replaceLoop_step (q : QCharOps) (captures : List QString) (fuel : Nat)
    (a pre digits post capture : QString) (number : Int)
    (hpre : kPercent ∉ pre)
    (hdig : ∀ d ∈ digits, q.isDigit d = true)
    (hstop : ∀ c, post.head? = some c → q.isDigit c = false)
    (hnum : toInt digits = some number)
    (hat : capturesAt captures number = some capture) :
    replaceLoop q captures (fuel + 1) (a ++ pre ++ kPercent :: (digits ++ post))
        (a.length : Int)
      = replaceLoop q captures fuel (a ++ pre ++ capture ++ post)
          (((a ++ pre).length + 1 + digits.length : Nat) : Int) := by
  conv_lhs => unfold replaceLoop
  have hidx : indexOf (a ++ pre ++ kPercent :: (digits ++ post)) kPercent (a.length : Int)
      = ((a ++ pre).length : Int) := by
    unfold indexOf
    simp only [Int.toNat_ofNat]
    rw [List.append_assoc, List.drop_left, indexOfFrom_first kPercent pre _ _ hpre]
    simp
  simp only [hidx]
  rw [if_neg (by omega)]
  have hs : a ++ pre ++ kPercent :: (digits ++ post)
      = ((a ++ pre) ++ [kPercent]) ++ digits ++ post := by
    simp
  have hfrom : (((a ++ pre).length : Int) + 1) = (((a ++ pre) ++ [kPercent]).length : Int) := by
    simp only [List.length_append, List.length_singleton, Nat.cast_add, Nat.cast_one]
  have hd := digitsFrom_eq q post hstop digits ((a ++ pre) ++ [kPercent]) []
    (((a ++ pre ++ kPercent :: (digits ++ post)).length : Int)
      - (((a ++ pre).length : Int) + 1)).toNat
    (by simp; omega) hdig
  rw [← hs, ← hfrom] at hd
  rw [hd]
  simp only [List.nil_append, hnum, hat]
  rw [replaceAt_placeholder]
  congr 1
  simp only [List.length_append, List.length_singleton, Nat.cast_add, Nat.cast_one]

theorem replaceLoop_returns (q : QCharOps) (captures : List QString)
    (hc : ∀ c ∈ captures, kPercent ∉ c) (fuel : Nat) :
    ∀ (s : QString) (n : Nat),
      placeholdersValid q captures.length (s.drop n) = true →
      (s.drop n).count kPercent ≤ fuel →
      ∃ r, replaceLoop q captures fuel s (n : Int) = Except.ok r := by
  induction fuel with
  | zero =>
    intro s n _ hcount
    refine ⟨s, replaceLoop_done q captures 0 s _ ?_⟩
    unfold indexOf
    apply indexOfFrom_not_mem
    simp only [Int.toNat_ofNat]
    exact List.count_eq_zero.1 (Nat.le_zero.1 hcount)
  | succ fuel ih =>
    intro s n hv hcount
    by_cases hm : kPercent ∈ s.drop n
    · obtain ⟨pre, rest, he, hpre⟩ := exists_first_occurrence kPercent _ hm
      have hlen : n ≤ s.length := by
        by_contra hgt
        rw [List.drop_of_length_le (by omega)] at hm
        cases hm
      have hs : s = s.take n ++ pre ++ kPercent :: (rest.takeWhile q.isDigit
          ++ rest.dropWhile q.isDigit) := by
        rw [List.takeWhile_append_dropWhile, List.append_assoc, ← he, List.take_append_drop]
      have hn : ((s.take n).length : Int) = (n : Int) := by
        rw [List.length_take, Nat.min_eq_left hlen]
      rw [he] at hv hcount
      have hv1 := placeholdersValid_append_right q _ pre _ hv
      obtain ⟨number, hnum, hn0, hn1⟩ := placeholdersValid_head q _ rest hv1
      have hat : ∃ capture, capturesAt captures number = some capture
          ∧ capture ∈ captures := by
        unfold capturesAt
        rw [if_neg (by omega)]
        have hlt : number.toNat < captures.length := by omega
        exact ⟨captures[number.toNat], List.getElem?_eq_getElem hlt,
          List.getElem_mem hlt⟩
      obtain ⟨capture, hat, hmem⟩ := hat
      have hstep := replaceLoop_step q captures fuel (s.take n) pre
        (rest.takeWhile q.isDigit) (rest.dropWhile q.isDigit) capture number hpre
        (fun d hd => List.mem_takeWhile_imp hd) (head_dropWhile_not q.isDigit rest) hnum hat
      rw [← hs, hn] at hstep
      rw [hstep]
      have hrest : rest = rest.takeWhile q.isDigit ++ rest.dropWhile q.isDigit :=
        (List.takeWhile_append_dropWhile q.isDigit rest).symm
      have hvpost : placeholdersValid q captures.length (rest.dropWhile q.isDigit) = true := by
        apply placeholdersValid_append_right q _ (kPercent :: rest.takeWhile q.isDigit)
        rw [List.cons_append, ← hrest]
        exact hv1
      have hdrop : (s.take n ++ pre ++ capture ++ rest.dropWhile q.isDigit).drop
            ((s.take n ++ pre).length + 1 + (rest.takeWhile q.isDigit).length)
          = (capture ++ rest.dropWhile q.isDigit).drop
              (1 + (rest.takeWhile q.isDigit).length) := by
        rw [List.append_assoc (s.take n ++ pre), Nat.add_assoc, List.drop_append]
      apply ih
      · rw [hdrop]
        exact placeholdersValid_drop q _ _ _
          (placeholdersValid_append_left q _ capture _ (hc capture hmem) hvpost)
      · rw [hdrop]
        have h1 := (List.drop_sublist (1 + (rest.takeWhile q.isDigit).length)
          (capture ++ rest.dropWhile q.isDigit)).count_le kPercent
        have h2 : List.count kPercent capture = 0 := List.count_eq_zero.2 (hc capture hmem)
        rw [List.count_append, h2] at h1
        have h3 : List.count kPercent (pre ++ kPercent :: rest)
            = List.count kPercent pre + 1 + List.count kPercent (rest.takeWhile q.isDigit)
              + List.count kPercent (rest.dropWhile q.isDigit) := by
          nth_rewrite 1 [hrest]
          rw [List.count_append, List.count_cons_self, List.count_append]
          omega
        omega
    · refine ⟨s, replaceLoop_done q captures _ s _ ?_⟩
      unfold indexOf
      apply indexOfFrom_not_mem
      simpa using hm

/-- C33. Safety of the string-valued capture substitution: when every `%` of the parameter
string is followed by digits that `toInt` reads as a number smaller than the size of the
capture list, and no capture contains a `%`, `replaceByCaptures` returns: its loop ends
within as many iterations as the string has `%` signs, the assertion on the parsed number
holds and every `captures.at(number)` is inside the list. -/
theorem replaceByCaptures_safe (q : QCharOps) (s : QString) (captures : List QString)
    (hs : placeholdersValid q captures.length s = true)
    (hc : ∀ c ∈ captures, kPercent ∉ c) :
    ∀ fuel, s.count kPercent ≤ fuel →
      ∃ r, replaceByCaptures q fuel s captures = Except.ok r := by
  intro fuel hf
  unfold replaceByCaptures
  exact replaceLoop_returns q captures hc fuel s 0 (by simpa using hs) (by simpa using hf)

theorem StringDetectRule_call_length (q : QCharOps) (fuel : Nat) (r r1 : StringDetectRule)
    (c : StringDetectRule.Call) (h : StringDetectRule.call q fuel r c = Except.ok r1) :
    r1.m_length = (r1.m_string.length : Int) := by
  cases c with
  | setString s =>
    simp only [StringDetectRule.call, StringDetectRule.setString, Except.ok.injEq] at h
    rw [← h]
  | doReplaceExpressions captures =>
    simp only [StringDetectRule.call, StringDetectRule.doReplaceExpressions] at h
    cases hr : replaceByCaptures q fuel r.m_string captures with
    | error e =>
      rw [hr] at h
      cases h
    | ok s =>
      rw [hr] at h
      simp only [Except.ok.injEq] at h
      rw [← h]

theorem StringDetectRule_calls_length (q : QCharOps) (fuel : Nat)
    (cs : List StringDetectRule.Call) :
    ∀ r0 r : StringDetectRule, (r0.m_length = (r0.m_string.length : Int) ∨ cs ≠ []) →
      StringDetectRule.calls q fuel r0 cs = Except.ok r →
      r.m_length = (r.m_string.length : Int) := by
  induction cs with
  | nil =>
    intro r0 r h0 h
    simp only [StringDetectRule.calls, Except.ok.injEq] at h
    rcases h0 with h0 | h0
    · rw [← h]
      exact h0
    · exact absurd rfl h0
  | cons c cs ih =>
    intro r0 r _ h
    unfold StringDetectRule.calls at h
    cases hc : StringDetectRule.call q fuel r0 c with
    | error e =>
      rw [hc] at h
      cases h
    | ok r1 =>
      rw [hc] at h
      exact ih r1 r (Or.inl (StringDetectRule_call_length q fuel r0 r1 c hc)) h

/-- C31. Length invariant of the literal-string rule: after any sequence of calls of
`setString` and `doReplaceExpressions` that return (at least one call, or a rule that had
the invariant before), the cached length `m_length` is the number of code units of
`m_string`. A rule configured as `%1_%2` and substituted with the captures `foo` and `bar`
holds the string `foo_bar` with the length `7`; at an offset it succeeds exactly when the
next `7` code units are `foo_bar`, and then advances the offset by `7`. -/
theorem StringDetectRule_length_invariant (q : QCharOps) (fuel : Nat)
    (r0 r : StringDetectRule) (cs : List StringDetectRule.Call)
    (h0 : r0.m_length = (r0.m_string.length : Int) ∨ cs ≠ [])
    (h : StringDetectRule.calls q fuel r0 cs = Except.ok r) :
    r.m_length = (r.m_string.length : Int) ∧
    StringDetectRule.calls asciiOps 2 freshRule fooBarCalls = Except.ok fooBarRule ∧
    ∀ (text : QString) (progress : ProgressData), 0 ≤ progress.offset →
      StringDetectRule.doMatchSucceed asciiOps fooBarRule text (text.length : Int) progress
        = some (if (text.drop progress.offset.toNat).take 7 = ofString "foo_bar" then
                  (true, progress.incrementOffsetBy 7)
                else (false, progress)) := by
  refine ⟨StringDetectRule_calls_length q fuel cs r0 r h0 h, rfl, ?_⟩
  intro text progress hp
  rw [StringDetectRule_eq asciiOps fooBarRule text progress hp (by decide)]
  have hlen : fooBarRule.m_length = 7 := rfl
  have hstr : fooBarRule.m_string = ofString "foo_bar" := rfl
  have hcs : fooBarRule.m_caseSensitivity = CaseSensitivity.CaseSensitive := rfl
  rw [hlen, hstr, hcs]
  have h7 : (7 : Int).toNat = 7 := rfl
  rw [h7]
  by_cases he : (text.drop progress.offset.toNat).take 7 = ofString "foo_bar"
  · have hl : ((text.drop progress.offset.toNat).take 7).length = 7 := by
      rw [he]
      rfl
    rw [List.length_take, List.length_drop] at hl
    rw [if_pos he, if_pos]
    refine ⟨by omega, ?_⟩
    simp only [compareEq, decide_eq_true_eq]
    exact he
  · rw [if_neg he, if_neg]
    rintro ⟨_, hc⟩
    simp only [compareEq, decide_eq_true_eq] at hc
    exact he hc

/-- Witness of C31: the rule configured as `%1_%2` and substituted with `foo` and `bar`. -/
theorem StringDetectRule_length_invariant_witness :
    (StringDetectRule.doMatchSucceed asciiOps fooBarRule (ofString "foo_bar!") 8
      (cursorAt 0)).map (fun r => (r.1, r.2.offset)) = some (true, 7) ∧
    (StringDetectRule.doMatchSucceed asciiOps fooBarRule (ofString "foo_baz!") 8
      (cursorAt 0)).map (fun r => (r.1, r.2.offset)) = some (false, 0) ∧
    (fooBarRule.m_length = (fooBarRule.m_string.length : Int) ∧
    StringDetectRule.calls asciiOps 2 freshRule fooBarCalls = Except.ok fooBarRule ∧
    ∀ (text : QString) (progress : ProgressData), 0 ≤ progress.offset →
      StringDetectRule.doMatchSucceed asciiOps fooBarRule text (text.length : Int) progress
        = some (if (text.drop progress.offset.toNat).take 7 = ofString "foo_bar" then
                  (true, progress.incrementOffsetBy 7)
                else (false, progress))) :=
  ⟨by decide, by decide,
    StringDetectRule_length_invariant asciiOps 2 freshRule fooBarRule fooBarCalls
      (Or.inr (List.cons_ne_nil _ _)) rfl⟩

/-- Witness of C33: the parameter `%1_%2` with the captures `foo` and `bar` becomes
`foo_bar` within two iterations. -/
theorem replaceByCaptures_safe_witness :
    placeholdersValid asciiOps fooBarCaptures.length patternFooBar = true ∧
    replaceByCaptures asciiOps 2 patternFooBar fooBarCaptures
      = Except.ok (ofString "foo_bar") ∧
    (∀ fuel, patternFooBar.count kPercent ≤ fuel →
      ∃ r, replaceByCaptures asciiOps fuel patternFooBar fooBarCaptures = Except.ok r) :=
  ⟨by decide, rfl,
    replaceByCaptures_safe asciiOps patternFooBar fooBarCaptures (by decide) (by decide)⟩

theorem erase_cases (x : Option (Bool × TracedProgress)) (y : Option (Bool × ProgressData))
    (h : x.map TracedProgress.erase = y) :
    (x = none ∧ y = none) ∨ ∃ b t1, x = some (b, t1) ∧ y = some (b, t1.progress) := by
  cases x with
  | none => exact Or.inl ⟨rfl, h.symm⟩
  | some r => exact Or.inr ⟨r.1, r.2, rfl, h.symm⟩

theorem Traced_matchCharacter_erase (text : QString) (length : Int) (t : TracedProgress)
    (c : QChar) (s : Bool) :
    (Traced.matchCharacter text length t c s).map TracedProgress.erase
      = matchCharacter text length t.progress c s := by
  unfold Traced.matchCharacter matchCharacter
  cases charAt text t.progress.offset with
  | none => rfl
  | some ch => by_cases h : ch = c <;> cases s <;> simp [h, TracedProgress.erase]

theorem Traced_predicateLoop_erase (p : QChar → Bool) (text : QString) (length : Int)
    (fuel : Nat) :
    ∀ t : TracedProgress,
      (Traced.predicateLoop p text length fuel t).map TracedProgress.progress
        = predicateLoop p text length fuel t.progress := by
  induction fuel with
  | zero => intro t; rfl
  | succ n ih =>
    intro t
    unfold Traced.predicateLoop predicateLoop
    by_cases hlt : t.progress.offset < length
    · rw [if_pos hlt, if_pos hlt]
      cases charAt text t.progress.offset with
      | none => rfl
      | some c =>
        by_cases hp : p c = true
        · simp only [hp, if_true]
          exact ih t.incrementOffset
        · simp [hp]
    · rw [if_neg hlt, if_neg hlt]
      rfl

theorem Traced_charPredicateMatchSucceed_erase (text : QString) (length : Int)
    (t : TracedProgress) (p : QChar → Bool) :
    (Traced.charPredicateMatchSucceed text length t p).map TracedProgress.erase
      = charPredicateMatchSucceed text length t.progress p := by
  unfold Traced.charPredicateMatchSucceed charPredicateMatchSucceed
  rw [← Traced_predicateLoop_erase]
  cases Traced.predicateLoop p text length (length - t.progress.offset).toNat t with
  | none => rfl
  | some t1 => rfl

theorem Traced_matchEscapeSequence_erase (text : QString) (length : Int)
    (t : TracedProgress) (s : Bool) :
    (Traced.matchEscapeSequence text length t s).map TracedProgress.erase
      = matchEscapeSequence text length t.progress s := by
  unfold Traced.matchEscapeSequence matchEscapeSequence
  rcases erase_cases _ _ (Traced_matchCharacter_erase text length t kBackSlash s)
    with ⟨hx, hy⟩ | ⟨b, t1, hx, hy⟩
  · rw [hx, hy]
    rfl
  · rw [hx, hy]
    cases b with
    | false => rfl
    | true =>
      dsimp only
      by_cases hlt : t1.progress.offset < length
      · rw [if_pos hlt, if_pos hlt]
        cases charAt text t1.progress.offset with
        | none => rfl
        | some c => by_cases he : isEscapeChar c = true <;> cases s <;>
            simp [he, TracedProgress.erase]
      · rw [if_neg hlt, if_neg hlt]
        cases s <;> simp [TracedProgress.erase]

theorem Traced_octalLoop_erase (text : QString) (length : Int) (fuel : Nat) :
    ∀ t : TracedProgress,
      (Traced.octalLoop text length fuel t).map TracedProgress.progress
        = octalLoop text length fuel t.progress := by
  induction fuel with
  | zero => intro t; rfl
  | succ n ih =>
    intro t
    unfold Traced.octalLoop octalLoop
    by_cases hlt : t.progress.offset < length
    · rw [if_pos hlt, if_pos hlt]
      cases charAt text t.progress.offset with
      | none => rfl
      | some c =>
        by_cases hp : isOctalDigit c = true
        · simp only [hp, if_true]
          exact ih t.incrementOffset
        · simp [hp]
    · rw [if_neg hlt, if_neg hlt]
      rfl

theorem map_progress_cases (x : Option TracedProgress) (y : Option ProgressData)
    (h : x.map TracedProgress.progress = y) :
    (x = none ∧ y = none) ∨ ∃ t1, x = some t1 ∧ y = some t1.progress := by
  cases x with
  | none => exact Or.inl ⟨rfl, h.symm⟩
  | some r => exact Or.inr ⟨r, rfl, h.symm⟩

theorem Traced_matchOctalSequence_erase (text : QString) (length : Int)
    (t : TracedProgress) (s : Bool) :
    (Traced.matchOctalSequence text length t s).map TracedProgress.erase
      = matchOctalSequence text length t.progress s := by
  unfold Traced.matchOctalSequence matchOctalSequence
  rcases erase_cases _ _ (Traced_matchCharacter_erase text length t kBackSlash s)
    with ⟨hx, hy⟩ | ⟨b, t1, hx, hy⟩
  · rw [hx, hy]
    rfl
  · rw [hx, hy]
    cases b with
    | false => rfl
    | true =>
      dsimp only
      rcases map_progress_cases _ _ (Traced_octalLoop_erase text length 3 t1)
        with ⟨hx2, hy2⟩ | ⟨t2, hx2, hy2⟩
      · rw [hx2, hy2]
        rfl
      · rw [hx2, hy2]
        dsimp only
        by_cases hne : t1.progress.offset ≠ t2.progress.offset <;> cases s <;>
          simp [hne, TracedProgress.erase]

theorem Traced_matchHexSequence_erase (text : QString) (length : Int)
    (t : TracedProgress) (s : Bool) :
    (Traced.matchHexSequence text length t s).map TracedProgress.erase
      = matchHexSequence text length t.progress s := by
  unfold Traced.matchHexSequence matchHexSequence
  rcases erase_cases _ _ (Traced_matchCharacter_erase text length t kBackSlash s)
    with ⟨hx, hy⟩ | ⟨b, t1, hx, hy⟩
  · rw [hx, hy]
    rfl
  · rw [hx, hy]
    cases b with
    | false => rfl
    | true =>
      dsimp only
      by_cases hlt : t1.progress.offset < length
      · rw [if_pos hlt, if_pos hlt]
        rcases erase_cases _ _ (Traced_matchCharacter_erase text length t1 kX false)
          with ⟨hx2, hy2⟩ | ⟨b2, t2, hx2, hy2⟩
        · rw [hx2, hy2]
          rfl
        · rw [hx2, hy2]
          cases b2 with
          | false => cases s <;> simp [TracedProgress.erase]
          | true =>
            dsimp only
            rcases map_progress_cases _ _ (Traced_predicateLoop_erase isHexDigit text length
              (length - t2.progress.offset).toNat t2) with ⟨hx3, hy3⟩ | ⟨t3, hx3, hy3⟩
            · rw [hx3, hy3]
              rfl
            · rw [hx3, hy3]
              dsimp only
              by_cases hne : t2.progress.offset ≠ t3.progress.offset <;> cases s <;>
                simp [hne, TracedProgress.erase]
      · rw [if_neg hlt, if_neg hlt]
        cases s <;> simp [TracedProgress.erase]


theorem Traced_Detect2CharsRule_erase (m_char m_char1 : QChar) (text : QString)
    (length : Int) (t : TracedProgress) :
    (Traced.Detect2CharsRule.doMatchSucceed m_char m_char1 text length t).map
        TracedProgress.erase
      = Detect2CharsRule.doMatchSucceed m_char m_char1 text length t.progress := by
  unfold Traced.Detect2CharsRule.doMatchSucceed Detect2CharsRule.doMatchSucceed
  rcases erase_cases _ _ (Traced_matchCharacter_erase text length t m_char true)
    with ⟨hx, hy⟩ | ⟨b, t1, hx, hy⟩
  · rw [hx, hy]
    rfl
  · rw [hx, hy]
    cases b with
    | false => rfl
    | true =>
      dsimp only
      by_cases hlt : t1.progress.offset < length
      · rw [if_pos hlt, if_pos hlt]
        rcases erase_cases _ _ (Traced_matchCharacter_erase text length t1 m_char1 false)
          with ⟨hx2, hy2⟩ | ⟨b2, t2, hx2, hy2⟩
        · rw [hx2, hy2]
          rfl
        · rw [hx2, hy2]
          cases b2 <;> rfl
      · rw [if_neg hlt, if_neg hlt]
        rfl

theorem Traced_AnyCharRule_erase (m_characterSet : QString) (text : QString)
    (length : Int) (t : TracedProgress) :
    (Traced.AnyCharRule.doMatchSucceed m_characterSet text length t).map TracedProgress.erase
      = AnyCharRule.doMatchSucceed m_characterSet text length t.progress := by
  unfold Traced.AnyCharRule.doMatchSucceed AnyCharRule.doMatchSucceed
  cases charAt text t.progress.offset with
  | none => rfl
  | some c => by_cases h : c ∈ m_characterSet <;> simp [h, TracedProgress.erase]

theorem Traced_StringDetectRule_erase (q : QCharOps) (r : StringDetectRule) (text : QString)
    (length : Int) (t : TracedProgress) :
    (Traced.StringDetectRule.doMatchSucceed q r text length t).map TracedProgress.erase
      = StringDetectRule.doMatchSucceed q r text length t.progress := by
  unfold Traced.StringDetectRule.doMatchSucceed StringDetectRule.doMatchSucceed
  by_cases hge : length - t.progress.offset ≥ r.m_length
  · rw [if_pos hge, if_pos hge]
    cases fromRawData text t.progress.offset r.m_length with
    | none => rfl
    | some candidate =>
      by_cases hc : compareEq q candidate r.m_string r.m_caseSensitivity = true <;>
        simp [hc, TracedProgress.erase]
  · rw [if_neg hge, if_neg hge]
    rfl

theorem Traced_RegExprRule_erase (m_expression : QRegExp) (text : QString)
    (length : Int) (t : TracedProgress) :
    (Traced.RegExprRule.doMatchSucceed m_expression text length t).map TracedProgress.erase
      = RegExprRule.doMatchSucceed m_expression text length t.progress := by
  unfold Traced.RegExprRule.doMatchSucceed RegExprRule.doMatchSucceed
  dsimp only
  by_cases hi : (m_expression.indexIn text t.progress.offset).index = t.progress.offset
  · rw [if_pos hi, if_pos hi]
    by_cases hz : (m_expression.indexIn text t.progress.offset).matchedLength = 0
    · rw [if_pos hz, if_pos hz]
      rfl
    · rw [if_neg hz, if_neg hz]
      rfl
  · rw [if_neg hi, if_neg hi]
    rfl

theorem Traced_KeywordRule_erase (q : QCharOps) (r : KeywordRule) (text : QString)
    (length : Int) (t : TracedProgress) :
    (Traced.KeywordRule.doMatchSucceed q r text length t).map TracedProgress.erase
      = KeywordRule.doMatchSucceed q r text length t.progress := by
  unfold Traced.KeywordRule.doMatchSucceed KeywordRule.doMatchSucceed
  dsimp only
  cases andAt (decide (t.progress.offset > 0)) text (t.progress.offset - 1)
      (fun c => !r.definition.isDelimiter c) with
  | none => rfl
  | some b =>
    cases b with
    | true => rfl
    | false =>
      dsimp only
      cases charAt text t.progress.offset with
      | none => rfl
      | some c =>
        dsimp only
        by_cases hd : r.definition.isDelimiter c = true
        · rw [if_pos hd, if_pos hd]
          rfl
        · rw [if_neg hd, if_neg hd]
          cases scanLoop (fun c => !r.definition.isDelimiter c) text length
              (length - t.progress.offset).toNat t.progress.offset with
          | none => rfl
          | some current1 =>
            dsimp only
            cases fromRawData text t.progress.offset (current1 - t.progress.offset) with
            | none => rfl
            | some candidate =>
              by_cases hk : r.keywordTest q candidate = true <;>
                simp [hk, TracedProgress.erase]

theorem Traced_IntRule_erase (q : QCharOps) (text : QString) (length : Int)
    (t : TracedProgress) :
    (Traced.IntRule.doMatchSucceed q text length t).map TracedProgress.erase
      = IntRule.doMatchSucceed q text length t.progress := by
  unfold Traced.IntRule.doMatchSucceed IntRule.doMatchSucceed
  dsimp only
  cases andAt (decide (t.progress.offset > 0)) text (t.progress.offset - 1) q.isDigit with
  | none => rfl
  | some b =>
    cases b with
    | true => rfl
    | false =>
      dsimp only
      cases charAt text t.progress.offset with
      | none => rfl
      | some c =>
        dsimp only
        by_cases hd : (q.isDigit c && c != kZero) = true
        · rw [if_pos hd, if_pos hd]
          rcases erase_cases _ _ (Traced_charPredicateMatchSucceed_erase text length
            t.incrementOffset q.isDigit) with ⟨hx, hy⟩ | ⟨b, t1, hx, hy⟩
          · rw [hx]
            simp only [TracedProgress.incrementOffset, TracedProgress.record] at hy
            rw [hy]
            rfl
          · rw [hx]
            simp only [TracedProgress.incrementOffset, TracedProgress.record] at hy
            rw [hy]
            rfl
        · rw [if_neg hd, if_neg hd]
          rfl

theorem Traced_FloatRule_finish_erase (a b c d : Bool) (t : TracedProgress) :
    TracedProgress.erase (Traced.FloatRule.finish a b c d t)
      = FloatRule.finish a b c d t.progress := by
  unfold Traced.FloatRule.finish FloatRule.finish
  by_cases h : ((a || b) && (c || d)) = true
  · rw [if_pos h, if_pos h]
    rfl
  · rw [if_neg h, if_neg h]
    rfl

theorem Traced_FloatRule_exponentBlock_erase (q : QCharOps) (text : QString) (length : Int)
    (a b c : Bool) (t : TracedProgress) :
    (Traced.FloatRule.exponentBlock q text length a b c t).map TracedProgress.erase
      = FloatRule.exponentBlock q text length a b c t.progress := by
  unfold Traced.FloatRule.exponentBlock FloatRule.exponentBlock
  dsimp only
  cases andAt (decide (t.progress.offset < length)) text t.progress.offset
      (fun c => c == kE || q.toLower c == kE) with
  | none => rfl
  | some m =>
    cases m with
    | false =>
      dsimp only
      rw [Option.map_some', Traced_FloatRule_finish_erase]
    | true =>
      dsimp only
      have e : t.incrementOffset.progress = t.progress.incrementOffset := rfl
      rw [e]
      cases andAt (decide (t.progress.incrementOffset.offset < length)) text
          t.progress.incrementOffset.offset (fun c => c == kPlus || c == kMinus) with
      | none => rfl
      | some sign =>
        dsimp only
        have e2 : (if sign = true then t.incrementOffset.incrementOffset
            else t.incrementOffset).progress
            = (if sign = true then t.progress.incrementOffset.incrementOffset
                else t.progress.incrementOffset) := by
          cases sign <;> rfl
        rcases erase_cases _ _ (Traced_charPredicateMatchSucceed_erase text length
          (if sign = true then t.incrementOffset.incrementOffset else t.incrementOffset)
          q.isDigit) with ⟨hx, hy⟩ | ⟨b2, t6, hx, hy⟩
        · rw [e2] at hy
          rw [hx, hy]
          rfl
        · rw [e2] at hy
          rw [hx, hy]
          cases b2
          · rfl
          · dsimp only
            rw [Option.map_some', Traced_FloatRule_finish_erase]


theorem Traced_FloatRule_erase (q : QCharOps) (text : QString) (length : Int)
    (t : TracedProgress) :
    (Traced.FloatRule.doMatchSucceed q text length t).map TracedProgress.erase
      = FloatRule.doMatchSucceed q text length t.progress := by
  unfold Traced.FloatRule.doMatchSucceed FloatRule.doMatchSucceed
  dsimp only
  rcases erase_cases _ _ (Traced_charPredicateMatchSucceed_erase text length
    t.saveOffset q.isDigit) with ⟨hx, hy⟩ | ⟨b1, t1, hx, hy⟩
  · have e : t.saveOffset.progress = t.progress.saveOffset := rfl
    rw [e] at hy
    rw [hx, hy]
    rfl
  · have e : t.saveOffset.progress = t.progress.saveOffset := rfl
    rw [e] at hy
    rw [hx, hy]
    dsimp only
    cases andAt (decide (t1.progress.offset < length)) text t1.progress.offset
        (fun c => c == kDot) with
    | none => rfl
    | some decimalPoint =>
      dsimp only
      have e2 : (if decimalPoint = true then t1.incrementOffset else t1).progress
          = (if decimalPoint = true then t1.progress.incrementOffset else t1.progress) := by
        cases decimalPoint <;> rfl
      rcases erase_cases _ _ (Traced_charPredicateMatchSucceed_erase text length
        (if decimalPoint = true then t1.incrementOffset else t1) q.isDigit)
        with ⟨hx2, hy2⟩ | ⟨b3, t3, hx2, hy2⟩
      · rw [e2] at hy2
        rw [hx2, hy2]
        rfl
      · rw [e2] at hy2
        rw [hx2, hy2]
        dsimp only
        exact Traced_FloatRule_exponentBlock_erase q text length b1 decimalPoint b3 t3

theorem Traced_HlCOctRule_erase (q : QCharOps) (text : QString) (length : Int)
    (t : TracedProgress) :
    (Traced.HlCOctRule.doMatchSucceed q text length t).map TracedProgress.erase
      = HlCOctRule.doMatchSucceed q text length t.progress := by
  unfold Traced.HlCOctRule.doMatchSucceed HlCOctRule.doMatchSucceed
  rcases erase_cases _ _ (Traced_matchCharacter_erase text length t kZero true)
    with ⟨hx, hy⟩ | ⟨b, t1, hx, hy⟩
  · rw [hx, hy]
    rfl
  · rw [hx, hy]
    cases b with
    | false => rfl
    | true =>
      dsimp only
      cases andAt (decide (t1.progress.offset < length)) text t1.progress.offset
          (fun c => c == kX || q.toLower c == kX) with
      | none => rfl
      | some m =>
        cases m with
        | true => rfl
        | false =>
          dsimp only
          rcases erase_cases _ _ (Traced_charPredicateMatchSucceed_erase text length
            t1 isOctalDigit) with ⟨hx2, hy2⟩ | ⟨b2, t2, hx2, hy2⟩
          · rw [hx2, hy2]
            rfl
          · rw [hx2, hy2]
            rfl

theorem Traced_HlCHexRule_erase (q : QCharOps) (text : QString) (length : Int)
    (t : TracedProgress) :
    (Traced.HlCHexRule.doMatchSucceed q text length t).map TracedProgress.erase
      = HlCHexRule.doMatchSucceed q text length t.progress := by
  unfold Traced.HlCHexRule.doMatchSucceed HlCHexRule.doMatchSucceed
  rcases erase_cases _ _ (Traced_matchCharacter_erase text length t kZero true)
    with ⟨hx, hy⟩ | ⟨b, t1, hx, hy⟩
  · rw [hx, hy]
    rfl
  · rw [hx, hy]
    cases b with
    | false => rfl
    | true =>
      dsimp only
      cases andAt (decide (t1.progress.offset < length)) text t1.progress.offset
          (fun c => c != kX && q.toLower c != kX) with
      | none => rfl
      | some m =>
        cases m with
        | true => rfl
        | false =>
          dsimp only
          have e : t1.incrementOffset.progress = t1.progress.incrementOffset := rfl
          rcases erase_cases _ _ (Traced_charPredicateMatchSucceed_erase text length
            t1.incrementOffset isHexDigit) with ⟨hx2, hy2⟩ | ⟨b2, t2, hx2, hy2⟩
          · rw [e] at hy2
            rw [hx2, hy2]
            rfl
          · rw [e] at hy2
            rw [hx2, hy2]
            cases b2 <;> rfl

theorem Traced_HlCStringCharRule_erase (text : QString) (length : Int)
    (t : TracedProgress) :
    (Traced.HlCStringCharRule.doMatchSucceed text length t).map TracedProgress.erase
      = HlCStringCharRule.doMatchSucceed text length t.progress := by
  unfold Traced.HlCStringCharRule.doMatchSucceed HlCStringCharRule.doMatchSucceed
  rcases erase_cases _ _ (Traced_matchEscapeSequence_erase text length t true)
    with ⟨hx, hy⟩ | ⟨b, t1, hx, hy⟩
  · rw [hx, hy]
    rfl
  · rw [hx, hy]
    cases b with
    | true => rfl
    | false =>
      dsimp only
      rcases erase_cases _ _ (Traced_matchOctalSequence_erase text length t1 true)
        with ⟨hx2, hy2⟩ | ⟨b2, t2, hx2, hy2⟩
      · rw [hx2, hy2]
        rfl
      · rw [hx2, hy2]
        cases b2 with
        | true => rfl
        | false =>
          dsimp only
          rcases erase_cases _ _ (Traced_matchHexSequence_erase text length t2 true)
            with ⟨hx3, hy3⟩ | ⟨b3, t3, hx3, hy3⟩
          · rw [hx3, hy3]
            rfl
          · rw [hx3, hy3]
            cases b3 <;> rfl

theorem Traced_HlCCharRule_erase (text : QString) (length : Int) (t : TracedProgress) :
    (Traced.HlCCharRule.doMatchSucceed text length t).map TracedProgress.erase
      = HlCCharRule.doMatchSucceed text length t.progress := by
  unfold Traced.HlCCharRule.doMatchSucceed HlCCharRule.doMatchSucceed
  rcases erase_cases _ _ (Traced_matchCharacter_erase text length t kSingleQuote true)
    with ⟨hx, hy⟩ | ⟨b, t1, hx, hy⟩
  · rw [hx, hy]
    rfl
  · rw [hx, hy]
    cases b with
    | false => rfl
    | true =>
      dsimp only
      by_cases hlt : t1.progress.offset < length
      · rw [if_pos hlt, if_pos hlt]
        cases charAt text t1.progress.offset with
        | none => rfl
        | some c =>
          dsimp only
          have hmid : (if (c != kBackSlash && c != kSingleQuote) = true
                then some (true, t1.incrementOffset)
                else Traced.matchEscapeSequence text length t1 false).map TracedProgress.erase
              = (if (c != kBackSlash && c != kSingleQuote) = true
                  then some (true, t1.progress.incrementOffset)
                  else matchEscapeSequence text length t1.progress false) := by
            by_cases hc : (c != kBackSlash && c != kSingleQuote) = true
            · rw [if_pos hc, if_pos hc]
              rfl
            · rw [if_neg hc, if_neg hc]
              exact Traced_matchEscapeSequence_erase text length t1 false
          rcases erase_cases _ _ hmid with ⟨hx2, hy2⟩ | ⟨b2, t2, hx2, hy2⟩
          · rw [hx2, hy2]
            rfl
          · rw [hx2, hy2]
            cases b2 with
            | false => rfl
            | true =>
              dsimp only
              by_cases hlt2 : t2.progress.offset < length
              · rw [if_pos hlt2, if_pos hlt2]
                rcases erase_cases _ _ (Traced_matchCharacter_erase text length t2
                  kSingleQuote false) with ⟨hx3, hy3⟩ | ⟨b3, t3, hx3, hy3⟩
                · rw [hx3, hy3]
                  rfl
                · rw [hx3, hy3]
                  cases b3 <;> rfl
              · rw [if_neg hlt2, if_neg hlt2]
                rfl
      · rw [if_neg hlt, if_neg hlt]
        rfl

theorem Traced_rangeLoop_erase (m_char1 : QChar) (text : QString) (length : Int)
    (fuel : Nat) :
    ∀ t : TracedProgress,
      (Traced.rangeLoop m_char1 text length fuel t).map TracedProgress.erase
        = rangeLoop m_char1 text length fuel t.progress := by
  induction fuel with
  | zero => intro t; rfl
  | succ n ih =>
    intro t
    unfold Traced.rangeLoop rangeLoop
    by_cases hlt : t.progress.offset < length
    · rw [if_pos hlt, if_pos hlt]
      rcases erase_cases _ _ (Traced_matchCharacter_erase text length t m_char1 false)
        with ⟨hx, hy⟩ | ⟨b, t1, hx, hy⟩
      · rw [hx, hy]
        rfl
      · rw [hx, hy]
        cases b with
        | true => rfl
        | false => exact ih t1.incrementOffset
    · rw [if_neg hlt, if_neg hlt]
      rfl

theorem Traced_RangeDetectRule_erase (m_char m_char1 : QChar) (text : QString)
    (length : Int) (t : TracedProgress) :
    (Traced.RangeDetectRule.doMatchSucceed m_char m_char1 text length t).map
        TracedProgress.erase
      = RangeDetectRule.doMatchSucceed m_char m_char1 text length t.progress := by
  unfold Traced.RangeDetectRule.doMatchSucceed RangeDetectRule.doMatchSucceed
  rcases erase_cases _ _ (Traced_matchCharacter_erase text length t m_char true)
    with ⟨hx, hy⟩ | ⟨b, t1, hx, hy⟩
  · rw [hx, hy]
    rfl
  · rw [hx, hy]
    cases b with
    | false => rfl
    | true =>
      dsimp only
      rcases erase_cases _ _ (Traced_rangeLoop_erase m_char1 text length
        (length - t1.progress.offset).toNat t1) with ⟨hx2, hy2⟩ | ⟨b2, t2, hx2, hy2⟩
      · rw [hx2, hy2]
        rfl
      · rw [hx2, hy2]
        cases b2 <;> rfl

theorem Traced_LineContinueRule_erase (text : QString) (length : Int) (t : TracedProgress) :
    (Traced.LineContinueRule.doMatchSucceed text length t).map TracedProgress.erase
      = LineContinueRule.doMatchSucceed text length t.progress := by
  unfold Traced.LineContinueRule.doMatchSucceed LineContinueRule.doMatchSucceed
  by_cases hne : t.progress.offset ≠ length - 1
  · rw [if_pos hne, if_pos hne]
    rfl
  · rw [if_neg hne, if_neg hne]
    cases charAt text t.progress.offset with
    | none => rfl
    | some c => by_cases hc : c = kBackSlash <;> simp [hc, TracedProgress.erase]

theorem Traced_DetectIdentifierRule_erase (q : QCharOps) (text : QString) (length : Int)
    (t : TracedProgress) :
    (Traced.DetectIdentifierRule.doMatchSucceed q text length t).map TracedProgress.erase
      = DetectIdentifierRule.doMatchSucceed q text length t.progress := by
  unfold Traced.DetectIdentifierRule.doMatchSucceed DetectIdentifierRule.doMatchSucceed
  cases charAt text t.progress.offset with
  | none => rfl
  | some c =>
    dsimp only
    by_cases hc : (q.isLetter c || c == kUnderscore) = true
    · rw [if_pos hc, if_pos hc]
      have e : t.incrementOffset.progress = t.progress.incrementOffset := rfl
      rcases map_progress_cases _ _ (Traced_predicateLoop_erase
        (fun current => q.isLetterOrNumber current || q.isMark current || current == kUnderscore)
        text length (length - t.incrementOffset.progress.offset).toNat t.incrementOffset)
        with ⟨hx, hy⟩ | ⟨t2, hx, hy⟩
      · rw [hx]
        rw [e] at hy
        rw [hy]
        rfl
      · rw [hx]
        rw [e] at hy
        rw [hy]
        rfl
    · rw [if_neg hc, if_neg hc]
      rfl

theorem Traced_Rule_erase (q : QCharOps) (rule : Rule) (text : QString) (length : Int)
    (t : TracedProgress) :
    (Traced.Rule.doMatchSucceed q rule text length t).map TracedProgress.erase
      = Rule.doMatchSucceed q rule text length t.progress := by
  cases rule with
  | detectChar c => exact Traced_matchCharacter_erase text length t c true
  | detect2Chars c c1 => exact Traced_Detect2CharsRule_erase c c1 text length t
  | anyChar cs => exact Traced_AnyCharRule_erase cs text length t
  | stringDetect r => exact Traced_StringDetectRule_erase q r text length t
  | regExpr e => exact Traced_RegExprRule_erase e text length t
  | keyword r => exact Traced_KeywordRule_erase q r text length t
  | int => exact Traced_IntRule_erase q text length t
  | float => exact Traced_FloatRule_erase q text length t
  | hlCOct => exact Traced_HlCOctRule_erase q text length t
  | hlCHex => exact Traced_HlCHexRule_erase q text length t
  | hlCStringChar => exact Traced_HlCStringCharRule_erase text length t
  | hlCChar => exact Traced_HlCCharRule_erase text length t
  | rangeDetect c c1 => exact Traced_RangeDetectRule_erase c c1 text length t
  | lineContinue => exact Traced_LineContinueRule_erase text length t
  | detectSpaces => exact Traced_charPredicateMatchSucceed_erase text length t q.isSpace
  | detectIdentifier => exact Traced_DetectIdentifierRule_erase q text length t

theorem Keeps_refl (B : Int) (t : TracedProgress) : TracedProgress.Keeps B t t :=
  ⟨fun _ ho => Or.inr ho, fun h => h, fun h => h⟩

theorem Keeps_trans (B : Int) (t t1 t2 : TracedProgress)
    (h1 : TracedProgress.Keeps B t t1) (h2 : TracedProgress.Keeps B t1 t2) :
    TracedProgress.Keeps B t t2 := by
  refine ⟨fun o ho => ?_, fun h => h2.2.1 (h1.2.1 h), fun h => h2.2.2 (h1.2.2 h)⟩
  rcases h2.1 o ho with h | h
  · exact Or.inl h
  · exact h1.1 o h

theorem Keeps_record (B : Int) (t : TracedProgress) (p : ProgressData)
    (ho : p.offset ≤ B) (hs : t.progress.savedOffset ≤ B → p.savedOffset ≤ B) :
    TracedProgress.Keeps B t (t.record p) := by
  refine ⟨fun o hm => ?_, hs, fun _ => ho⟩
  simp only [TracedProgress.record, List.mem_cons] at hm
  rcases hm with e | hm
  · exact Or.inl (by rw [e]; exact ho)
  · exact Or.inr hm

theorem Keeps_incrementOffset (B : Int) (t : TracedProgress) (h : t.progress.offset < B) :
    TracedProgress.Keeps B t t.incrementOffset :=
  Keeps_record B t _ (by simp; omega) (fun hs => hs)

theorem Keeps_restoreOffset (B : Int) (t : TracedProgress)
    (h : t.progress.savedOffset ≤ B) : TracedProgress.Keeps B t t.restoreOffset :=
  Keeps_record B t _ h (fun hs => hs)

theorem Keeps_saveOffset (B : Int) (t : TracedProgress) (h : t.progress.offset ≤ B) :
    TracedProgress.Keeps B t t.saveOffset :=
  ⟨fun _ ho => Or.inr ho, fun _ => h, fun h1 => h1⟩

theorem andAt_true_bounds (cond : Bool) (text : QString) (i : Int) (f : QChar → Bool)
    (h : andAt cond text i f = some true) : 0 ≤ i ∧ i < (text.length : Int) := by
  unfold andAt at h
  cases cond with
  | false => simp at h
  | true =>
    simp only [if_true] at h
    cases hc : charAt text i with
    | none =>
      rw [hc] at h
      cases h
    | some c => exact charAt_some_bounds text i c hc

theorem Traced_matchCharacter_keeps (text : QString) (t t1 : TracedProgress) (c : QChar)
    (s b : Bool)
    (h : Traced.matchCharacter text (text.length : Int) t c s = some (b, t1)) :
    TracedProgress.Keeps (text.length : Int) t t1 ∧
    (b = true → t1.progress.offset ≤ (text.length : Int)
      ∧ (s = true → t1.progress.savedOffset < (text.length : Int))) ∧
    (b = false → t1 = t) := by
  unfold Traced.matchCharacter at h
  cases hc : charAt text t.progress.offset with
  | none =>
    rw [hc] at h
    cases h
  | some ch =>
    have hb := charAt_some_bounds text _ _ hc
    rw [hc] at h
    dsimp only at h
    by_cases he : ch = c
    · rw [if_pos he] at h
      simp only [Option.some.injEq, Prod.mk.injEq] at h
      obtain ⟨hb1, ht1⟩ := h
      subst hb1
      subst ht1
      cases s with
      | false =>
        refine ⟨Keeps_incrementOffset _ t hb.2, fun _ => ⟨?_, fun h => (by cases h)⟩,
          fun h => (by cases h)⟩
        simp
        omega
      | true =>
        refine ⟨Keeps_trans _ t t.saveOffset _ (Keeps_saveOffset _ t (le_of_lt hb.2))
          (Keeps_incrementOffset _ t.saveOffset hb.2), fun _ => ⟨?_, fun _ => ?_⟩,
          fun h => (by cases h)⟩
        · simp
          omega
        · simpa using hb.2
    · rw [if_neg he] at h
      simp only [Option.some.injEq, Prod.mk.injEq] at h
      obtain ⟨hb1, ht1⟩ := h
      subst hb1
      subst ht1
      exact ⟨Keeps_refl _ _, fun h => (by cases h), fun _ => rfl⟩

theorem Traced_predicateLoop_keeps (p : QChar → Bool) (text : QString) (fuel : Nat) :
    ∀ t t1 : TracedProgress,
      Traced.predicateLoop p text (text.length : Int) fuel t = some t1 →
      TracedProgress.Keeps (text.length : Int) t t1 := by
  induction fuel with
  | zero =>
    intro t t1 h
    simp only [Traced.predicateLoop, Option.some.injEq] at h
    rw [← h]
    exact Keeps_refl _ _
  | succ n ih =>
    intro t t1 h
    unfold Traced.predicateLoop at h
    by_cases hlt : t.progress.offset < (text.length : Int)
    · rw [if_pos hlt] at h
      cases hc : charAt text t.progress.offset with
      | none =>
        rw [hc] at h
        cases h
      | some c =>
        rw [hc] at h
        dsimp only at h
        by_cases hp : p c = true
        · rw [if_pos hp] at h
          exact Keeps_trans _ t t.incrementOffset t1 (Keeps_incrementOffset _ t hlt)
            (ih _ _ h)
        · rw [if_neg hp] at h
          simp only [Option.some.injEq] at h
          rw [← h]
          exact Keeps_refl _ _
    · rw [if_neg hlt] at h
      simp only [Option.some.injEq] at h
      rw [← h]
      exact Keeps_refl _ _

theorem Traced_charPredicateMatchSucceed_keeps (text : QString) (t t1 : TracedProgress)
    (p : QChar → Bool) (b : Bool)
    (h : Traced.charPredicateMatchSucceed text (text.length : Int) t p = some (b, t1)) :
    TracedProgress.Keeps (text.length : Int) t t1 := by
  unfold Traced.charPredicateMatchSucceed at h
  cases hl : Traced.predicateLoop p text (text.length : Int)
      ((text.length : Int) - t.progress.offset).toNat t with
  | none =>
    rw [hl] at h
    cases h
  | some t2 =>
    rw [hl] at h
    simp only [Option.some.injEq, Prod.mk.injEq] at h
    rw [← h.2]
    exact Traced_predicateLoop_keeps p text _ t t2 hl

theorem Traced_octalLoop_keeps (text : QString) (fuel : Nat) :
    ∀ t t1 : TracedProgress,
      Traced.octalLoop text (text.length : Int) fuel t = some t1 →
      TracedProgress.Keeps (text.length : Int) t t1 := by
  induction fuel with
  | zero =>
    intro t t1 h
    simp only [Traced.octalLoop, Option.some.injEq] at h
    rw [← h]
    exact Keeps_refl _ _
  | succ n ih =>
    intro t t1 h
    unfold Traced.octalLoop at h
    by_cases hlt : t.progress.offset < (text.length : Int)
    · rw [if_pos hlt] at h
      cases hc : charAt text t.progress.offset with
      | none =>
        rw [hc] at h
        cases h
      | some c =>
        rw [hc] at h
        dsimp only at h
        by_cases hp : isOctalDigit c = true
        · rw [if_pos hp] at h
          exact Keeps_trans _ t t.incrementOffset t1 (Keeps_incrementOffset _ t hlt)
            (ih _ _ h)
        · rw [if_neg hp] at h
          simp only [Option.some.injEq] at h
          rw [← h]
          exact Keeps_refl _ _
    · rw [if_neg hlt] at h
      simp only [Option.some.injEq] at h
      rw [← h]
      exact Keeps_refl _ _

theorem Keeps_restore_after (B : Int) (t t1 : TracedProgress) (s : Bool)
    (hk : TracedProgress.Keeps B t t1) (hs : s = true → t1.progress.savedOffset ≤ B) :
    TracedProgress.Keeps B t (if s = true then t1.restoreOffset else t1) := by
  cases s with
  | false => exact hk
  | true => exact Keeps_trans B t t1 _ hk (Keeps_restoreOffset B t1 (hs rfl))

theorem Traced_matchEscapeSequence_keeps (text : QString) (t t1 : TracedProgress)
    (s b : Bool)
    (h : Traced.matchEscapeSequence text (text.length : Int) t s = some (b, t1)) :
    TracedProgress.Keeps (text.length : Int) t t1 := by
  unfold Traced.matchEscapeSequence at h
  cases hm : Traced.matchCharacter text (text.length : Int) t kBackSlash s with
  | none =>
    rw [hm] at h
    cases h
  | some r =>
    obtain ⟨b1, t2⟩ := r
    obtain ⟨hk, hT, hF⟩ := Traced_matchCharacter_keeps text t t2 kBackSlash s b1 hm
    rw [hm] at h
    cases b1 with
    | false =>
      simp only [Option.some.injEq, Prod.mk.injEq] at h
      rw [← h.2]
      exact hk
    | true =>
      have hsv : s = true → t2.progress.savedOffset ≤ (text.length : Int) :=
        fun hs => le_of_lt ((hT rfl).2 hs)
      dsimp only at h
      by_cases hlt : t2.progress.offset < (text.length : Int)
      · rw [if_pos hlt] at h
        cases hc : charAt text t2.progress.offset with
        | none =>
          rw [hc] at h
          cases h
        | some c =>
          rw [hc] at h
          dsimp only at h
          by_cases he : isEscapeChar c = true
          · rw [if_pos he] at h
            simp only [Option.some.injEq, Prod.mk.injEq] at h
            rw [← h.2]
            exact Keeps_trans _ t t2 _ hk (Keeps_incrementOffset _ t2 hlt)
          · rw [if_neg he] at h
            have h2 : some (false, if s = true then t2.restoreOffset else t2)
                = some (b, t1) := by
              cases s <;> simpa using h
            simp only [Option.some.injEq, Prod.mk.injEq] at h2
            rw [← h2.2]
            exact Keeps_restore_after _ t t2 s hk hsv
      · rw [if_neg hlt] at h
        have h2 : some (false, if s = true then t2.restoreOffset else t2)
            = some (b, t1) := by
          cases s <;> simpa using h
        simp only [Option.some.injEq, Prod.mk.injEq] at h2
        rw [← h2.2]
        exact Keeps_restore_after _ t t2 s hk hsv

theorem Traced_matchOctalSequence_keeps (text : QString) (t t1 : TracedProgress)
    (s b : Bool)
    (h : Traced.matchOctalSequence text (text.length : Int) t s = some (b, t1)) :
    TracedProgress.Keeps (text.length : Int) t t1 := by
  unfold Traced.matchOctalSequence at h
  cases hm : Traced.matchCharacter text (text.length : Int) t kBackSlash s with
  | none =>
    rw [hm] at h
    cases h
  | some r =>
    obtain ⟨b1, t2⟩ := r
    obtain ⟨hk, hT, hF⟩ := Traced_matchCharacter_keeps text t t2 kBackSlash s b1 hm
    rw [hm] at h
    cases b1 with
    | false =>
      simp only [Option.some.injEq, Prod.mk.injEq] at h
      rw [← h.2]
      exact hk
    | true =>
      dsimp only at h
      cases hl : Traced.octalLoop text (text.length : Int) 3 t2 with
      | none =>
        rw [hl] at h
        cases h
      | some t3 =>
        have hk3 := Traced_octalLoop_keeps text 3 t2 t3 hl
        have hsv : s = true → t3.progress.savedOffset ≤ (text.length : Int) :=
          fun hs => hk3.2.1 (le_of_lt ((hT rfl).2 hs))
        rw [hl] at h
        dsimp only at h
        by_cases hne : t2.progress.offset ≠ t3.progress.offset
        · rw [if_pos hne] at h
          simp only [Option.some.injEq, Prod.mk.injEq] at h
          rw [← h.2]
          exact Keeps_trans _ t t2 t3 hk hk3
        · rw [if_neg hne] at h
          have h2 : some (false, if s = true then t3.restoreOffset else t3)
              = some (b, t1) := by
            cases s <;> simpa using h
          simp only [Option.some.injEq, Prod.mk.injEq] at h2
          rw [← h2.2]
          exact Keeps_restore_after _ t t3 s (Keeps_trans _ t t2 t3 hk hk3) hsv

theorem Traced_matchHexSequence_keeps (text : QString) (t t1 : TracedProgress)
    (s b : Bool)
    (h : Traced.matchHexSequence text (text.length : Int) t s = some (b, t1)) :
    TracedProgress.Keeps (text.length : Int) t t1 := by
  unfold Traced.matchHexSequence at h
  cases hm : Traced.matchCharacter text (text.length : Int) t kBackSlash s with
  | none =>
    rw [hm] at h
    cases h
  | some r =>
    obtain ⟨b1, t2⟩ := r
    obtain ⟨hk, hT, hF⟩ := Traced_matchCharacter_keeps text t t2 kBackSlash s b1 hm
    rw [hm] at h
    cases b1 with
    | false =>
      simp only [Option.some.injEq, Prod.mk.injEq] at h
      rw [← h.2]
      exact hk
    | true =>
      have hsv : s = true → t2.progress.savedOffset ≤ (text.length : Int) :=
        fun hs => le_of_lt ((hT rfl).2 hs)
      dsimp only at h
      by_cases hlt : t2.progress.offset < (text.length : Int)
      · rw [if_pos hlt] at h
        cases hm2 : Traced.matchCharacter text (text.length : Int) t2 kX false with
        | none =>
          rw [hm2] at h
          cases h
        | some r2 =>
          obtain ⟨b2, t3⟩ := r2
          obtain ⟨hk2, _, _⟩ := Traced_matchCharacter_keeps text t2 t3 kX false b2 hm2
          have hk02 := Keeps_trans _ t t2 t3 hk hk2
          rw [hm2] at h
          cases b2 with
          | false =>
            have h2 : some (false, if s = true then t3.restoreOffset else t3)
                = some (b, t1) := by
              cases s <;> simpa using h
            simp only [Option.some.injEq, Prod.mk.injEq] at h2
            rw [← h2.2]
            exact Keeps_restore_after _ t t3 s hk02 (fun hs => hk2.2.1 (hsv hs))
          | true =>
            dsimp only at h
            cases hl : Traced.predicateLoop isHexDigit text (text.length : Int)
                ((text.length : Int) - t3.progress.offset).toNat t3 with
            | none =>
              rw [hl] at h
              cases h
            | some t4 =>
              have hk4 := Traced_predicateLoop_keeps isHexDigit text _ t3 t4 hl
              have hk04 := Keeps_trans _ t t3 t4 hk02 hk4
              rw [hl] at h
              dsimp only at h
              by_cases hne : t3.progress.offset ≠ t4.progress.offset
              · rw [if_pos hne] at h
                simp only [Option.some.injEq, Prod.mk.injEq] at h
                rw [← h.2]
                exact hk04
              · rw [if_neg hne] at h
                have h2 : some (false, if s = true then t4.restoreOffset else t4)
                    = some (b, t1) := by
                  cases s <;> simpa using h
                simp only [Option.some.injEq, Prod.mk.injEq] at h2
                rw [← h2.2]
                exact Keeps_restore_after _ t t4 s hk04
                  (fun hs => hk4.2.1 (hk2.2.1 (hsv hs)))
      · rw [if_neg hlt] at h
        have h2 : some (false, if s = true then t2.restoreOffset else t2)
            = some (b, t1) := by
          cases s <;> simpa using h
        simp only [Option.some.injEq, Prod.mk.injEq] at h2
        rw [← h2.2]
        exact Keeps_restore_after _ t t2 s hk hsv


theorem Traced_Detect2CharsRule_keeps (m_char m_char1 : QChar) (text : QString)
    (t t1 : TracedProgress) (b : Bool)
    (h : Traced.Detect2CharsRule.doMatchSucceed m_char m_char1 text (text.length : Int) t
      = some (b, t1)) :
    TracedProgress.Keeps (text.length : Int) t t1 := by
  unfold Traced.Detect2CharsRule.doMatchSucceed at h
  cases hm : Traced.matchCharacter text (text.length : Int) t m_char true with
  | none =>
    rw [hm] at h
    cases h
  | some r =>
    obtain ⟨b1, t2⟩ := r
    obtain ⟨hk, hT, _⟩ := Traced_matchCharacter_keeps text t t2 m_char true b1 hm
    rw [hm] at h
    cases b1 with
    | false =>
      simp only [Option.some.injEq, Prod.mk.injEq] at h
      rw [← h.2]
      exact hk
    | true =>
      have hsv : t2.progress.savedOffset ≤ (text.length : Int) := le_of_lt ((hT rfl).2 rfl)
      dsimp only at h
      by_cases hlt : t2.progress.offset < (text.length : Int)
      · rw [if_pos hlt] at h
        cases hm2 : Traced.matchCharacter text (text.length : Int) t2 m_char1 false with
        | none =>
          rw [hm2] at h
          cases h
        | some r2 =>
          obtain ⟨b2, t3⟩ := r2
          obtain ⟨hk2, _, _⟩ := Traced_matchCharacter_keeps text t2 t3 m_char1 false b2 hm2
          rw [hm2] at h
          cases b2 with
          | false =>
            simp only [Option.some.injEq, Prod.mk.injEq] at h
            rw [← h.2]
            exact Keeps_trans _ t t3 _ (Keeps_trans _ t t2 t3 hk hk2)
              (Keeps_restoreOffset _ t3 (hk2.2.1 hsv))
          | true =>
            simp only [Option.some.injEq, Prod.mk.injEq] at h
            rw [← h.2]
            exact Keeps_trans _ t t2 t3 hk hk2
      · rw [if_neg hlt] at h
        simp only [Option.some.injEq, Prod.mk.injEq] at h
        rw [← h.2]
        exact Keeps_trans _ t t2 _ hk (Keeps_restoreOffset _ t2 hsv)

theorem Traced_AnyCharRule_keeps (m_characterSet : QString) (text : QString)
    (t t1 : TracedProgress) (b : Bool)
    (h : Traced.AnyCharRule.doMatchSucceed m_characterSet text (text.length : Int) t
      = some (b, t1)) :
    TracedProgress.Keeps (text.length : Int) t t1 := by
  unfold Traced.AnyCharRule.doMatchSucceed at h
  cases hc : charAt text t.progress.offset with
  | none =>
    rw [hc] at h
    cases h
  | some c =>
    have hb := charAt_some_bounds text _ _ hc
    rw [hc] at h
    dsimp only at h
    by_cases hm : c ∈ m_characterSet
    · rw [if_pos hm] at h
      simp only [Option.some.injEq, Prod.mk.injEq] at h
      rw [← h.2]
      exact Keeps_incrementOffset _ t hb.2
    · rw [if_neg hm] at h
      simp only [Option.some.injEq, Prod.mk.injEq] at h
      rw [← h.2]
      exact Keeps_refl _ _

theorem Traced_StringDetectRule_keeps (q : QCharOps) (r : StringDetectRule) (text : QString)
    (t t1 : TracedProgress) (b : Bool)
    (h : Traced.StringDetectRule.doMatchSucceed q r text (text.length : Int) t
      = some (b, t1)) :
    TracedProgress.Keeps (text.length : Int) t t1 := by
  unfold Traced.StringDetectRule.doMatchSucceed at h
  by_cases hge : (text.length : Int) - t.progress.offset ≥ r.m_length
  · rw [if_pos hge] at h
    cases hf : fromRawData text t.progress.offset r.m_length with
    | none =>
      rw [hf] at h
      cases h
    | some candidate =>
      rw [hf] at h
      dsimp only at h
      by_cases hc : compareEq q candidate r.m_string r.m_caseSensitivity = true
      · rw [if_pos hc] at h
        simp only [Option.some.injEq, Prod.mk.injEq] at h
        rw [← h.2]
        exact Keeps_record _ t _ (by simp; omega) (fun hs => hs)
      · rw [if_neg hc] at h
        simp only [Option.some.injEq, Prod.mk.injEq] at h
        rw [← h.2]
        exact Keeps_refl _ _
  · rw [if_neg hge] at h
    simp only [Option.some.injEq, Prod.mk.injEq] at h
    rw [← h.2]
    exact Keeps_refl _ _

theorem Traced_RegExprRule_keeps (m_expression : QRegExp) (text : QString)
    (t t1 : TracedProgress) (b : Bool) (hs : m_expression.Sound text)
    (h : Traced.RegExprRule.doMatchSucceed m_expression text (text.length : Int) t
      = some (b, t1)) :
    TracedProgress.Keeps (text.length : Int) t t1 := by
  unfold Traced.RegExprRule.doMatchSucceed at h
  dsimp only at h
  by_cases hi : (m_expression.indexIn text t.progress.offset).index = t.progress.offset
  · rw [if_pos hi] at h
    have hb := hs t.progress.offset hi
    by_cases hz : (m_expression.indexIn text t.progress.offset).matchedLength = 0
    · rw [if_pos hz] at h
      simp only [Option.some.injEq, Prod.mk.injEq] at h
      rw [← h.2]
      exact Keeps_refl _ _
    · rw [if_neg hz] at h
      simp only [Option.some.injEq, Prod.mk.injEq] at h
      rw [← h.2]
      refine ⟨fun o hm => ?_, fun hsv => hsv, fun _ => hb.2⟩
      simp only [TracedProgress.setCaptures, TracedProgress.incrementOffsetBy,
        TracedProgress.record, ProgressData.incrementOffsetBy, List.mem_cons] at hm
      rcases hm with e | hm
      · exact Or.inl (by rw [e]; exact hb.2)
      · exact Or.inr hm
  · rw [if_neg hi] at h
    simp only [Option.some.injEq, Prod.mk.injEq] at h
    rw [← h.2]
    exact Keeps_refl _ _

theorem fromRawData_bounds (text : QString) (offset size : Int) (c : QString)
    (h : fromRawData text offset size = some c) : offset + size ≤ (text.length : Int) := by
  unfold fromRawData at h
  by_cases hc : 0 ≤ offset ∧ 0 ≤ size ∧ offset + size ≤ (text.length : Int)
  · exact hc.2.2
  · rw [if_neg hc] at h
    cases h

theorem Traced_KeywordRule_keeps (q : QCharOps) (r : KeywordRule) (text : QString)
    (t t1 : TracedProgress) (b : Bool)
    (h : Traced.KeywordRule.doMatchSucceed q r text (text.length : Int) t = some (b, t1)) :
    TracedProgress.Keeps (text.length : Int) t t1 := by
  unfold Traced.KeywordRule.doMatchSucceed at h
  dsimp only at h
  cases ha : andAt (decide (t.progress.offset > 0)) text (t.progress.offset - 1)
      (fun c => !r.definition.isDelimiter c) with
  | none =>
    rw [ha] at h
    cases h
  | some m =>
    rw [ha] at h
    cases m with
    | true =>
      simp only [Option.some.injEq, Prod.mk.injEq] at h
      rw [← h.2]
      exact Keeps_refl _ _
    | false =>
      dsimp only at h
      cases hc : charAt text t.progress.offset with
      | none =>
        rw [hc] at h
        cases h
      | some c =>
        rw [hc] at h
        dsimp only at h
        by_cases hd : r.definition.isDelimiter c = true
        · rw [if_pos hd] at h
          simp only [Option.some.injEq, Prod.mk.injEq] at h
          rw [← h.2]
          exact Keeps_refl _ _
        · rw [if_neg hd] at h
          cases hl : scanLoop (fun c => !r.definition.isDelimiter c) text (text.length : Int)
              ((text.length : Int) - t.progress.offset).toNat t.progress.offset with
          | none =>
            rw [hl] at h
            cases h
          | some current1 =>
            rw [hl] at h
            dsimp only at h
            cases hf : fromRawData text t.progress.offset (current1 - t.progress.offset) with
            | none =>
              rw [hf] at h
              cases h
            | some candidate =>
              have hb := fromRawData_bounds text _ _ _ hf
              rw [hf] at h
              dsimp only at h
              by_cases hk : r.keywordTest q candidate = true
              · rw [if_pos hk] at h
                simp only [Option.some.injEq, Prod.mk.injEq] at h
                rw [← h.2]
                exact Keeps_record _ t _ (by simp; omega) (fun hs => hs)
              · rw [if_neg hk] at h
                simp only [Option.some.injEq, Prod.mk.injEq] at h
                rw [← h.2]
                exact Keeps_refl _ _

theorem Traced_IntRule_keeps (q : QCharOps) (text : QString)
    (t t1 : TracedProgress) (b : Bool)
    (h : Traced.IntRule.doMatchSucceed q text (text.length : Int) t = some (b, t1)) :
    TracedProgress.Keeps (text.length : Int) t t1 := by
  unfold Traced.IntRule.doMatchSucceed at h
  dsimp only at h
  cases ha : andAt (decide (t.progress.offset > 0)) text (t.progress.offset - 1)
      q.isDigit with
  | none =>
    rw [ha] at h
    cases h
  | some m =>
    rw [ha] at h
    cases m with
    | true =>
      simp only [Option.some.injEq, Prod.mk.injEq] at h
      rw [← h.2]
      exact Keeps_refl _ _
    | false =>
      dsimp only at h
      cases hc : charAt text t.progress.offset with
      | none =>
        rw [hc] at h
        cases h
      | some c =>
        have hb := charAt_some_bounds text _ _ hc
        rw [hc] at h
        dsimp only at h
        by_cases hd : (q.isDigit c && c != kZero) = true
        · rw [if_pos hd] at h
          cases hp : Traced.charPredicateMatchSucceed text (text.length : Int)
              t.incrementOffset q.isDigit with
          | none =>
            rw [hp] at h
            cases h
          | some r =>
            obtain ⟨b2, t2⟩ := r
            rw [hp] at h
            simp only [Option.some.injEq, Prod.mk.injEq] at h
            rw [← h.2]
            exact Keeps_trans _ t _ t2 (Keeps_incrementOffset _ t hb.2)
              (Traced_charPredicateMatchSucceed_keeps text _ t2 q.isDigit b2 hp)
        · rw [if_neg hd] at h
          simp only [Option.some.injEq, Prod.mk.injEq] at h
          rw [← h.2]
          exact Keeps_refl _ _

theorem Traced_FloatRule_finish_keeps (B : Int) (a b c d : Bool) (t0 t : TracedProgress)
    (hk : TracedProgress.Keeps B t0 t) (hs : t.progress.savedOffset ≤ B) :
    TracedProgress.Keeps B t0 (Traced.FloatRule.finish a b c d t).2 := by
  unfold Traced.FloatRule.finish
  by_cases h : ((a || b) && (c || d)) = true
  · rw [if_pos h]
    exact hk
  · rw [if_neg h]
    exact Keeps_trans B t0 t _ hk (Keeps_restoreOffset B t hs)

theorem Keeps_incrementOffset_if (B : Int) (t : TracedProgress) (m : Bool)
    (h : m = true → t.progress.offset < B) :
    TracedProgress.Keeps B t (if m = true then t.incrementOffset else t) := by
  cases m with
  | false => exact Keeps_refl _ _
  | true => exact Keeps_incrementOffset B t (h rfl)

theorem Traced_FloatRule_exponentBlock_keeps (q : QCharOps) (text : QString) (a b c : Bool)
    (t t1 : TracedProgress) (r : Bool)
    (hs : t.progress.savedOffset ≤ (text.length : Int))
    (h : Traced.FloatRule.exponentBlock q text (text.length : Int) a b c t = some (r, t1)) :
    TracedProgress.Keeps (text.length : Int) t t1 := by
  unfold Traced.FloatRule.exponentBlock at h
  dsimp only at h
  cases ha : andAt (decide (t.progress.offset < (text.length : Int))) text t.progress.offset
      (fun c => c == kE || q.toLower c == kE) with
  | none =>
    rw [ha] at h
    cases h
  | some m =>
    rw [ha] at h
    cases m with
    | false =>
      dsimp only at h
      simp only [Option.some.injEq] at h
      have h2 : t1 = (Traced.FloatRule.finish a c b false t).2 := by rw [h]
      rw [h2]
      exact Traced_FloatRule_finish_keeps _ a c b false t t (Keeps_refl _ _) hs
    | true =>
      have hb := andAt_true_bounds _ _ _ _ ha
      have hk4 := Keeps_incrementOffset _ t hb.2
      dsimp only at h
      cases ha2 : andAt (decide (t.incrementOffset.progress.offset < (text.length : Int))) text
          t.incrementOffset.progress.offset (fun c => c == kPlus || c == kMinus) with
      | none =>
        rw [ha2] at h
        cases h
      | some sign =>
        rw [ha2] at h
        dsimp only at h
        have hk5 := Keeps_incrementOffset_if (text.length : Int) t.incrementOffset sign
          (fun hsg => by rw [hsg] at ha2; exact (andAt_true_bounds _ _ _ _ ha2).2)
        cases hp : Traced.charPredicateMatchSucceed text (text.length : Int)
            (if sign = true then t.incrementOffset.incrementOffset else t.incrementOffset)
            q.isDigit with
        | none =>
          rw [hp] at h
          cases h
        | some r6 =>
          obtain ⟨b6, t6⟩ := r6
          have hk6 := Traced_charPredicateMatchSucceed_keeps text _ t6 q.isDigit b6 hp
          have hk06 := Keeps_trans _ t _ t6 (Keeps_trans _ t _ _ hk4 hk5) hk6
          rw [hp] at h
          cases b6 with
          | false =>
            simp only [Option.some.injEq, Prod.mk.injEq] at h
            rw [← h.2]
            exact Keeps_trans _ t t6 _ hk06 (Keeps_restoreOffset _ t6 (hk06.2.1 hs))
          | true =>
            dsimp only at h
            simp only [Option.some.injEq] at h
            have h2 : t1 = (Traced.FloatRule.finish a c b true t6).2 := by rw [h]
            rw [h2]
            exact Traced_FloatRule_finish_keeps _ a c b true t t6 hk06 (hk06.2.1 hs)

theorem Traced_FloatRule_keeps (q : QCharOps) (text : QString)
    (t t1 : TracedProgress) (b : Bool) (h1 : t.progress.offset ≤ (text.length : Int))
    (h : Traced.FloatRule.doMatchSucceed q text (text.length : Int) t = some (b, t1)) :
    TracedProgress.Keeps (text.length : Int) t t1 := by
  unfold Traced.FloatRule.doMatchSucceed at h
  dsimp only at h
  have hk0 := Keeps_saveOffset (text.length : Int) t h1
  have hs0 : t.saveOffset.progress.savedOffset ≤ (text.length : Int) := h1
  cases hp : Traced.charPredicateMatchSucceed text (text.length : Int) t.saveOffset
      q.isDigit with
  | none =>
    rw [hp] at h
    cases h
  | some r1 =>
    obtain ⟨b1, t2⟩ := r1
    have hk1 := Traced_charPredicateMatchSucceed_keeps text _ t2 q.isDigit b1 hp
    rw [hp] at h
    dsimp only at h
    cases ha : andAt (decide (t2.progress.offset < (text.length : Int))) text
        t2.progress.offset (fun c => c == kDot) with
    | none =>
      rw [ha] at h
      cases h
    | some decimalPoint =>
      rw [ha] at h
      dsimp only at h
      have hk2 := Keeps_incrementOffset_if (text.length : Int) t2 decimalPoint
        (fun hd => by rw [hd] at ha; exact (andAt_true_bounds _ _ _ _ ha).2)
      cases hp3 : Traced.charPredicateMatchSucceed text (text.length : Int)
          (if decimalPoint = true then t2.incrementOffset else t2) q.isDigit with
      | none =>
        rw [hp3] at h
        cases h
      | some r3 =>
        obtain ⟨b3, t3⟩ := r3
        have hk3 := Traced_charPredicateMatchSucceed_keeps text _ t3 q.isDigit b3 hp3
        rw [hp3] at h
        dsimp only at h
        have hk03 := Keeps_trans _ _ _ t3 (Keeps_trans _ _ _ _ hk1 hk2) hk3
        have hke := Traced_FloatRule_exponentBlock_keeps q text b1 decimalPoint b3 t3 t1 b
          (hk03.2.1 hs0) h
        exact Keeps_trans _ t _ t1 hk0 (Keeps_trans _ _ t3 t1 hk03 hke)


theorem Traced_HlCOctRule_keeps (q : QCharOps) (text : QString)
    (t t1 : TracedProgress) (b : Bool)
    (h : Traced.HlCOctRule.doMatchSucceed q text (text.length : Int) t = some (b, t1)) :
    TracedProgress.Keeps (text.length : Int) t t1 := by
  unfold Traced.HlCOctRule.doMatchSucceed at h
  cases hm : Traced.matchCharacter text (text.length : Int) t kZero true with
  | none =>
    rw [hm] at h
    cases h
  | some r =>
    obtain ⟨b1, t2⟩ := r
    obtain ⟨hk, hT, _⟩ := Traced_matchCharacter_keeps text t t2 kZero true b1 hm
    rw [hm] at h
    cases b1 with
    | false =>
      simp only [Option.some.injEq, Prod.mk.injEq] at h
      rw [← h.2]
      exact hk
    | true =>
      have hsv : t2.progress.savedOffset ≤ (text.length : Int) := le_of_lt ((hT rfl).2 rfl)
      dsimp only at h
      cases ha : andAt (decide (t2.progress.offset < (text.length : Int))) text
          t2.progress.offset (fun c => c == kX || q.toLower c == kX) with
      | none =>
        rw [ha] at h
        cases h
      | some m =>
        rw [ha] at h
        cases m with
        | true =>
          simp only [Option.some.injEq, Prod.mk.injEq] at h
          rw [← h.2]
          exact Keeps_trans _ t t2 _ hk (Keeps_restoreOffset _ t2 hsv)
        | false =>
          dsimp only at h
          cases hp : Traced.charPredicateMatchSucceed text (text.length : Int) t2
              isOctalDigit with
          | none =>
            rw [hp] at h
            cases h
          | some r2 =>
            obtain ⟨b2, t3⟩ := r2
            rw [hp] at h
            simp only [Option.some.injEq, Prod.mk.injEq] at h
            rw [← h.2]
            exact Keeps_trans _ t t2 t3 hk
              (Traced_charPredicateMatchSucceed_keeps text t2 t3 isOctalDigit b2 hp)

theorem Traced_HlCHexRule_offsets (q : QCharOps) (text : QString)
    (t t1 : TracedProgress) (b : Bool)
    (h : Traced.HlCHexRule.doMatchSucceed q text (text.length : Int) t = some (b, t1)) :
    ∀ o ∈ t1.offsets, o ≤ (text.length : Int)
      ∨ (o = t.progress.offset + 2 ∧ t.progress.offset < (text.length : Int))
      ∨ o ∈ t.offsets := by
  unfold Traced.HlCHexRule.doMatchSucceed at h
  cases hm : Traced.matchCharacter text (text.length : Int) t kZero true with
  | none =>
    rw [hm] at h
    cases h
  | some r =>
    obtain ⟨b1, t2⟩ := r
    obtain ⟨hk, hT, hF⟩ := Traced_matchCharacter_keeps text t t2 kZero true b1 hm
    have hweak : ∀ tx, TracedProgress.Keeps (text.length : Int) t tx →
        ∀ o ∈ tx.offsets, o ≤ (text.length : Int)
          ∨ (o = t.progress.offset + 2 ∧ t.progress.offset < (text.length : Int))
          ∨ o ∈ t.offsets := by
      intro tx hx o ho
      rcases hx.1 o ho with h1 | h1
      · exact Or.inl h1
      · exact Or.inr (Or.inr h1)
    rw [hm] at h
    cases b1 with
    | false =>
      simp only [Option.some.injEq, Prod.mk.injEq] at h
      rw [← h.2]
      exact hweak t2 hk
    | true =>
      have hsv : t2.progress.savedOffset ≤ (text.length : Int) := le_of_lt ((hT rfl).2 rfl)
      have hentry : t2.progress.offset = t.progress.offset + 1
          ∧ t.progress.offset < (text.length : Int) := by
        unfold Traced.matchCharacter at hm
        cases hc : charAt text t.progress.offset with
        | none =>
          rw [hc] at hm
          cases hm
        | some ch =>
          have hb := charAt_some_bounds text _ _ hc
          rw [hc] at hm
          dsimp only at hm
          by_cases he : ch = kZero
          · rw [if_pos he] at hm
            simp only [Option.some.injEq, Prod.mk.injEq, true_and] at hm
            rw [← hm]
            exact ⟨rfl, hb.2⟩
          · rw [if_neg he] at hm
            simp at hm
      dsimp only at h
      cases ha : andAt (decide (t2.progress.offset < (text.length : Int))) text
          t2.progress.offset (fun c => c != kX && q.toLower c != kX) with
      | none =>
        rw [ha] at h
        cases h
      | some m =>
        rw [ha] at h
        cases m with
        | true =>
          simp only [Option.some.injEq, Prod.mk.injEq] at h
          rw [← h.2]
          exact hweak _ (Keeps_trans _ t t2 _ hk (Keeps_restoreOffset _ t2 hsv))
        | false =>
          dsimp only at h
          cases hp : Traced.charPredicateMatchSucceed text (text.length : Int)
              t2.incrementOffset isHexDigit with
          | none =>
            rw [hp] at h
            cases h
          | some r2 =>
            obtain ⟨b2, t3⟩ := r2
            have hk3 := Traced_charPredicateMatchSucceed_keeps text _ t3 isHexDigit b2 hp
            have hsv3 : t3.progress.savedOffset ≤ (text.length : Int) := hk3.2.1 hsv
            have hoff3 : ∀ o ∈ t3.offsets, o ≤ (text.length : Int)
                ∨ (o = t.progress.offset + 2 ∧ t.progress.offset < (text.length : Int))
                ∨ o ∈ t.offsets := by
              intro o ho
              rcases hk3.1 o ho with h1 | h1
              · exact Or.inl h1
              · simp only [TracedProgress.incrementOffset, TracedProgress.record,
                  ProgressData.incrementOffset, ProgressData.incrementOffsetBy,
                  List.mem_cons] at h1
                rcases h1 with e | h1
                · exact Or.inr (Or.inl ⟨by rw [e, hentry.1]; omega, hentry.2⟩)
                · exact hweak t2 hk o h1
            rw [hp] at h
            cases b2 with
            | true =>
              simp only [Option.some.injEq, Prod.mk.injEq] at h
              rw [← h.2]
              exact hoff3
            | false =>
              simp only [Option.some.injEq, Prod.mk.injEq] at h
              rw [← h.2]
              intro o ho
              simp only [TracedProgress.restoreOffset, TracedProgress.record,
                ProgressData.restoreOffset, List.mem_cons] at ho
              rcases ho with e | ho
              · exact Or.inl (by rw [e]; exact hsv3)
              · exact hoff3 o ho

theorem Traced_HlCStringCharRule_keeps (text : QString) (t t1 : TracedProgress) (b : Bool)
    (h : Traced.HlCStringCharRule.doMatchSucceed text (text.length : Int) t = some (b, t1)) :
    TracedProgress.Keeps (text.length : Int) t t1 := by
  unfold Traced.HlCStringCharRule.doMatchSucceed at h
  cases hm : Traced.matchEscapeSequence text (text.length : Int) t true with
  | none =>
    rw [hm] at h
    cases h
  | some r =>
    obtain ⟨b1, t2⟩ := r
    have hk := Traced_matchEscapeSequence_keeps text t t2 true b1 hm
    rw [hm] at h
    cases b1 with
    | true =>
      simp only [Option.some.injEq, Prod.mk.injEq] at h
      rw [← h.2]
      exact hk
    | false =>
      dsimp only at h
      cases hm2 : Traced.matchOctalSequence text (text.length : Int) t2 true with
      | none =>
        rw [hm2] at h
        cases h
      | some r2 =>
        obtain ⟨b2, t3⟩ := r2
        have hk2 := Keeps_trans _ t t2 t3 hk
          (Traced_matchOctalSequence_keeps text t2 t3 true b2 hm2)
        rw [hm2] at h
        cases b2 with
        | true =>
          simp only [Option.some.injEq, Prod.mk.injEq] at h
          rw [← h.2]
          exact hk2
        | false =>
          dsimp only at h
          cases hm3 : Traced.matchHexSequence text (text.length : Int) t3 true with
          | none =>
            rw [hm3] at h
            cases h
          | some r3 =>
            obtain ⟨b3, t4⟩ := r3
            have hk3 := Keeps_trans _ t t3 t4 hk2
              (Traced_matchHexSequence_keeps text t3 t4 true b3 hm3)
            rw [hm3] at h
            cases b3 with
            | true =>
              simp only [Option.some.injEq, Prod.mk.injEq] at h
              rw [← h.2]
              exact hk3
            | false =>
              simp only [Option.some.injEq, Prod.mk.injEq] at h
              rw [← h.2]
              exact hk3

theorem Traced_HlCCharRule_keeps (text : QString) (t t1 : TracedProgress) (b : Bool)
    (h : Traced.HlCCharRule.doMatchSucceed text (text.length : Int) t = some (b, t1)) :
    TracedProgress.Keeps (text.length : Int) t t1 := by
  unfold Traced.HlCCharRule.doMatchSucceed at h
  cases hm : Traced.matchCharacter text (text.length : Int) t kSingleQuote true with
  | none =>
    rw [hm] at h
    cases h
  | some r =>
    obtain ⟨b1, t2⟩ := r
    obtain ⟨hk, hT, _⟩ := Traced_matchCharacter_keeps text t t2 kSingleQuote true b1 hm
    rw [hm] at h
    cases b1 with
    | false =>
      simp only [Option.some.injEq, Prod.mk.injEq] at h
      rw [← h.2]
      exact hk
    | true =>
      have hsv : t2.progress.savedOffset ≤ (text.length : Int) := le_of_lt ((hT rfl).2 rfl)
      dsimp only at h
      by_cases hlt : t2.progress.offset < (text.length : Int)
      · rw [if_pos hlt] at h
        cases hc : charAt text t2.progress.offset with
        | none =>
          rw [hc] at h
          cases h
        | some c =>
          rw [hc] at h
          dsimp only at h
          cases hmid : (if (c != kBackSlash && c != kSingleQuote) = true
              then some (true, t2.incrementOffset)
              else Traced.matchEscapeSequence text (text.length : Int) t2 false) with
          | none =>
            rw [hmid] at h
            cases h
          | some r2 =>
            obtain ⟨b2, t3⟩ := r2
            have hk2 : TracedProgress.Keeps (text.length : Int) t2 t3 := by
              by_cases ho : (c != kBackSlash && c != kSingleQuote) = true
              · rw [if_pos ho] at hmid
                simp only [Option.some.injEq, Prod.mk.injEq] at hmid
                rw [← hmid.2]
                exact Keeps_incrementOffset _ t2 hlt
              · rw [if_neg ho] at hmid
                exact Traced_matchEscapeSequence_keeps text t2 t3 false b2 hmid
            have hk02 := Keeps_trans _ t t2 t3 hk hk2
            rw [hmid] at h
            cases b2 with
            | false =>
              simp only [Option.some.injEq, Prod.mk.injEq] at h
              rw [← h.2]
              exact Keeps_trans _ t t3 _ hk02 (Keeps_restoreOffset _ t3 (hk2.2.1 hsv))
            | true =>
              dsimp only at h
              by_cases hlt3 : t3.progress.offset < (text.length : Int)
              · rw [if_pos hlt3] at h
                cases hm3 : Traced.matchCharacter text (text.length : Int) t3
                    kSingleQuote false with
                | none =>
                  rw [hm3] at h
                  cases h
                | some r3 =>
                  obtain ⟨b3, t4⟩ := r3
                  obtain ⟨hk3, _, _⟩ :=
                    Traced_matchCharacter_keeps text t3 t4 kSingleQuote false b3 hm3
                  rw [hm3] at h
                  cases b3 with
                  | true =>
                    simp only [Option.some.injEq, Prod.mk.injEq] at h
                    rw [← h.2]
                    exact Keeps_trans _ t t3 t4 hk02 hk3
                  | false =>
                    simp only [Option.some.injEq, Prod.mk.injEq] at h
                    rw [← h.2]
                    exact Keeps_trans _ t t4 _ (Keeps_trans _ t t3 t4 hk02 hk3)
                      (Keeps_restoreOffset _ t4 (hk3.2.1 (hk2.2.1 hsv)))
              · rw [if_neg hlt3] at h
                simp only [Option.some.injEq, Prod.mk.injEq] at h
                rw [← h.2]
                exact Keeps_trans _ t t3 _ hk02 (Keeps_restoreOffset _ t3 (hk2.2.1 hsv))
      · rw [if_neg hlt] at h
        simp only [Option.some.injEq, Prod.mk.injEq] at h
        rw [← h.2]
        exact Keeps_trans _ t t2 _ hk (Keeps_restoreOffset _ t2 hsv)

theorem Traced_rangeLoop_keeps (m_char1 : QChar) (text : QString) (fuel : Nat) :
    ∀ (t t1 : TracedProgress) (b : Bool),
      Traced.rangeLoop m_char1 text (text.length : Int) fuel t = some (b, t1) →
      TracedProgress.Keeps (text.length : Int) t t1 := by
  induction fuel with
  | zero =>
    intro t t1 b h
    simp only [Traced.rangeLoop, Option.some.injEq, Prod.mk.injEq] at h
    rw [← h.2]
    exact Keeps_refl _ _
  | succ n ih =>
    intro t t1 b h
    unfold Traced.rangeLoop at h
    by_cases hlt : t.progress.offset < (text.length : Int)
    · rw [if_pos hlt] at h
      cases hm : Traced.matchCharacter text (text.length : Int) t m_char1 false with
      | none =>
        rw [hm] at h
        cases h
      | some r =>
        obtain ⟨b1, t2⟩ := r
        obtain ⟨hk, _, hF⟩ := Traced_matchCharacter_keeps text t t2 m_char1 false b1 hm
        rw [hm] at h
        cases b1 with
        | true =>
          simp only [Option.some.injEq, Prod.mk.injEq] at h
          rw [← h.2]
          exact hk
        | false =>
          dsimp only at h
          have e := hF rfl
          rw [e] at h
          exact Keeps_trans _ t t.incrementOffset t1 (Keeps_incrementOffset _ t hlt)
            (ih _ _ _ h)
    · rw [if_neg hlt] at h
      simp only [Option.some.injEq, Prod.mk.injEq] at h
      rw [← h.2]
      exact Keeps_refl _ _

theorem Traced_RangeDetectRule_keeps (m_char m_char1 : QChar) (text : QString)
    (t t1 : TracedProgress) (b : Bool)
    (h : Traced.RangeDetectRule.doMatchSucceed m_char m_char1 text (text.length : Int) t
      = some (b, t1)) :
    TracedProgress.Keeps (text.length : Int) t t1 := by
  unfold Traced.RangeDetectRule.doMatchSucceed at h
  cases hm : Traced.matchCharacter text (text.length : Int) t m_char true with
  | none =>
    rw [hm] at h
    cases h
  | some r =>
    obtain ⟨b1, t2⟩ := r
    obtain ⟨hk, hT, _⟩ := Traced_matchCharacter_keeps text t t2 m_char true b1 hm
    rw [hm] at h
    cases b1 with
    | false =>
      simp only [Option.some.injEq, Prod.mk.injEq] at h
      rw [← h.2]
      exact hk
    | true =>
      have hsv : t2.progress.savedOffset ≤ (text.length : Int) := le_of_lt ((hT rfl).2 rfl)
      dsimp only at h
      cases hl : Traced.rangeLoop m_char1 text (text.length : Int)
          ((text.length : Int) - t2.progress.offset).toNat t2 with
      | none =>
        rw [hl] at h
        cases h
      | some r2 =>
        obtain ⟨b2, t3⟩ := r2
        have hk2 := Traced_rangeLoop_keeps m_char1 text _ t2 t3 b2 hl
        rw [hl] at h
        cases b2 with
        | true =>
          simp only [Option.some.injEq, Prod.mk.injEq] at h
          rw [← h.2]
          exact Keeps_trans _ t t2 t3 hk hk2
        | false =>
          simp only [Option.some.injEq, Prod.mk.injEq] at h
          rw [← h.2]
          exact Keeps_trans _ t t3 _ (Keeps_trans _ t t2 t3 hk hk2)
            (Keeps_restoreOffset _ t3 (hk2.2.1 hsv))

theorem Traced_LineContinueRule_keeps (text : QString) (t t1 : TracedProgress) (b : Bool)
    (h : Traced.LineContinueRule.doMatchSucceed text (text.length : Int) t = some (b, t1)) :
    TracedProgress.Keeps (text.length : Int) t t1 := by
  unfold Traced.LineContinueRule.doMatchSucceed at h
  by_cases hne : t.progress.offset ≠ (text.length : Int) - 1
  · rw [if_pos hne] at h
    simp only [Option.some.injEq, Prod.mk.injEq] at h
    rw [← h.2]
    exact Keeps_refl _ _
  · rw [if_neg hne] at h
    cases hc : charAt text t.progress.offset with
    | none =>
      rw [hc] at h
      cases h
    | some c =>
      have hb := charAt_some_bounds text _ _ hc
      rw [hc] at h
      dsimp only at h
      by_cases hbs : c = kBackSlash
      · rw [if_pos hbs] at h
        simp only [Option.some.injEq, Prod.mk.injEq] at h
        rw [← h.2]
        have hk := Keeps_incrementOffset _ t hb.2
        exact ⟨hk.1, hk.2.1, hk.2.2⟩
      · rw [if_neg hbs] at h
        simp only [Option.some.injEq, Prod.mk.injEq] at h
        rw [← h.2]
        exact Keeps_refl _ _

theorem Traced_DetectIdentifierRule_keeps (q : QCharOps) (text : QString)
    (t t1 : TracedProgress) (b : Bool)
    (h : Traced.DetectIdentifierRule.doMatchSucceed q text (text.length : Int) t
      = some (b, t1)) :
    TracedProgress.Keeps (text.length : Int) t t1 := by
  unfold Traced.DetectIdentifierRule.doMatchSucceed at h
  cases hc : charAt text t.progress.offset with
  | none =>
    rw [hc] at h
    cases h
  | some c =>
    have hb := charAt_some_bounds text _ _ hc
    rw [hc] at h
    dsimp only at h
    by_cases hl : (q.isLetter c || c == kUnderscore) = true
    · rw [if_pos hl] at h
      cases hp : Traced.predicateLoop
          (fun current => q.isLetterOrNumber current || q.isMark current || current == kUnderscore)
          text (text.length : Int)
          ((text.length : Int) - t.incrementOffset.progress.offset).toNat
          t.incrementOffset with
      | none =>
        rw [hp] at h
        cases h
      | some t2 =>
        rw [hp] at h
        simp only [Option.some.injEq, Prod.mk.injEq] at h
        rw [← h.2]
        exact Keeps_trans _ t _ t2 (Keeps_incrementOffset _ t hb.2)
          (Traced_predicateLoop_keeps _ text _ _ t2 hp)
    · rw [if_neg hl] at h
      simp only [Option.some.injEq, Prod.mk.injEq] at h
      rw [← h.2]
      exact Keeps_refl _ _

theorem Traced_Rule_keeps (q : QCharOps) (rule : Rule) (text : QString)
    (t t1 : TracedProgress) (b : Bool) (hs : rule.EngineSound text)
    (hx : rule.isHlCHex = false) (h1 : t.progress.offset ≤ (text.length : Int))
    (h : Traced.Rule.doMatchSucceed q rule text (text.length : Int) t = some (b, t1)) :
    TracedProgress.Keeps (text.length : Int) t t1 := by
  cases rule with
  | detectChar c => exact (Traced_matchCharacter_keeps text t t1 c true b h).1
  | detect2Chars c c1 => exact Traced_Detect2CharsRule_keeps c c1 text t t1 b h
  | anyChar cs => exact Traced_AnyCharRule_keeps cs text t t1 b h
  | stringDetect r => exact Traced_StringDetectRule_keeps q r text t t1 b h
  | regExpr e => exact Traced_RegExprRule_keeps e text t t1 b hs h
  | keyword r => exact Traced_KeywordRule_keeps q r text t t1 b h
  | int => exact Traced_IntRule_keeps q text t t1 b h
  | float => exact Traced_FloatRule_keeps q text t t1 b h1 h
  | hlCOct => exact Traced_HlCOctRule_keeps q text t t1 b h
  | hlCHex => cases hx
  | hlCStringChar => exact Traced_HlCStringCharRule_keeps text t t1 b h
  | hlCChar => exact Traced_HlCCharRule_keeps text t t1 b h
  | rangeDetect c c1 => exact Traced_RangeDetectRule_keeps c c1 text t t1 b h
  | lineContinue => exact Traced_LineContinueRule_keeps text t t1 b h
  | detectSpaces => exact Traced_charPredicateMatchSucceed_keeps text t t1 q.isSpace b h
  | detectIdentifier => exact Traced_DetectIdentifierRule_keeps q text t t1 b h

/-- C32, as stated, fails: on the line `0` (length `1`) the C-style hex rule at offset `0`
gives the offset the values `1`, `2` and `0` in turn: after the leading `0` nothing is left,
the test for `x` is skipped, `incrementOffset` moves the offset to `2`, past the length, and
the failed digit run restores it to `0`. -/
theorem HlCHexRule_offset_passes_length :
    0 ≤ lineStart.offset ∧ lineStart.offset < (lineZero.length : Int) ∧
    (Traced.Rule.doMatchSucceed asciiOps Rule.hlCHex lineZero (lineZero.length : Int)
      (TracedProgress.start lineStart)).map (fun r => (r.1, r.2.offsets))
        = some (false, [0, 2, 1]) ∧
    ¬ (∀ b t1, Traced.Rule.doMatchSucceed asciiOps Rule.hlCHex lineZero
        (lineZero.length : Int) (TracedProgress.start lineStart) = some (b, t1) →
      ∀ o ∈ t1.offsets, o ≤ (lineZero.length : Int)) := by
  refine ⟨by decide, by decide, by decide, ?_⟩
  intro h
  have h2 := h false
    { progress := lineStart.saveOffset, offsets := [0, 2, 1] } (by decide) 2 (by decide)
  exact absurd h2 (by decide)

/-- C32, amended. Offsets during an attempt: for every configured rule variant (the
cached length of a literal-string rule being the length of its string, the regular
expression engine reporting matches inside the text), every line and every cursor with an
offset inside the line, the attempt returns, with the outcome of the rule; every value the
offset is given during the attempt is at most the length, except that the C-style hex rule
started on the last code unit of the line gives it the value length + 1 before restoring
it; the final offset is at most the length. -/
theorem Rule_offsets_bounded (q : QCharOps) (rule : Rule) (text : QString)
    (progress : ProgressData) (hw : rule.WellFormed) (hs : rule.EngineSound text)
    (h0 : 0 ≤ progress.offset) (h1 : progress.offset < (text.length : Int)) :
    ∃ b t1, Traced.Rule.doMatchSucceed q rule text (text.length : Int)
        (TracedProgress.start progress) = some (b, t1) ∧
      Rule.doMatchSucceed q rule text (text.length : Int) progress = some (b, t1.progress) ∧
      (∀ o ∈ t1.offsets, o ≤ (text.length : Int) ∨
        (rule.isHlCHex = true ∧ o = (text.length : Int) + 1
          ∧ progress.offset = (text.length : Int) - 1)) ∧
      (∀ o ∈ t1.offsets, o ≤ (text.length : Int) + 1) ∧
      t1.progress.offset ≤ (text.length : Int) := by
  obtain ⟨b, p1, hp⟩ := Rule_returns q rule text progress hw h0 h1
  have he := Traced_Rule_erase q rule text (text.length : Int) (TracedProgress.start progress)
  have hst : (TracedProgress.start progress).progress = progress := rfl
  rw [hst, hp] at he
  rcases erase_cases _ _ he with ⟨_, hy⟩ | ⟨b2, t1, hx, hy⟩
  · cases hy
  · simp only [Option.some.injEq, Prod.mk.injEq] at hy
    obtain ⟨hb, hp1⟩ := hy
    subst hb
    have hfin := (Rule_offset_bounds q rule text progress p1 b hs h0 h1 hp).2
    have hmain : ∀ o ∈ t1.offsets, o ≤ (text.length : Int) ∨
        (rule.isHlCHex = true ∧ o = (text.length : Int) + 1
          ∧ progress.offset = (text.length : Int) - 1) := by
      intro o ho
      cases hh : rule.isHlCHex with
      | false =>
        have hk := Traced_Rule_keeps q rule text (TracedProgress.start progress) t1 b hs hh
          (le_of_lt h1) hx
        rcases hk.1 o ho with h2 | h2
        · exact Or.inl h2
        · cases h2
      | true =>
        have hr : rule = Rule.hlCHex := by
          cases rule <;> first | rfl | cases hh
        subst hr
        rcases Traced_HlCHexRule_offsets q text (TracedProgress.start progress) t1 b hx o ho
          with h2 | ⟨h2, _⟩ | h2
        · exact Or.inl h2
        · rw [hst] at h2
          by_cases hle : o ≤ (text.length : Int)
          · exact Or.inl hle
          · exact Or.inr ⟨rfl, by omega, by omega⟩
        · cases h2
    refine ⟨b, t1, hx, by rw [hp, hp1], hmain, ?_, by rw [← hp1]; exact hfin⟩
    intro o ho
    rcases hmain o ho with h2 | ⟨_, h2, _⟩
    · omega
    · omega

/-- Witness of C32 as amended: the hex rule on the line `0` reaches the offset `2`, which is
length + 1; the range rule for `<` and `>` on the line `<ta` walks to the end of the line and
restores the offset, never passing the length `3`. -/
theorem Rule_offsets_bounded_witness :
    (Traced.Rule.doMatchSucceed asciiOps Rule.hlCHex lineZero 1
      (TracedProgress.start lineStart)).map (fun r => (r.1, r.2.offsets))
        = some (false, [0, 2, 1]) ∧
    (Traced.Rule.doMatchSucceed asciiOps (Rule.rangeDetect kLess kGreater) (ofString "<ta") 3
      (TracedProgress.start lineStart)).map (fun r => (r.1, r.2.offsets))
        = some (false, [0, 3, 2, 1]) ∧
    (
        ∃ b t1, Traced.Rule.doMatchSucceed asciiOps Rule.hlCHex lineZero (lineZero.length : Int)
            (TracedProgress.start lineStart) = some (b, t1) ∧
          Rule.doMatchSucceed asciiOps Rule.hlCHex lineZero (lineZero.length : Int) lineStart
            = some (b, t1.progress) ∧
          (∀ o ∈ t1.offsets, o ≤ (lineZero.length : Int) ∨
            (Rule.hlCHex.isHlCHex = true ∧ o = (lineZero.length : Int) + 1
              ∧ lineStart.offset = (lineZero.length : Int) - 1)) ∧
          (∀ o ∈ t1.offsets, o ≤ (lineZero.length : Int) + 1) ∧
          t1.progress.offset ≤ (lineZero.length : Int)) :=
  ⟨by decide, by decide,
    Rule_offsets_bounded asciiOps Rule.hlCHex lineZero lineStart trivial trivial
      (by decide) (by decide)⟩


/-- Witness of C5: the rule for `if` and `else` on the line `IF`. With case-sensitive
keywords in the definition it fails, also after `setInsensitive` with the empty string, and
succeeds after `setInsensitive` with `true`; with keywords that are not case sensitive in
the definition it succeeds, and fails after `setInsensitive` with `false`. -/
theorem KeywordRule_setInsensitive_spec_witness :
    (KeywordRule.doMatchSucceed asciiOps ifElseRule lineUpperIf 3 (cursorAt 0)).map
      (fun r => (r.1, r.2.offset)) = some (false, 0) ∧
    (KeywordRule.doMatchSucceed asciiOps
      (ifElseRule.setInsensitive toBoolSample (ofString "true")) lineUpperIf 3
      (cursorAt 0)).map (fun r => (r.1, r.2.offset)) = some (true, 2) ∧
    (KeywordRule.doMatchSucceed asciiOps
      (ifElseRule.setInsensitive toBoolSample []) lineUpperIf 3
      (cursorAt 0)).map (fun r => (r.1, r.2.offset)) = some (false, 0) ∧
    (KeywordRule.doMatchSucceed asciiOps ifElseInsensitiveRule lineUpperIf 3
      (cursorAt 0)).map (fun r => (r.1, r.2.offset)) = some (true, 2) ∧
    (KeywordRule.doMatchSucceed asciiOps
      (ifElseInsensitiveRule.setInsensitive toBoolSample (ofString "false")) lineUpperIf 3
      (cursorAt 0)).map (fun r => (r.1, r.2.offset)) = some (false, 0) ∧
    (
        (∃ b p1, KeywordRule.doMatchSucceed asciiOps (ifElseInsensitiveRule.setInsensitive
            toBoolSample (102 :: (ofString "alse"))) lineUpperIf
            (lineUpperIf.length : Int) lineStart = some (b, p1) ∧
          (b = true ↔
            KeywordRule.candidateStarts ifElseInsensitiveRule.definition lineUpperIf
                lineStart.offset ∧
            ifElseInsensitiveRule.m_list.isKeyword asciiOps
              (runText (fun c => !ifElseInsensitiveRule.definition.isDelimiter c) lineUpperIf
                  lineStart.offset)
              (if toBoolSample (102 :: (ofString "alse")) = true then
                  CaseSensitivity.CaseInsensitive
               else CaseSensitivity.CaseSensitive) = true)) ∧
        (∃ b p1, KeywordRule.doMatchSucceed asciiOps (KeywordRule.create ifElseRule.definition
            ifElseRule.m_list CaseSensitivity.CaseSensitive) lineUpperIf
            (lineUpperIf.length : Int) lineStart = some (b, p1) ∧
          (b = true ↔
            KeywordRule.candidateStarts ifElseRule.definition lineUpperIf lineStart.offset ∧
            ifElseRule.m_list.isKeyword asciiOps (runText (fun c =>
                !ifElseRule.definition.isDelimiter c) lineUpperIf lineStart.offset)
              ifElseRule.definition.keywordsSensitive = true)) ∧
        (∃ b p1, KeywordRule.doMatchSucceed asciiOps
            ((KeywordRule.create ifElseRule.definition ifElseRule.m_list
                CaseSensitivity.CaseSensitive).setInsensitive toBoolSample []) lineUpperIf
            (lineUpperIf.length : Int) lineStart = some (b, p1) ∧
          (b = true ↔
            KeywordRule.candidateStarts ifElseRule.definition lineUpperIf lineStart.offset ∧
            ifElseRule.m_list.isKeyword asciiOps (runText (fun c =>
                !ifElseRule.definition.isDelimiter c) lineUpperIf lineStart.offset)
              ifElseRule.definition.keywordsSensitive = true))) :=
  ⟨by decide, by decide, by decide, by decide, by decide,
    KeywordRule_setInsensitive_spec asciiOps toBoolSample ifElseInsensitiveRule
      ifElseRule.definition ifElseRule.m_list CaseSensitivity.CaseSensitive 102
      (ofString "alse") lineUpperIf lineStart (by decide) (by decide)⟩

/-- C26, as stated, fails: on the line of `a`, superscript two and a space, with a table in
which superscript two is a number but not a digit, the rule succeeds at offset `0` with the
new offset `2`; the code unit at offset `1` is not a letter, a combining mark, a digit or an
underscore, so the maximal run of such code units after the first code unit ends at offset
`1`, not at the new offset. -/
theorem DetectIdentifierRule_run_passes_other_number :
    DetectIdentifierRule.doMatchSucceed superscriptOps lineSuperscript 3 (cursorAt 0)
      = some (true, cursorAt 2) ∧
    charAt lineSuperscript 1 = some 178 ∧
    DetectIdentifierRule.continuesAsStated superscriptOps 178 = false ∧
    runEnd (DetectIdentifierRule.continuesAsStated superscriptOps) lineSuperscript 1 = 1 ∧
    ¬ MaximalRun (DetectIdentifierRule.continuesAsStated superscriptOps) lineSuperscript
        ((cursorAt 0).offset + 1) 2 := by
  refine ⟨by decide, by decide, by decide, by decide, ?_⟩
  intro h
  obtain ⟨c, hc, hp⟩ := h.2.2.1 1 (by decide) (by decide)
  have e : charAt lineSuperscript 1 = some 178 := by decide
  rw [e] at hc
  cases hc
  exact absurd hp (by decide)

end GenericHighlighter
